import Mathlib

/-!
# dnote/fileutils: FileExists, CopyFile, CopyDir

A shallow embedding of `main.go`.  The three exported functions are translated
line by line; the operating-system and library calls they make (`os.Stat`,
`os.Open`, `os.Create`, `io.Copy`, `os.Chmod`, `os.MkdirAll`, `ioutil.ReadDir`,
`filepath.Clean`, `filepath.Join`, `errors.Wrap`) are given an executable model
over a finite filesystem state.

Conventions of the model.

* A path string is kept as the list of its slash-separated segments:
  `a//b` is `["a", "", "b"]`, `/a` is `["", "a"]`, `/` is `["", ""]`, and the
  empty string is `[""]` (the empty list is read as the empty string too).
* The filesystem is a finite map from absolute locations (lists of entry names
  from the root) to entries; a later binding of a location shadows an earlier
  one.  There are regular files and directories only (no symbolic links).
* The process owns every entry and is not privileged, so access is decided by
  the owner permission bits (0400 read, 0200 write, 0100 search).
* Newly created entries get their mode with the bits of the process umask
  cleared, as `open(2)` and `mkdir(2)` do; `mkdir(2)` keeps only the permission
  and sticky bits of the requested mode and hands down the set-group-ID bit of
  the parent directory.
* A path string of 4096 bytes or more and an entry name of more than 255 bytes
  are refused with ENAMETOOLONG (the limits PATH_MAX and NAME_MAX of Linux).
* Reads, writes, `Sync` and `Close` on an open regular file do not fail, and
  there is no limit on the space used.
* `CopyDir` is recursive; its recursion depth is bounded by a fuel argument and
  `none` is returned when the bound is hit.

After the model come the location-level description of a directory copy
(`Run`, `DirCopy`), which the theorems relate to `CopyDir`, and the concrete
states used as examples.
-/

namespace Fileutils

/-! ## Filesystem state -/

deriving instance DecidableEq for Except

inductive Errno
  | ENOENT | ENOTDIR | EISDIR | EACCES | EEXIST | ENAMETOOLONG
  deriving DecidableEq, Repr

abbrev Path := List String

abbrev Loc := List String

abbrev FileMode := Nat

inductive Entry
  | file (mode : FileMode) (data : List Nat)
  | dir (mode : FileMode)
  deriving DecidableEq, Repr

structure FS where
  entries : List (Loc × Entry)
  cwd : Loc
  umask : FileMode
  deriving DecidableEq, Repr

def lookupLoc : List (Loc × Entry) → Loc → Option Entry
  | [], _ => none
  | (k, e) :: rest, loc => if k = loc then some e else lookupLoc rest loc

def FS.get (fs : FS) (loc : Loc) : Option Entry := lookupLoc fs.entries loc

def FS.put (fs : FS) (loc : Loc) (e : Entry) : FS :=
  { fs with entries := (loc, e) :: fs.entries }

def Entry.mode : Entry → FileMode
  | .file m _ => m
  | .dir m => m

def Entry.isDir : Entry → Bool
  | .file _ _ => false
  | .dir _ => true

def canRead (m : FileMode) : Bool := Nat.testBit m 8

def canWrite (m : FileMode) : Bool := Nat.testBit m 7

def canSearch (m : FileMode) : Bool := Nat.testBit m 6

/-- The mode an entry is created with: the requested bits minus those set in
the umask, of which only the permission bits (mask 0777) count. -/
def applyUmask (umask perm : FileMode) : FileMode := perm - (perm &&& (umask &&& 0o777))

/-- The mode `mkdir(2)` gives a new directory: the permission and sticky bits
of the requested mode (mask 01777) less the umask, with the set-group-ID bit
(02000) of the parent directory. -/
def mkdirMode (umask perm parent : FileMode) : FileMode :=
  applyUmask umask (perm &&& 0o1777) ||| (parent &&& 0o2000)

/-! ## Errors (`os.PathError`, `errors.New`, `errors.Wrap`) -/

inductive Error
  | pathError (op : String) (path : Path) (errno : Errno)
  | new (msg : String)
  | wrap (cause : Error) (msg : String)
  deriving DecidableEq, Repr

def Errno.text : Errno → String
  | .ENOENT => "no such file or directory"
  | .ENOTDIR => "not a directory"
  | .EISDIR => "is a directory"
  | .EACCES => "permission denied"
  | .EEXIST => "file exists"
  | .ENAMETOOLONG => "file name too long"

def pathString (p : Path) : String := String.intercalate "/" p

/-- The text of an error, as Go's `Error()` method renders it. -/
def Error.text : Error → String
  | .pathError op p e => op ++ " " ++ pathString p ++ ": " ++ e.text
  | .new msg => msg
  | .wrap c msg => msg ++ ": " ++ c.text

/-- Go's `os.IsNotExist`: true exactly for a path error carrying ENOENT. -/
def IsNotExist : Option Error → Bool
  | some (.pathError _ _ .ENOENT) => true
  | _ => false

/-! ## Path resolution -/

/-- A directory can be traversed when it exists, is a directory and is searchable. -/
def searchable (fs : FS) (loc : Loc) : Except Errno Unit :=
  match fs.get loc with
  | none => .error .ENOENT
  | some (.file _ _) => .error .ENOTDIR
  | some (.dir m) => if canSearch m then .ok () else .error .EACCES

/-- Where one path segment leads from `cur` (no check that `cur` is a directory). -/
def stepLoc (cur : Loc) (seg : String) : Loc :=
  if seg = "" ∨ seg = "." then cur
  else if seg = ".." then cur.dropLast
  else cur ++ [seg]

/-- Walking the segments of a path from `cur`: the directory a segment is
looked up in must be searchable, and a segment of more than 255 bytes
(NAME_MAX) is refused. -/
def walkFrom (fs : FS) : Loc → List String → Except Errno Loc
  | cur, [] => .ok cur
  | cur, seg :: rest =>
    match searchable fs cur with
    | .error e => .error e
    | .ok _ =>
      if 255 < seg.utf8ByteSize then .error .ENAMETOOLONG
      else walkFrom fs (stepLoc cur seg) rest

def isRooted : Path → Bool
  | "" :: _ :: _ => true
  | _ => false

def isEmptyPath (p : Path) : Bool := decide (p = [] ∨ p = [""])

/-- The length in bytes of a path string: its segments and the separators between them. -/
def pathBytes (p : Path) : Nat := (p.map String.utf8ByteSize).sum + (p.length - 1)

/-- Kernel path resolution: the location a path string denotes.  The empty
string names nothing and a string of 4096 bytes or more (PATH_MAX) is refused;
a path with a leading separator is walked from the root, any other from the
working directory.  The last segment need not exist; every directory passed
through must. -/
def resolve (fs : FS) (p : Path) : Except Errno Loc :=
  if isEmptyPath p then .error .ENOENT
  else if 4096 ≤ pathBytes p then .error .ENAMETOOLONG
  else walkFrom fs (if isRooted p then [] else fs.cwd) p

/-! ## System and library calls -/

structure FileInfo where
  isDir : Bool
  mode : FileMode
  deriving DecidableEq, Repr

def Entry.info (e : Entry) : FileInfo := ⟨e.isDir, e.mode⟩

/-- Model of `os.Stat`. -/
def Stat (fs : FS) (name : Path) : Except Error FileInfo :=
  match resolve fs name with
  | .error e => .error (.pathError "stat" name e)
  | .ok loc =>
    match fs.get loc with
    | none => .error (.pathError "stat" name .ENOENT)
    | some e => .ok e.info

/-- Model of `os.Open` (read-only); the handle is the location of the opened entry. -/
def Open (fs : FS) (name : Path) : Except Error Loc :=
  match resolve fs name with
  | .error e => .error (.pathError "open" name e)
  | .ok loc =>
    match fs.get loc with
    | none => .error (.pathError "open" name .ENOENT)
    | some e => if canRead e.mode then .ok loc else .error (.pathError "open" name .EACCES)

/-- Model of `os.Create`: open read-write, create with mode 0666 before umask, truncate. -/
def Create (fs : FS) (name : Path) : Except Error (FS × Loc) :=
  match resolve fs name with
  | .error e => .error (.pathError "open" name e)
  | .ok loc =>
    match fs.get loc with
    | some (.dir _) => .error (.pathError "open" name .EISDIR)
    | some (.file m _) =>
      if canRead m ∧ canWrite m then .ok (fs.put loc (.file m []), loc)
      else .error (.pathError "open" name .EACCES)
    | none =>
      match fs.get loc.dropLast with
      | some (.dir pm) =>
        if loc ≠ [] ∧ canWrite pm ∧ canSearch pm then
          .ok (fs.put loc (.file (applyUmask fs.umask 0o666) []), loc)
        else .error (.pathError "open" name .EACCES)
      | some (.file _ _) => .error (.pathError "open" name .ENOTDIR)
      | none => .error (.pathError "open" name .ENOENT)

/-- Model of `io.Copy(out, in)` on two open handles: read everything, write it. -/
def ioCopy (fs : FS) (out inp : Loc) : Except Error FS :=
  match fs.get inp with
  | some (.file _ data) =>
    match fs.get out with
    | some (.file m _) => .ok (fs.put out (.file m data))
    | _ => .error (.pathError "write" out .EISDIR)
  | _ => .error (.pathError "read" inp .EISDIR)

/-- Model of `(*os.File).Sync`; no failure is modelled. -/
def Sync (fs : FS) (_out : Loc) : Except Error FS := .ok fs

/-- Model of `(*os.File).Close`; no failure is modelled. -/
def Close (fs : FS) (_out : Loc) : Except Error FS := .ok fs

/-- Model of `os.Chmod`: the owner may always change the mode. -/
def Chmod (fs : FS) (name : Path) (mode : FileMode) : Except Error FS :=
  match resolve fs name with
  | .error e => .error (.pathError "chmod" name e)
  | .ok loc =>
    match fs.get loc with
    | none => .error (.pathError "chmod" name .ENOENT)
    | some (.file _ data) => .ok (fs.put loc (.file mode data))
    | some (.dir _) => .ok (fs.put loc (.dir mode))

/-- A path without its trailing separators (kept as is when nothing else is left). -/
def trimSlashes (p : Path) : Path :=
  (p.reverse.dropWhile (fun s => decide (s = ""))).reverse

/-- Model of `os.Mkdir`: trailing separators are allowed, the parent must be writable. -/
def Mkdir (fs : FS) (name : Path) (perm : FileMode) : Except Error FS :=
  match resolve fs (if trimSlashes name = [] then name else trimSlashes name) with
  | .error e => .error (.pathError "mkdir" name e)
  | .ok loc =>
    match fs.get loc with
    | some _ => .error (.pathError "mkdir" name .EEXIST)
    | none =>
      match fs.get loc.dropLast with
      | some (.dir pm) =>
        if loc ≠ [] ∧ canWrite pm ∧ canSearch pm then
          .ok (fs.put loc (.dir (mkdirMode fs.umask perm pm)))
        else .error (.pathError "mkdir" name .EACCES)
      | some (.file _ _) => .error (.pathError "mkdir" name .ENOTDIR)
      | none => .error (.pathError "mkdir" name .ENOENT)

/-- Model of `os.MkdirAll`, following the library code: stat the path; if that
fails, trim trailing separators, create the parent (the path up to the last
element) when there is one, then `Mkdir` the path, accepting an existing
directory.  The first argument bounds the recursion over ever shorter parents. -/
def MkdirAllAux : Nat → FS → Path → FileMode → FS × Option Error
  | 0, fs, path, _ => (fs, some (.pathError "mkdir" path .ENOENT))
  | n + 1, fs, path, perm =>
    match Stat fs path with
    | .ok fi => if fi.isDir then (fs, none) else (fs, some (.pathError "mkdir" path .ENOTDIR))
    | .error _ =>
      let parent := (trimSlashes path).dropLast
      match (if parent ≠ [] ∧ parent ≠ [""] then MkdirAllAux n fs parent perm else (fs, none)) with
      | (fs1, some err) => (fs1, some err)
      | (fs1, none) =>
        match Mkdir fs1 path perm with
        | .ok fs2 => (fs2, none)
        | .error err =>
          match Stat fs1 path with
          | .ok fi => if fi.isDir then (fs1, none) else (fs1, some err)
          | .error _ => (fs1, some err)

def MkdirAll (fs : FS) (path : Path) (perm : FileMode) : FS × Option Error :=
  MkdirAllAux (path.length + 1) fs path perm

structure DirEntry where
  name : String
  isDir : Bool
  deriving DecidableEq, Repr

/-- A proper entry name: not empty, not `.` or `..`, at most 255 bytes long. -/
def validName (s : String) : Bool :=
  decide (s ≠ "" ∧ s ≠ "." ∧ s ≠ ".." ∧ s.utf8ByteSize ≤ 255)

def lexLE : List Nat → List Nat → Bool
  | [], _ => true
  | _ :: _, [] => false
  | a :: as, b :: bs => if a < b then true else if b < a then false else lexLE as bs

/-- Order of entry names in a listing: lexicographic on code points, which is
the byte order of the UTF-8 strings that `sort.Slice` compares. -/
def nameLE (a b : String) : Prop :=
  lexLE (a.data.map Char.toNat) (b.data.map Char.toNat) = true

instance : DecidableRel nameLE := fun a b => by unfold nameLE; infer_instance

/-- The names bound directly under `loc`, without repetition. -/
def childNames (fs : FS) (loc : Loc) : List String :=
  ((fs.entries.filterMap
      (fun kv => if kv.1.dropLast = loc then kv.1.getLast? else none)).filter validName).dedup

def entryOf (fs : FS) (loc : Loc) (n : String) : DirEntry :=
  ⟨n, match fs.get (loc ++ [n]) with
      | some e => e.isDir
      | none => false⟩

/-- The listing of a directory location: the names of its children in ascending order. -/
def listing (fs : FS) (loc : Loc) : List String := (childNames fs loc).insertionSort nameLE

/-- Model of `ioutil.ReadDir`: open the directory, read all names, lstat each
by the path of the directory followed by the name (which needs search
permission on the directory and a path within the length limit), sort by name. -/
def ReadDir (fs : FS) (dirname : Path) : Except Error (List DirEntry) :=
  match Open fs dirname with
  | .error e => .error e
  | .ok loc =>
    match fs.get loc with
    | some (.dir m) =>
      if listing fs loc ≠ [] ∧ canSearch m = false then
        .error (.pathError "lstat" (dirname ++ (listing fs loc).take 1) .EACCES)
      else
        match (listing fs loc).find? (fun n => decide (4096 ≤ pathBytes (dirname ++ [n]))) with
        | some n => .error (.pathError "lstat" (dirname ++ [n]) .ENAMETOOLONG)
        | none => .ok ((listing fs loc).map (entryOf fs loc))
    | _ => .error (.pathError "readdirent" dirname .ENOTDIR)

/-- One element of `filepath.Clean`; `out` is the cleaned path so far, last element first. -/
def cleanStep (rooted : Bool) (out : List String) (seg : String) : List String :=
  if seg = "" ∨ seg = "." then out
  else if seg = ".." then
    match out with
    | top :: rest => if top = ".." then seg :: out else rest
    | [] => if rooted then [] else [".."]
  else seg :: out

/-- Model of `filepath.Clean`. -/
def Clean (p : Path) : Path :=
  let out := (p.foldl (cleanStep (isRooted p)) []).reverse
  if isRooted p then (if out = [] then ["", ""] else "" :: out)
  else (if out = [] then ["."] else out)

/-- The number of elements `filepath.Clean` keeps of a path. -/
def cleanLen (p : Path) : Nat := (p.foldl (cleanStep (isRooted p)) []).length

/-- A path written without `.`, `..` or empty segments: names separated by
single separators, with or without a leading separator. -/
def plainPath : Path → Bool
  | [] => false
  | s :: rest =>
    if s = "" then !rest.isEmpty && rest.all (fun x => decide (x ≠ "" ∧ x ≠ "." ∧ x ≠ ".."))
    else (s :: rest).all (fun x => decide (x ≠ "" ∧ x ≠ "." ∧ x ≠ ".."))

/-- Model of `filepath.Join` on two elements: empty elements are ignored, the
others are joined by a separator and the result is cleaned. -/
def Join (a : Path) (b : String) : Path :=
  if isEmptyPath a then (if b = "" then [""] else Clean [b])
  else if b = "" then Clean a
  else Clean (a ++ [b])

/-! ## The package -/

/-- FileExists checks if the file exists at the given path. -/
def FileExists (fs : FS) (filepath : Path) : Bool :=
  match Stat fs filepath with
  | .ok _ => !IsNotExist none
  | .error err => !IsNotExist (some err)

/-- CopyFile copies a file from the src to dest. -/
def CopyFile (fs : FS) (src dest : Path) : FS × Option Error :=
  match Open fs src with
  | .error err => (fs, some (.wrap err "opening the input file"))
  | .ok inp =>
    match Create fs dest with
    | .error err => (fs, some (.wrap err "creating the output file"))
    | .ok (fs1, out) =>
      match ioCopy fs1 out inp with
      | .error err => (fs1, some (.wrap err "copying the file content"))
      | .ok fs2 =>
        match Sync fs2 out with
        | .error err => (fs2, some (.wrap err "flushing the output file to disk"))
        | .ok fs3 =>
          match Stat fs3 src with
          | .error err => (fs3, some (.wrap err "getting the file info for the input file"))
          | .ok fi =>
            match Chmod fs3 dest fi.mode with
            | .error err => (fs3, some (.wrap err "copying permission to the output file"))
            | .ok fs4 =>
              match Close fs4 out with
              | .error err => (fs4, some (.wrap err "closing the output file"))
              | .ok fs5 => (fs5, none)

/-- The loop of CopyDir over the directory listing; `copyDir` is the recursive call. -/
def copyEntries (copyDir : FS → Path → Path → Option (FS × Option Error))
    (srcPath destPath : Path) : FS → List DirEntry → Option (FS × Option Error)
  | fs, [] => some (fs, none)
  | fs, entry :: rest =>
    let srcEntryPath := Join srcPath entry.name
    let destEntryPath := Join destPath entry.name
    if entry.isDir then
      match copyDir fs srcEntryPath destEntryPath with
      | none => none
      | some (fs1, some err) => some (fs1, some (.wrap err ("copying " ++ entry.name)))
      | some (fs1, none) => copyEntries copyDir srcPath destPath fs1 rest
    else
      match CopyFile fs srcEntryPath destEntryPath with
      | (fs1, some err) => some (fs1, some (.wrap err ("copying " ++ entry.name)))
      | (fs1, none) => copyEntries copyDir srcPath destPath fs1 rest

/-- CopyDir copies a directory from src to dest, recursively copying nested
directories.  The first argument bounds the recursion depth; `none` means the
bound was reached. -/
def CopyDir : Nat → FS → Path → Path → Option (FS × Option Error)
  | 0, _, _, _ => none
  | n + 1, fs, src, dest =>
    let srcPath := Clean src
    let destPath := Clean dest
    match Stat fs srcPath with
    | .error err => some (fs, some (.wrap err "getting the file info for the input"))
    | .ok fi =>
      if !fi.isDir then some (fs, some (.new "source is not a directory"))
      else
        match (match Stat fs dest with
               | .ok _ => (none : Option Error)
               | .error err => if !IsNotExist (some err) then some err else none) with
        | some err => some (fs, some (.wrap err "looking up the destination"))
        | none =>
          match MkdirAll fs dest fi.mode with
          | (fs1, some err) => some (fs1, some (.wrap err "creating destination"))
          | (fs1, none) =>
            match ReadDir fs1 src with
            | .error err => some (fs1, some (.wrap err "reading the directory listing for the input"))
            | .ok entries => copyEntries (CopyDir n) srcPath destPath fs1 entries

/-! ## Reading the state -/

/-- The scenario of the specification: `/a` holds `f.txt` (0644, "hi") and `b/g.txt` (0600, "yo"). -/
def scenario (umask : FileMode) : FS :=
  { entries := [([], .dir 0o755), (["a"], .dir 0o755),
                (["a", "f.txt"], .file 0o644 [104, 105]),
                (["a", "b"], .dir 0o755), (["a", "b", "g.txt"], .file 0o600 [121, 111])],
    cwd := [], umask := umask }


def DirStable (fs fs2 : FS) : Prop :=
  fs2.cwd = fs.cwd ∧ fs2.umask = fs.umask ∧
    ∀ loc e, fs.get loc = some e →
      ∃ e2, fs2.get loc = some e2 ∧ e2.isDir = e.isDir ∧ (e.isDir = true → e2 = e)

/-- The same tree with every directory open to all (mode 0777). -/
def scenarioOpen (umask : FileMode) : FS :=
  { entries := [([], .dir 0o777), (["a"], .dir 0o777),
                (["a", "f.txt"], .file 0o644 [104, 105]),
                (["a", "b"], .dir 0o777), (["a", "b", "g.txt"], .file 0o600 [121, 111])],
    cwd := [], umask := umask }

/-- A root holding one empty directory `/a`. -/
def emptyDirA : FS :=
  { entries := [([], .dir 0o755), (["a"], .dir 0o755)], cwd := [], umask := 0o022 }

/-- The number of directory levels below `loc`: the longest chain of names under it. -/
def treeDepth (fs : FS) (loc : Loc) : Nat :=
  ((fs.entries.filter (fun kv => decide (loc <+: kv.1))).map
    (fun kv => kv.1.length - loc.length)).foldr max 0

/-- The directory part of a path string: the path without its last element
(`.` when it has no separator, `/` for an element directly under the root). -/
def parentDir : Path → Path
  | [] => ["."]
  | [_] => ["."]
  | ["", _] => ["", ""]
  | p => p.dropLast

/-! ## What a directory copy does, in terms of locations -/

/-- The second state keeps every entry of the first (same kind, directories
unchanged) and agrees with it everywhere except possibly at `L`. -/
def SameBut (fs fs1 : FS) (L : Loc) : Prop :=
  DirStable fs fs1 ∧ ∀ loc, loc ≠ L → fs1.get loc = fs.get loc

/-- A successful copy of the regular file at `SL` to `L`. -/
def FileOk (fs : FS) (SL L : Loc) (fs1 : FS) : Prop :=
  SameBut fs fs1 L ∧ (fs.get L = none ∨ ∃ m d, fs.get L = some (.file m d)) ∧
    ∃ m d, fs.get SL = some (.file m d) ∧
      (∃ m1 d1, fs1.get L = some (.file m1 d1)) ∧ (SL ≠ L → fs1.get L = some (.file m d))

/-- A directory at `SL` is about to be copied to `L`: `L` is a directory
already, or is missing and gets created as a directory. -/
def Enter (fs : FS) (SL L : Loc) (fs1 : FS) : Prop :=
  ∃ m, fs.get SL = some (.dir m) ∧
    ((fs1 = fs ∧ ∃ dm, fs.get L = some (.dir dm)) ∨
      (fs.get L = none ∧ ∃ m2, fs1 = fs.put L (.dir m2)))

/-- The effect of the loop of CopyDir over the listed names, from directory `S`
to directory `D`: the state it ends in and whether every copy succeeded. -/
inductive Run : FS → Loc → Loc → List String → FS → Bool → Prop
  | done (fs : FS) (S D : Loc) : Run fs S D [] fs true
  | fileOk {fs fs1 fs2 : FS} {S D : Loc} {n : String} {rest : List String} {ok : Bool} :
      validName n = true → FileOk fs (S ++ [n]) (D ++ [n]) fs1 → Run fs1 S D rest fs2 ok →
      Run fs S D (n :: rest) fs2 ok
  | entryFail (fs : FS) (S D : Loc) (n : String) (rest : List String) :
      Run fs S D (n :: rest) fs false
  | mkdirOnly {fs : FS} {S D : Loc} {n : String} (rest : List String) {m : FileMode}
      (m2 : FileMode) :
      validName n = true → fs.get (S ++ [n]) = some (.dir m) → fs.get (D ++ [n]) = none →
      Run fs S D (n :: rest) (fs.put (D ++ [n]) (.dir m2)) false
  | dirFail {fs fs1 fs2 : FS} {S D : Loc} {n : String} (rest : List String) :
      validName n = true → Enter fs (S ++ [n]) (D ++ [n]) fs1 →
      Run fs1 (S ++ [n]) (D ++ [n]) (listing fs1 (S ++ [n])) fs2 false →
      Run fs S D (n :: rest) fs2 false
  | dirOk {fs fs1 fs2 fs3 : FS} {S D : Loc} {n : String} {rest : List String} {ok : Bool} :
      validName n = true → Enter fs (S ++ [n]) (D ++ [n]) fs1 →
      Run fs1 (S ++ [n]) (D ++ [n]) (listing fs1 (S ++ [n])) fs2 true →
      Run fs2 S D rest fs3 ok →
      Run fs S D (n :: rest) fs3 ok

/-- The effect of one CopyDir call from directory `SL` to `L`. -/
def DirCopy (fs : FS) (SL L : Loc) (fs2 : FS) (ok : Bool) : Prop :=
  (ok = false ∧ (fs2 = fs ∨ ∃ m m2, fs.get SL = some (.dir m) ∧ fs.get L = none ∧
      fs2 = fs.put L (.dir m2))) ∨
    ∃ fs1, Enter fs SL L fs1 ∧ Run fs1 SL L (listing fs1 SL) fs2 ok

/-- The destination of a CopyDir call is local at `L`: either it cannot be
looked up (for a reason other than absence), or its cleaned path denotes `L`
and `MkdirAll` on it changes nothing but, possibly, creates `L` itself. -/
def LocalDest (fs : FS) (dest : Path) (L : Loc) : Prop :=
  (∃ e, e ≠ Errno.ENOENT ∧ resolve fs dest = .error e) ∨
    (resolve fs (Clean dest) = .ok L ∧
      ∀ perm, (∃ e, fs.get L = some e ∧ e.isDir = true ∧ MkdirAll fs dest perm = (fs, none)) ∨
        (∃ err, MkdirAll fs dest perm = (fs, some err)) ∨
        (fs.get L = none ∧ ∃ m2, MkdirAll fs dest perm = (fs.put L (.dir m2), none)))

/-- Neither location lies inside the tree under the other. -/
def Apart (S D : Loc) : Prop := ¬ S <+: D ∧ ¬ D <+: S

/-- The relative path `rel` names an entry of the tree rooted at `S`: every
step goes through a directory by a proper entry name, and the entry exists. -/
def inTree (fs : FS) : Loc → List String → Prop
  | S, [] => fs.get S ≠ none
  | S, n :: rel => (∃ m, fs.get S = some (.dir m)) ∧ validName n = true ∧ inTree fs (S ++ [n]) rel

/-- The location `loc` is the destination counterpart of an entry of the source
tree: `loc = D ++ rel` for the relative path `rel` of an entry under `S`; and if
`loc` held a regular file, the source entry is a regular file. -/
def CopiedOver (fs : FS) (S D : Loc) (loc : Loc) : Prop :=
  ∃ rel, rel ≠ [] ∧ loc = D ++ rel ∧ inTree fs S rel ∧
    ∀ m d, fs.get loc = some (.file m d) → ∃ m2 d2, fs.get (S ++ rel) = some (.file m2 d2)

/-- The two states hold the same entries at and under `S`. -/
def AgreeUnder (S : Loc) (fs fs1 : FS) : Prop := ∀ loc, S <+: loc → fs1.get loc = fs.get loc

/-- The depth of the source tree of a call: the levels below the directory the
cleaned source path denotes (zero when it denotes nothing). -/
def srcDepth (fs : FS) (src : Path) : Nat :=
  match resolve fs (Clean src) with
  | .ok S => treeDepth fs S
  | .error _ => 0

/-- The scenario with a destination directory `/dest` already in place, holding
an unrelated file `keep.txt` and an older `f.txt`. -/
def scenarioWithDest : FS :=
  { entries := [([], .dir 0o755), (["a"], .dir 0o755),
                (["a", "f.txt"], .file 0o644 [104, 105]),
                (["a", "b"], .dir 0o755), (["a", "b", "g.txt"], .file 0o600 [121, 111]),
                (["dest"], .dir 0o700), (["dest", "keep.txt"], .file 0o640 [107]),
                (["dest", "f.txt"], .file 0o600 [111, 108, 100])],
    cwd := [], umask := 0o022 }

/-- The copy made for one entry in the loop of CopyDir (lines 90-98): a
recursive CopyDir for a directory entry, a CopyFile otherwise. -/
def copyEntry (copyDir : FS → Path → Path → Option (FS × Option Error))
    (srcPath destPath : Path) (fs : FS) (entry : DirEntry) : Option (FS × Option Error) :=
  if entry.isDir then copyDir fs (Join srcPath entry.name) (Join destPath entry.name)
  else some (CopyFile fs (Join srcPath entry.name) (Join destPath entry.name))

/-- The situation of the loop of CopyDir in a state `fs`: the cleaned source and
destination paths denote the directories `S` and `D`, and the entries still to
be copied are proper names of existing children of `S` with their kind. -/
def LoopCtx (fs : FS) (sp dp : Path) (S D : Loc) (es : List DirEntry) : Prop :=
  resolve fs sp = .ok S ∧ resolve fs dp = .ok D ∧ (∃ dm, fs.get D = some (.dir dm)) ∧
    (es ≠ [] → searchable fs S = .ok ()) ∧
    ∀ e ∈ es, validName e.name = true ∧
      ∃ en, fs.get (S ++ [e.name]) = some en ∧ en.isDir = e.isDir

/-- A state in which the copy of `/a` to `/dest` fails at its second entry:
`/a` holds `b/g.txt`, `f.txt` and `z.txt`, and `/dest/f.txt` is a directory. -/
def scenarioClash : FS :=
  { entries := [([], .dir 0o755), (["a"], .dir 0o755),
                (["a", "b"], .dir 0o755), (["a", "b", "g.txt"], .file 0o600 [121, 111]),
                (["a", "f.txt"], .file 0o644 [104, 105]),
                (["a", "z.txt"], .file 0o644 [122]),
                (["dest"], .dir 0o755), (["dest", "f.txt"], .dir 0o755)],
    cwd := [], umask := 0o022 }

/-- A state in which the copy of `/a` fails at its first entry: `/a` holds the
unreadable file `a0` and the directory `b`; `/dest` is an empty directory. -/
def scenarioUnreadable : FS :=
  { entries := [([], .dir 0o755), (["a"], .dir 0o755),
                (["a", "a0"], .file 0o000 [104, 105]),
                (["a", "b"], .dir 0o755), (["dest"], .dir 0o755)],
    cwd := [], umask := 0o022 }

/-- The state of `scenarioClash` once the first entry, `b`, has been copied. -/
def clashAfterB : FS :=
  match CopyDir 1 scenarioClash ["", "a", "b"] ["", "dest", "b"] with
  | some res => res.1
  | none => scenarioClash

/-- After the copy, `loc` is a directory: the one that was there before,
unchanged, or a new one. -/
def DirMade (fs fs2 : FS) (loc : Loc) : Prop :=
  ∃ m2, fs2.get loc = some (.dir m2) ∧ ∀ e, fs.get loc = some e → e = .dir m2

/-! ## Basic facts about the state -/

theorem get_put (fs : FS) (loc : Loc) (e : Entry) (loc2 : Loc) :
    (fs.put loc e).get loc2 = if loc = loc2 then some e else fs.get loc2 := by
  simp [FS.get, FS.put, lookupLoc]

theorem put_cwd (fs : FS) (loc : Loc) (e : Entry) : (fs.put loc e).cwd = fs.cwd := rfl

theorem put_umask (fs : FS) (loc : Loc) (e : Entry) : (fs.put loc e).umask = fs.umask := rfl

theorem DirStable.refl (fs : FS) : DirStable fs fs :=
  ⟨rfl, rfl, fun _ e h => ⟨e, h, rfl, fun _ => rfl⟩⟩

theorem DirStable.trans {a b c : FS} (h1 : DirStable a b) (h2 : DirStable b c) :
    DirStable a c := by
  refine ⟨h2.1.trans h1.1, h2.2.1.trans h1.2.1, fun loc e h => ?_⟩
  obtain ⟨e2, g2, k2, d2⟩ := h1.2.2 loc e h
  obtain ⟨e3, g3, k3, d3⟩ := h2.2.2 loc e2 g2
  refine ⟨e3, g3, k3.trans k2, fun hd => ?_⟩
  rw [d3 (k2.trans hd), d2 hd]

/-- Writing an entry of the same kind over an existing one, or a new entry, keeps directories. -/
theorem DirStable.put {fs : FS} {loc : Loc} {e : Entry}
    (h : ∀ e0, fs.get loc = some e0 → e0.isDir = e.isDir ∧ (e0.isDir = true → e = e0)) :
    DirStable fs (fs.put loc e) := by
  refine ⟨rfl, rfl, fun loc2 e0 h0 => ?_⟩
  rw [get_put]
  by_cases hl : loc = loc2
  · subst hl
    obtain ⟨hk, hd⟩ := h e0 h0
    exact ⟨e, by simp, hk.symm, fun hd2 => hd hd2⟩
  · exact ⟨e0, by simp [hl, h0], rfl, fun _ => rfl⟩

theorem searchable_stable {fs fs2 : FS} (h : DirStable fs fs2) {loc : Loc}
    (hs : searchable fs loc = .ok ()) : searchable fs2 loc = .ok () := by
  unfold searchable at hs ⊢
  cases hg : fs.get loc with
  | none => simp [hg] at hs
  | some e =>
    cases e with
    | file m d => simp [hg] at hs
    | dir m =>
      obtain ⟨e2, g2, _, d2⟩ := h.2.2 loc _ hg
      rw [g2, d2 rfl]
      simpa [hg] using hs

theorem walkFrom_stable {fs fs2 : FS} (h : DirStable fs fs2) (segs : List String) :
    ∀ (cur l : Loc), walkFrom fs cur segs = .ok l → walkFrom fs2 cur segs = .ok l := by
  induction segs with
  | nil => intro cur l hw; simpa [walkFrom] using hw
  | cons s rest ih =>
    intro cur l hw
    unfold walkFrom at hw ⊢
    cases hs : searchable fs cur with
    | error e => simp [hs] at hw
    | ok u =>
      rw [searchable_stable h hs]
      simp only [hs] at hw ⊢
      by_cases hlen : 255 < s.utf8ByteSize
      · simp [hlen] at hw
      · simp only [hlen, if_false] at hw ⊢
        exact ih _ _ hw

theorem resolve_stable {fs fs2 : FS} (h : DirStable fs fs2) {p : Path} {l : Loc}
    (hr : resolve fs p = .ok l) : resolve fs2 p = .ok l := by
  unfold resolve at hr ⊢
  by_cases he : isEmptyPath p = true
  · simp [he] at hr
  · simp only [he] at hr ⊢
    by_cases hlen : 4096 ≤ pathBytes p
    · simp [hlen] at hr
    · simp only [hlen, if_false] at hr ⊢
      rw [h.1]
      exact walkFrom_stable h _ _ _ hr

theorem put_file_stable {fs : FS} {loc : Loc} {m0 : FileMode} {d0 : List Nat}
    (hg : fs.get loc = some (.file m0 d0)) (m : FileMode) (d : List Nat) :
    DirStable fs (fs.put loc (.file m d)) := by
  apply DirStable.put
  intro e0 he
  rw [hg] at he
  cases he
  simp [Entry.isDir]

theorem put_new_stable {fs : FS} {loc : Loc} (hg : fs.get loc = none) (e : Entry) :
    DirStable fs (fs.put loc e) := by
  apply DirStable.put
  intro e0 he
  rw [hg] at he
  cases he

/-- C10: copying a readable and writable regular file onto itself succeeds and
leaves it a regular file with its permission bits and no content. -/
theorem CopyFile_self_empties (fs : FS) (p : Path) (loc : Loc) (m : FileMode) (d : List Nat)
    (hr : resolve fs p = .ok loc) (hg : fs.get loc = some (.file m d))
    (hread : canRead m = true) (hwrite : canWrite m = true) :
    (CopyFile fs p p).2 = none ∧
      resolve (CopyFile fs p p).1 p = .ok loc ∧
      (CopyFile fs p p).1.get loc = some (.file m []) := by
  have hO : Open fs p = .ok loc := by simp [Open, hr, hg, Entry.mode, hread]
  have hC : Create fs p = .ok (fs.put loc (.file m []), loc) := by
    simp [Create, hr, hg, hread, hwrite]
  have s1 : DirStable fs (fs.put loc (.file m [])) := put_file_stable hg _ _
  have g1 : (fs.put loc (.file m [])).get loc = some (.file m []) := by simp [get_put]
  have hI : ioCopy (fs.put loc (.file m [])) loc loc
      = .ok ((fs.put loc (.file m [])).put loc (.file m [])) := by
    simp [ioCopy, g1]
  have s2 : DirStable (fs.put loc (.file m [])) ((fs.put loc (.file m [])).put loc (.file m [])) :=
    put_file_stable g1 _ _
  have g2 : ((fs.put loc (.file m [])).put loc (.file m [])).get loc = some (.file m []) := by
    simp [get_put]
  have r2 := resolve_stable (s1.trans s2) hr
  have hS : Stat ((fs.put loc (.file m [])).put loc (.file m [])) p = .ok ⟨false, m⟩ := by
    simp [Stat, r2, g2, Entry.info, Entry.isDir, Entry.mode]
  have hM : Chmod ((fs.put loc (.file m [])).put loc (.file m [])) p m
      = .ok (((fs.put loc (.file m [])).put loc (.file m [])).put loc (.file m [])) := by
    simp [Chmod, r2, g2]
  have s3 := put_file_stable g2 m []
  have hAll : CopyFile fs p p
      = ((((fs.put loc (.file m [])).put loc (.file m [])).put loc (.file m [])), none) := by
    simp [CopyFile, hO, hC, hI, Sync, hS, hM, Close]
  rw [hAll]
  exact ⟨rfl, resolve_stable ((s1.trans s2).trans s3) hr, by simp [get_put]⟩

/-- C10 at a concrete state: `/a/f.txt` (0644, "hi") copied onto itself. -/
theorem CopyFile_self_empties_witness :
    (CopyFile (scenario 0o022) ["", "a", "f.txt"] ["", "a", "f.txt"]).2 = none ∧
      resolve (CopyFile (scenario 0o022) ["", "a", "f.txt"] ["", "a", "f.txt"]).1
        ["", "a", "f.txt"] = .ok ["a", "f.txt"] ∧
      (CopyFile (scenario 0o022) ["", "a", "f.txt"] ["", "a", "f.txt"]).1.get ["a", "f.txt"]
        = some (.file 0o644 []) :=
  CopyFile_self_empties (scenario 0o022) ["", "a", "f.txt"] ["a", "f.txt"] 0o644 [104, 105]
    (by decide) (by decide) (by decide) (by decide)

/-- C5 at a failing input: `a/f.txt/x` names nothing (its stat fails, with
ENOTDIR and not for lack of permission), yet FileExists answers true. -/
theorem FileExists_below_regular_file :
    Stat (scenario 0o022) ["a", "f.txt", "x"]
        = .error (.pathError "stat" ["a", "f.txt", "x"] .ENOTDIR) ∧
      (scenario 0o022).get ["a", "f.txt", "x"] = none ∧
      FileExists (scenario 0o022) ["a", "f.txt", "x"] = true := by
  decide

/-- C3 at a failing input: the empty path does not exist, but CopyDir from it
passes the stat of the cleaned path, creates the destination and only then
fails, reading the listing. -/
theorem CopyDir_empty_src_creates_dest :
    FileExists (scenario 0o022) [""] = false ∧
      (scenario 0o022).get ["out"] = none ∧
      ∀ n, ∃ fs2 err, CopyDir (n + 1) (scenario 0o022) [""] ["out"] = some (fs2, some err) ∧
        err.text = "reading the directory listing for the input: open : no such file or directory" ∧
        fs2.get ["out"] = some (.dir 0o755) := by
  refine ⟨by decide, by decide, fun n => ?_⟩
  refine ⟨(scenario 0o022).put ["out"] (.dir 0o755), _, rfl, by decide, by decide⟩

/-- C2 at a failing input: under umask 022 the copy of a directory of mode 0777
succeeds, and the directories it makes have mode 0755. -/
theorem CopyDir_umask_narrows_dir_mode :
    (scenarioOpen 0o022).get ["dest"] = none ∧
      (scenarioOpen 0o022).get ["a"] = some (.dir 0o777) ∧
      (scenarioOpen 0o022).get ["a", "b"] = some (.dir 0o777) ∧
      ∃ fs2, CopyDir 2 (scenarioOpen 0o022) ["", "a"] ["", "dest"] = some (fs2, none) ∧
        fs2.get ["dest"] = some (.dir 0o755) ∧
        fs2.get ["dest", "b"] = some (.dir 0o755) ∧
        fs2.get ["dest", "f.txt"] = some (.file 0o644 [104, 105]) ∧
        fs2.get ["dest", "b", "g.txt"] = some (.file 0o600 [121, 111]) := by
  refine ⟨by decide, by decide, by decide, _, rfl, ?_⟩
  decide

/-- C9 refuted: copying the empty directory `/a` (no level below it) into
`/a/b` is still recursing at depth 8.  And its copy to `/a/new/../../d`, that
is to `/d`, outside `/a`, needs one level of recursion as well: creating that
destination makes `/a/new` first, which is then listed and copied. -/
theorem CopyDir_into_itself_exceeds_depth :
    treeDepth emptyDirA ["a"] = 0 ∧
      CopyDir 8 emptyDirA ["", "a"] ["", "a", "b"] = none ∧
      resolve (MkdirAll emptyDirA ["", "a", "new", "..", "..", "d"] 0o755).1
        (Clean ["", "a", "new", "..", "..", "d"]) = .ok ["d"] ∧
      CopyDir 1 emptyDirA ["", "a"] ["", "a", "new", "..", "..", "d"] = none := by
  decide

theorem walkFrom_cons_ok_iff (fs : FS) (cur : Loc) (s : String) (r : List String) (l : Loc) :
    walkFrom fs cur (s :: r) = .ok l ↔
      searchable fs cur = .ok () ∧ s.utf8ByteSize ≤ 255 ∧
        walkFrom fs (stepLoc cur s) r = .ok l := by
  simp only [walkFrom]
  cases searchable fs cur with
  | error e => simp
  | ok u =>
    by_cases hlen : 255 < s.utf8ByteSize
    · simp [hlen]
    · simp [hlen, Nat.le_of_not_lt hlen]

/-- Names of at most two bytes are within the limit on names. -/
theorem short_name_ok {s : String} (h : s = "" ∨ s = "." ∨ s = "..") : s.utf8ByteSize ≤ 255 := by
  rcases h with rfl | rfl | rfl <;> decide

theorem walkFrom_append_ok_iff (fs : FS) (a b : List String) (l : Loc) :
    ∀ cur, walkFrom fs cur (a ++ b) = .ok l ↔
      ∃ c, walkFrom fs cur a = .ok c ∧ walkFrom fs c b = .ok l := by
  induction a with
  | nil => intro cur; simp [walkFrom]
  | cons s r ih =>
    intro cur
    simp only [List.cons_append, walkFrom_cons_ok_iff, ih]
    constructor
    · rintro ⟨h1, hl, c, h2, h3⟩; exact ⟨c, ⟨h1, hl, h2⟩, h3⟩
    · rintro ⟨c, ⟨h1, hl, h2⟩, h3⟩; exact ⟨h1, hl, c, h2, h3⟩

theorem walkFrom_snoc_ok_iff (fs : FS) (segs : List String) (s : String) (cur l : Loc) :
    walkFrom fs cur (segs ++ [s]) = .ok l ↔
      ∃ c, walkFrom fs cur segs = .ok c ∧ searchable fs c = .ok () ∧
        s.utf8ByteSize ≤ 255 ∧ l = stepLoc c s := by
  rw [walkFrom_append_ok_iff]
  constructor
  · rintro ⟨c, h1, h2⟩
    rw [walkFrom_cons_ok_iff] at h2
    refine ⟨c, h1, h2.1, h2.2.1, ?_⟩
    have := h2.2.2
    simp only [walkFrom, Except.ok.injEq] at this
    exact this.symm
  · rintro ⟨c, h1, h2, hl, h3⟩
    refine ⟨c, h1, ?_⟩
    rw [walkFrom_cons_ok_iff]
    exact ⟨h2, hl, by simp [walkFrom, h3]⟩

theorem searchable_ok_get {fs : FS} {loc : Loc} (h : searchable fs loc = .ok ()) :
    ∃ m, fs.get loc = some (.dir m) ∧ canSearch m = true := by
  unfold searchable at h
  cases hg : fs.get loc with
  | none => simp [hg] at h
  | some e =>
    cases e with
    | file m d => simp [hg] at h
    | dir m =>
      refine ⟨m, rfl, ?_⟩
      by_contra hc
      simp [hg, hc] at h

theorem searchable_of_get {fs : FS} {loc : Loc} {m : FileMode}
    (hg : fs.get loc = some (.dir m)) (hm : canSearch m = true) : searchable fs loc = .ok () := by
  simp [searchable, hg, hm]

theorem Stat_error_iff (fs : FS) (p : Path) :
    (∃ e, Stat fs p = .error e) ↔ ∀ c, resolve fs p = .ok c → fs.get c = none := by
  unfold Stat
  cases hr : resolve fs p with
  | error e => simp
  | ok c =>
    cases hg : fs.get c with
    | none => simp [hg]
    | some e => simp [hg]

theorem resolve_ok_iff (fs : FS) (p : Path) (l : Loc) :
    resolve fs p = .ok l ↔
      isEmptyPath p = false ∧ pathBytes p < 4096 ∧
        walkFrom fs (if isRooted p then [] else fs.cwd) p = .ok l := by
  unfold resolve
  cases h : isEmptyPath p
  · by_cases hlen : 4096 ≤ pathBytes p
    · simp [hlen]
    · simp [hlen, Nat.lt_of_not_le hlen]
  · simp

theorem pathBytes_snoc (a : Path) (s : String) :
    pathBytes (a ++ [s]) = pathBytes a + s.utf8ByteSize + (if a = [] then 0 else 1) := by
  cases a with
  | nil => simp [pathBytes]
  | cons x r =>
    simp only [pathBytes, List.map_append, List.sum_append, List.map_cons, List.sum_cons,
      List.map_nil, List.sum_nil, List.length_append, List.length_cons, List.length_nil]
    simp
    omega

theorem pathBytes_dropLast_le (p : Path) : pathBytes p.dropLast ≤ pathBytes p := by
  rcases List.eq_nil_or_concat p with rfl | ⟨a, s, rfl⟩
  · simp
  · rw [List.concat_eq_append, List.dropLast_concat, pathBytes_snoc]
    omega

theorem pathBytes_parentDir {p : Path} (h : pathBytes p < 4096) :
    pathBytes (parentDir p) < 4096 := by
  unfold parentDir
  split
  · decide
  · decide
  · decide
  · exact lt_of_le_of_lt (pathBytes_dropLast_le _) h

/-- A path that resolves has a directory part that resolves to an existing directory. -/
theorem resolve_parentDir {fs : FS} {p : Path} {l : Loc} (h : resolve fs p = .ok l) :
    ∃ c m, resolve fs (parentDir p) = .ok c ∧ fs.get c = some (.dir m) := by
  have hpb := pathBytes_parentDir ((resolve_ok_iff _ _ _).1 h).2.1
  rw [resolve_ok_iff] at h
  obtain ⟨hne, _, hw⟩ := h
  match p, hne, hw, hpb with
  | [], hne, _, _ => simp [isEmptyPath] at hne
  | [s], hne, hw, hpb =>
    have hs : s ≠ "" := by intro h0; simp [isEmptyPath, h0] at hne
    have hr : isRooted [s] = false := by unfold isRooted; split <;> simp_all
    rw [hr] at hw
    simp only [Bool.false_eq_true, if_false, walkFrom_cons_ok_iff] at hw
    obtain ⟨m, hm, hx⟩ := searchable_ok_get hw.1
    refine ⟨fs.cwd, m, ?_, hm⟩
    have hp : parentDir [s] = ["."] := by unfold parentDir; split <;> simp_all
    rw [resolve_ok_iff, hp]
    refine ⟨rfl, by decide, ?_⟩
    have : isRooted ["."] = false := rfl
    rw [this]
    simp only [Bool.false_eq_true, if_false, walkFrom_cons_ok_iff]
    exact ⟨hw.1, by decide, by simp [stepLoc, walkFrom]⟩
  | [a, b], hne, hw, hpb =>
    by_cases ha : a = ""
    · subst ha
      have hr : isRooted ["", b] = true := rfl
      rw [hr] at hw
      simp only [if_true, walkFrom_cons_ok_iff] at hw
      obtain ⟨m, hm, hx⟩ := searchable_ok_get hw.1
      refine ⟨[], m, ?_, hm⟩
      rw [resolve_ok_iff]
      refine ⟨rfl, (by show pathBytes ["", ""] < 4096; decide), ?_⟩
      have : isRooted (parentDir ["", b]) = true := rfl
      rw [this]
      simp only [if_true, parentDir, walkFrom_cons_ok_iff]
      exact ⟨hw.1, by decide, by simp [stepLoc, hw.1], by decide, by simp [stepLoc, walkFrom]⟩
    · have hr : isRooted [a, b] = false := by unfold isRooted; split <;> simp_all
      have hp : parentDir [a, b] = [a] := by unfold parentDir; split <;> simp_all
      rw [hr] at hw
      simp only [Bool.false_eq_true, if_false, walkFrom_cons_ok_iff] at hw
      obtain ⟨m, hm, hx⟩ := searchable_ok_get hw.2.2.1
      refine ⟨stepLoc fs.cwd a, m, ?_, hm⟩
      rw [hp] at hpb
      rw [resolve_ok_iff, hp]
      have hr2 : isRooted [a] = false := by unfold isRooted; split <;> simp_all
      rw [hr2]
      refine ⟨by simp [isEmptyPath, ha], hpb, ?_⟩
      simp only [Bool.false_eq_true, if_false, walkFrom_cons_ok_iff]
      exact ⟨hw.1, hw.2.1, by simp [walkFrom]⟩
  | a :: b :: c :: rest, hne, hw, hpb =>
    have hp : parentDir (a :: b :: c :: rest) = a :: b :: (c :: rest).dropLast := by
      unfold parentDir; split <;> simp_all [List.dropLast]
    have hr : isRooted (a :: b :: (c :: rest).dropLast) = isRooted (a :: b :: c :: rest) := by
      unfold isRooted; split <;> split <;> simp_all
    have hsplit : a :: b :: c :: rest
        = (a :: b :: (c :: rest).dropLast) ++ [(c :: rest).getLast (by simp)] := by
      simp [List.dropLast_append_getLast]
    rw [hsplit, walkFrom_snoc_ok_iff] at hw
    obtain ⟨c2, h1, h2, _⟩ := hw
    obtain ⟨m, hm, hx⟩ := searchable_ok_get h2
    refine ⟨c2, m, ?_, hm⟩
    rw [hp] at hpb
    rw [resolve_ok_iff, hp, hr]
    refine ⟨by simp [isEmptyPath], hpb, ?_⟩
    rw [← hsplit] at h1
    exact h1

/-- When the directory part of a path cannot be stat-ed, the path does not resolve. -/
theorem resolve_error_of_parent (fs : FS) (p : Path) (e : Error)
    (h : Stat fs (parentDir p) = .error e) : ∃ e2, resolve fs p = .error e2 := by
  cases hr : resolve fs p with
  | error e2 => exact ⟨e2, rfl⟩
  | ok l =>
    obtain ⟨c, m, h1, h2⟩ := resolve_parentDir hr
    have := (Stat_error_iff fs (parentDir p)).1 ⟨e, h⟩ c h1
    rw [this] at h2
    cases h2

theorem FileExists_false_iff (fs : FS) (p : Path) :
    FileExists fs p = false ↔ ∃ op q, Stat fs p = .error (.pathError op q .ENOENT) := by
  unfold FileExists
  cases h : Stat fs p with
  | ok fi => simp [IsNotExist]
  | error err =>
    cases err with
    | pathError op q e =>
      cases e <;> simp [IsNotExist]
    | new msg => simp [IsNotExist]
    | wrap c msg => simp [IsNotExist]

theorem Create_error_of_resolve {fs : FS} {p : Path} {e : Errno} (h : resolve fs p = .error e) :
    Create fs p = .error (.pathError "open" p e) := by
  simp [Create, h]

theorem Stat_error_of_resolve {fs : FS} {p : Path} {e : Errno} (h : resolve fs p = .error e) :
    Stat fs p = .error (.pathError "stat" p e) := by
  simp [Stat, h]

/-- C4: the first two stages of CopyFile fail without touching the filesystem.
(1) When the source cannot be opened the result is the open error wrapped with
"opening the input file" and the state is returned as it was.  (2) When the
source opens and the directory part of dest does not exist, the result is an
error wrapped with "creating the output file", the state is returned as it was
and dest still cannot be stat-ed. -/
theorem CopyFile_first_stages_atomic (fs : FS) (src dest : Path) :
    (∀ err, Open fs src = .error err →
        CopyFile fs src dest = (fs, some (.wrap err "opening the input file")) ∧
        (Error.wrap err "opening the input file").text
          = "opening the input file" ++ ": " ++ err.text) ∧
    (∀ inp, Open fs src = .ok inp → FileExists fs (parentDir dest) = false →
        ∃ err, CopyFile fs src dest = (fs, some (.wrap err "creating the output file")) ∧
          (Error.wrap err "creating the output file").text
            = "creating the output file" ++ ": " ++ err.text ∧
          ∀ fi, Stat (CopyFile fs src dest).1 dest ≠ .ok fi) := by
  constructor
  · intro err h
    exact ⟨by simp [CopyFile, h], rfl⟩
  · intro inp h hp
    obtain ⟨op, q, hs⟩ := (FileExists_false_iff fs _).1 hp
    obtain ⟨e2, hr⟩ := resolve_error_of_parent fs dest _ hs
    have hall : CopyFile fs src dest
        = (fs, some (.wrap (.pathError "open" dest e2) "creating the output file")) := by
      simp [CopyFile, h, Create_error_of_resolve hr]
    refine ⟨_, hall, rfl, ?_⟩
    intro fi
    rw [hall, Stat_error_of_resolve hr]
    simp

/-- C4 at concrete inputs: a missing source, and a destination under the missing `/nodir`. -/
theorem CopyFile_first_stages_atomic_witness :
    (CopyFile (scenario 0o022) ["", "a", "zz"] ["", "dest"]
        = (scenario 0o022,
            some (.wrap (.pathError "open" ["", "a", "zz"] .ENOENT) "opening the input file")) ∧
      (Error.wrap (.pathError "open" ["", "a", "zz"] .ENOENT) "opening the input file").text
        = "opening the input file" ++ ": " ++ (Error.pathError "open" ["", "a", "zz"] .ENOENT).text) ∧
    (∃ err, CopyFile (scenario 0o022) ["", "a", "f.txt"] ["", "nodir", "f.txt"]
        = (scenario 0o022, some (.wrap err "creating the output file")) ∧
      (Error.wrap err "creating the output file").text
        = "creating the output file" ++ ": " ++ err.text ∧
      ∀ fi, Stat (CopyFile (scenario 0o022) ["", "a", "f.txt"] ["", "nodir", "f.txt"]).1
        ["", "nodir", "f.txt"] ≠ .ok fi) :=
  ⟨(CopyFile_first_stages_atomic (scenario 0o022) ["", "a", "zz"] ["", "dest"]).1 _ (by decide),
   (CopyFile_first_stages_atomic (scenario 0o022) ["", "a", "f.txt"] ["", "nodir", "f.txt"]).2
     ["a", "f.txt"] (by decide) (by decide)⟩

theorem Open_ok_iff (fs : FS) (p : Path) (l : Loc) :
    Open fs p = .ok l ↔ resolve fs p = .ok l ∧ ∃ e, fs.get l = some e ∧ canRead e.mode = true := by
  unfold Open
  cases hr : resolve fs p with
  | error e => simp
  | ok c =>
    cases hg : fs.get c with
    | none =>
      simp only [hg, Except.ok.injEq]
      constructor
      · intro h; cases h
      · rintro ⟨rfl, e, h2, _⟩; rw [hg] at h2; cases h2
    | some e =>
      simp only [hg]
      by_cases hc : canRead e.mode = true
      · simp only [hc, if_true, Except.ok.injEq]
        constructor
        · rintro rfl; exact ⟨rfl, e, hg, hc⟩
        · rintro ⟨h, _⟩; exact h
      · simp only [hc, Except.ok.injEq]
        constructor
        · intro h; simp at h
        · rintro ⟨rfl, e2, h2, h3⟩
          rw [hg] at h2; cases h2; exact absurd h3 hc

/-- What a successful `Create` did: it resolved the name to `l`, found nothing
or a regular file there, and left an empty regular file. -/
theorem Create_ok_inv {fs fs1 : FS} {p : Path} {l : Loc} (h : Create fs p = .ok (fs1, l)) :
    resolve fs p = .ok l ∧ ∃ m, fs1 = fs.put l (.file m []) ∧
      ((∃ d, fs.get l = some (.file m d)) ∨
        (fs.get l = none ∧ l ≠ [] ∧ m = applyUmask fs.umask 0o666 ∧
          ∃ pm, fs.get l.dropLast = some (.dir pm) ∧ canWrite pm = true)) := by
  unfold Create at h
  cases hr : resolve fs p with
  | error e => simp [hr] at h
  | ok c =>
    simp only [hr] at h
    cases hg : fs.get c with
    | some e =>
      cases e with
      | dir m => simp [hg] at h
      | file m d =>
        simp only [hg] at h
        split at h
        · simp only [Except.ok.injEq, Prod.mk.injEq] at h
          obtain ⟨h1, h2⟩ := h
          subst h2
          exact ⟨rfl, m, h1.symm, Or.inl ⟨d, hg⟩⟩
        · simp at h
    | none =>
      simp only [hg] at h
      cases hp : fs.get c.dropLast with
      | none => simp [hp] at h
      | some e =>
        cases e with
        | file m d => simp [hp] at h
        | dir pm =>
          simp only [hp] at h
          split at h
          · rename_i hc
            simp only [Except.ok.injEq, Prod.mk.injEq] at h
            obtain ⟨h1, h2⟩ := h
            subst h2
            exact ⟨rfl, _, h1.symm, Or.inr ⟨hg, hc.1, rfl, pm, hp, hc.2.1⟩⟩
          · simp at h

theorem ioCopy_ok_inv {fs fs2 : FS} {out inp : Loc} (h : ioCopy fs out inp = .ok fs2) :
    ∃ mi data mo d0, fs.get inp = some (.file mi data) ∧ fs.get out = some (.file mo d0) ∧
      fs2 = fs.put out (.file mo data) := by
  unfold ioCopy at h
  cases hi : fs.get inp with
  | none => simp [hi] at h
  | some e =>
    cases e with
    | dir m => simp [hi] at h
    | file mi data =>
      simp only [hi] at h
      cases ho : fs.get out with
      | none => simp [ho] at h
      | some e =>
        cases e with
        | dir m => simp [ho] at h
        | file mo d0 =>
          simp only [ho, Except.ok.injEq] at h
          exact ⟨mi, data, mo, d0, rfl, rfl, h.symm⟩

theorem Stat_ok_iff (fs : FS) (p : Path) (fi : FileInfo) :
    Stat fs p = .ok fi ↔ ∃ l e, resolve fs p = .ok l ∧ fs.get l = some e ∧ fi = e.info := by
  unfold Stat
  cases hr : resolve fs p with
  | error e => simp
  | ok c =>
    cases hg : fs.get c with
    | none =>
      simp only [hg]
      constructor
      · intro h; cases h
      · rintro ⟨l, e, h1, h2, _⟩
        cases h1; rw [hg] at h2; cases h2
    | some e =>
      simp only [hg]
      constructor
      · intro h
        simp only [Except.ok.injEq] at h
        exact ⟨c, e, rfl, hg, h.symm⟩
      · rintro ⟨l, e2, h1, h2, h3⟩
        cases h1; rw [hg] at h2; cases h2; rw [h3]

theorem Chmod_ok_inv {fs fs2 : FS} {p : Path} {mode : FileMode} (h : Chmod fs p mode = .ok fs2) :
    ∃ l e, resolve fs p = .ok l ∧ fs.get l = some e ∧
      fs2 = fs.put l (match e with
        | .file _ data => .file mode data
        | .dir _ => .dir mode) := by
  unfold Chmod at h
  cases hr : resolve fs p with
  | error e => simp [hr] at h
  | ok c =>
    simp only [hr] at h
    cases hg : fs.get c with
    | none => simp [hg] at h
    | some e =>
      cases e with
      | file m d =>
        simp only [hg, Except.ok.injEq] at h
        exact ⟨c, _, rfl, hg, h.symm⟩
      | dir m =>
        simp only [hg, Except.ok.injEq] at h
        exact ⟨c, _, rfl, hg, h.symm⟩

theorem Create_stable {fs fs1 : FS} {p : Path} {l : Loc} (h : Create fs p = .ok (fs1, l)) :
    DirStable fs fs1 := by
  obtain ⟨_, m, rfl, hc⟩ := Create_ok_inv h
  rcases hc with ⟨d, hd⟩ | ⟨hn, _⟩
  · exact put_file_stable hd _ _
  · exact put_new_stable hn _

/-- The three ways a CopyFile call can end: before the destination is created
(state untouched), after it was created or truncated but the content could not
be read (destination left empty), or with success (destination holds the data
and mode read from the source after the truncation). -/
theorem CopyFile_trace (fs : FS) (src dest : Path) :
    ((CopyFile fs src dest).1 = fs ∧ (CopyFile fs src dest).2 ≠ none) ∨
    ∃ S D m0, Open fs src = .ok S ∧ Create fs dest = .ok (fs.put D (.file m0 []), D) ∧
      (((CopyFile fs src dest).1 = fs.put D (.file m0 []) ∧ (CopyFile fs src dest).2 ≠ none ∧
          ∀ mi data, (fs.put D (.file m0 [])).get S ≠ some (.file mi data)) ∨
        ∃ mi data, (fs.put D (.file m0 [])).get S = some (.file mi data) ∧
          CopyFile fs src dest
            = (((fs.put D (.file m0 [])).put D (.file m0 data)).put D (.file mi data), none)) := by
  cases hO : Open fs src with
  | error e => left; simp [CopyFile, hO]
  | ok S =>
    cases hC : Create fs dest with
    | error e => left; simp [CopyFile, hO, hC]
    | ok r =>
      obtain ⟨fs1, D⟩ := r
      right
      have hst := Create_stable hC
      obtain ⟨hrD, m0, rfl, _⟩ := Create_ok_inv hC
      refine ⟨S, D, m0, rfl, rfl, ?_⟩
      have gD : (fs.put D (.file m0 [])).get D = some (.file m0 []) := by simp [get_put]
      cases hI : ioCopy (fs.put D (.file m0 [])) D S with
      | error e =>
        left
        refine ⟨by simp [CopyFile, hO, hC, hI], by simp [CopyFile, hO, hC, hI], ?_⟩
        intro mi data hg
        simp [ioCopy, hg, gD] at hI
      | ok fs2 =>
        right
        obtain ⟨mi, data, mo, d0, hgS, hgD, rfl⟩ := ioCopy_ok_inv hI
        rw [gD] at hgD
        cases hgD
        refine ⟨mi, data, hgS, ?_⟩
        have st2 : DirStable (fs.put D (.file m0 [])) ((fs.put D (.file m0 [])).put D (.file m0 data)) :=
          put_file_stable gD _ _
        have hrS := ((Open_ok_iff fs src S).1 hO).1
        have rS2 := resolve_stable (hst.trans st2) hrS
        have rD2 := resolve_stable (hst.trans st2) hrD
        have gS2 : ((fs.put D (.file m0 [])).put D (.file m0 data)).get S = some (.file mi data) := by
          rw [get_put]
          by_cases hDS : D = S
          · subst hDS
            rw [gD] at hgS
            cases hgS
            simp
          · simp [hDS, hgS]
        have hS : Stat ((fs.put D (.file m0 [])).put D (.file m0 data)) src = .ok ⟨false, mi⟩ := by
          simp [Stat, rS2, gS2, Entry.info, Entry.isDir, Entry.mode]
        have gD2 : ((fs.put D (.file m0 [])).put D (.file m0 data)).get D = some (.file m0 data) := by
          simp [get_put]
        have hM : Chmod ((fs.put D (.file m0 [])).put D (.file m0 data)) dest mi
            = .ok (((fs.put D (.file m0 [])).put D (.file m0 data)).put D (.file mi data)) := by
          simp [Chmod, rD2, gD2]
        simp [CopyFile, hO, hC, hI, Sync, hS, hM, Close]

/-- The state after a successful copy between two different files. -/
theorem CopyFile_ok_state {fs : FS} {src dest : Path} {S : Loc} {m : FileMode} {d : List Nat}
    (hS : resolve fs src = .ok S) (hf : fs.get S = some (.file m d))
    (hne : resolve fs dest ≠ .ok S) (hok : (CopyFile fs src dest).2 = none) :
    ∃ D, DirStable fs (CopyFile fs src dest).1 ∧ resolve fs dest = .ok D ∧
      (CopyFile fs src dest).1.get D = some (.file m d) ∧
      (CopyFile fs src dest).1.get S = some (.file m d) := by
  rcases CopyFile_trace fs src dest with ⟨_, h2⟩ | ⟨S2, D, m0, hO, hC, h⟩
  · exact absurd hok h2
  · have hS2 := ((Open_ok_iff fs src S2).1 hO).1
    rw [hS] at hS2
    cases hS2
    have hrD := (Create_ok_inv hC).1
    have hDS : D ≠ S := by rintro rfl; exact hne hrD
    have st1 := Create_stable hC
    have gD : (fs.put D (.file m0 [])).get D = some (.file m0 []) := by simp [get_put]
    rcases h with ⟨_, h2, _⟩ | ⟨mi, data, hg, hall⟩
    · exact absurd hok h2
    · rw [get_put, if_neg hDS, hf] at hg
      cases hg
      have st2 : DirStable (fs.put D (.file m0 [])) ((fs.put D (.file m0 [])).put D (.file m0 d)) :=
        put_file_stable gD _ _
      have gD2 : ((fs.put D (.file m0 [])).put D (.file m0 d)).get D = some (.file m0 d) := by
        simp [get_put]
      have st3 := put_file_stable gD2 m d
      rw [hall]
      refine ⟨D, (st1.trans st2).trans st3, hrD, by simp [get_put], ?_⟩
      simp [get_put, hDS, hf]

/-- Copying again onto a destination that already holds the copy leaves it as it is,
whether or not the second run succeeds. -/
theorem CopyFile_again {fs : FS} {src dest : Path} {S : Loc} {m : FileMode} {d : List Nat}
    (hS : resolve fs src = .ok S) (hf : fs.get S = some (.file m d))
    {D : Loc} (hD : resolve fs dest = .ok D) (hDS : D ≠ S)
    (hg : fs.get D = some (.file m d)) :
    (CopyFile fs src dest).1.get D = some (.file m d) := by
  rcases CopyFile_trace fs src dest with ⟨h1, _⟩ | ⟨S2, D2, m0, hO, hC, h⟩
  · rw [h1]; exact hg
  · have hS2 := ((Open_ok_iff fs src S2).1 hO).1
    rw [hS] at hS2
    cases hS2
    obtain ⟨hrD, m1, hput, hc⟩ := Create_ok_inv hC
    rw [hD] at hrD
    cases hrD
    have hgS : (fs.put D (.file m0 [])).get S = some (.file m d) := by
      rw [get_put, if_neg hDS, hf]
    rcases h with ⟨_, _, h3⟩ | ⟨mi, data, hg2, hall⟩
    · exact absurd hgS (h3 m d)
    · rw [hgS] at hg2
      cases hg2
      rw [hall]
      simp [get_put]

/-- C1: when CopyFile succeeds on a regular file src and a dest that is not the
same file, dest is afterwards a regular file with the bytes and the permission
bits src had, whatever was at dest before; src is untouched; and after a second
run of the same call dest holds the same bytes and bits again. -/
theorem CopyFile_copies_content_and_mode (fs : FS) (src dest : Path) (S : Loc)
    (m : FileMode) (d : List Nat)
    (hS : resolve fs src = .ok S) (hf : fs.get S = some (.file m d))
    (hne : resolve fs dest ≠ .ok S) (hok : (CopyFile fs src dest).2 = none) :
    ∃ D, resolve (CopyFile fs src dest).1 dest = .ok D ∧
      (CopyFile fs src dest).1.get D = some (.file m d) ∧
      (CopyFile fs src dest).1.get S = some (.file m d) ∧
      (CopyFile (CopyFile fs src dest).1 src dest).1.get D = some (.file m d) := by
  obtain ⟨D, hst, hr, hD, hSS⟩ := CopyFile_ok_state hS hf hne hok
  refine ⟨D, resolve_stable hst hr, hD, hSS, ?_⟩
  apply CopyFile_again (resolve_stable hst hS) hSS (resolve_stable hst hr) _ hD
  rintro rfl
  exact hne hr

/-- C1 at a concrete input: `/a/f.txt` (0644, "hi") copied over `/a/b/g.txt` (0600, "yo"). -/
theorem CopyFile_copies_content_and_mode_witness :
    ∃ D, resolve (CopyFile (scenario 0o022) ["", "a", "f.txt"] ["", "a", "b", "g.txt"]).1
        ["", "a", "b", "g.txt"] = .ok D ∧
      (CopyFile (scenario 0o022) ["", "a", "f.txt"] ["", "a", "b", "g.txt"]).1.get D
        = some (.file 0o644 [104, 105]) ∧
      (CopyFile (scenario 0o022) ["", "a", "f.txt"] ["", "a", "b", "g.txt"]).1.get ["a", "f.txt"]
        = some (.file 0o644 [104, 105]) ∧
      (CopyFile (CopyFile (scenario 0o022) ["", "a", "f.txt"] ["", "a", "b", "g.txt"]).1
        ["", "a", "f.txt"] ["", "a", "b", "g.txt"]).1.get D = some (.file 0o644 [104, 105]) :=
  CopyFile_copies_content_and_mode (scenario 0o022) ["", "a", "f.txt"] ["", "a", "b", "g.txt"]
    ["a", "f.txt"] 0o644 [104, 105] (by decide) (by decide) (by decide) (by decide)

/-! ## `filepath.Clean` agrees with path resolution -/

theorem walkFrom_snoc_of_ok {fs : FS} {segs : List String} {start c : Loc} (s : String)
    (h1 : walkFrom fs start segs = .ok c) (h2 : searchable fs c = .ok ())
    (hlen : s.utf8ByteSize ≤ 255) :
    walkFrom fs start (segs ++ [s]) = .ok (stepLoc c s) :=
  (walkFrom_snoc_ok_iff fs segs s start _).2 ⟨c, h1, h2, hlen, rfl⟩

theorem stepLoc_name {s : String} (h1 : s ≠ "") (h2 : s ≠ ".") (h3 : s ≠ "..") (cur : Loc) :
    stepLoc cur s = cur ++ [s] := by
  simp [stepLoc, h1, h2, h3]

/-- Folding `cleanStep` over the segments follows the walk: if the cleaned
elements so far lead to `cur` and the remaining segments lead on to `l`, the
cleaned elements of the whole lead to `l`. -/
theorem clean_walk (fs : FS) (rooted : Bool) (start : Loc) (hroot : rooted = true → start = []) :
    ∀ (segs acc : List String) (cur l : Loc),
      (∀ x ∈ acc, x ≠ "" ∧ x ≠ ".") →
      walkFrom fs start acc.reverse = .ok cur →
      walkFrom fs cur segs = .ok l →
      walkFrom fs start (segs.foldl (cleanStep rooted) acc).reverse = .ok l ∧
        ∀ x ∈ segs.foldl (cleanStep rooted) acc, x ≠ "" ∧ x ≠ "." := by
  intro segs
  induction segs with
  | nil =>
    intro acc cur l hacc h1 h2
    simp only [walkFrom, Except.ok.injEq] at h2
    subst h2
    exact ⟨h1, hacc⟩
  | cons s rest ih =>
    intro acc cur l hacc h1 h2
    rw [walkFrom_cons_ok_iff] at h2
    obtain ⟨hs, hlen, h2⟩ := h2
    simp only [List.foldl_cons]
    by_cases h0 : s = "" ∨ s = "."
    · have e1 : cleanStep rooted acc s = acc := by simp [cleanStep, h0]
      have e2 : stepLoc cur s = cur := by simp [stepLoc, h0]
      rw [e1]
      rw [e2] at h2
      exact ih acc cur l hacc h1 h2
    · have hne1 : s ≠ "" := fun h => h0 (Or.inl h)
      have hne2 : s ≠ "." := fun h => h0 (Or.inr h)
      by_cases hdd : s = ".."
      · subst hdd
        have e2 : stepLoc cur ".." = cur.dropLast := by simp [stepLoc]
        rw [e2] at h2
        cases acc with
        | nil =>
          simp only [List.reverse_nil, walkFrom, Except.ok.injEq] at h1
          subst h1
          by_cases hr : rooted = true
          · have e1 : cleanStep rooted [] ".." = [] := by simp [cleanStep, hr]
            rw [e1]
            have hst := hroot hr
            subst hst
            exact ih [] [] l (by simp) (by simp [walkFrom]) (by simpa using h2)
          · have e1 : cleanStep rooted [] ".." = [".."] := by simp [cleanStep, hr]
            rw [e1]
            refine ih [".."] _ l (by simp) ?_ h2
            have := @walkFrom_snoc_of_ok fs [] start start ".."
              (show walkFrom fs start [] = .ok start by simp [walkFrom]) hs hlen
            simpa [stepLoc] using this
        | cons top acc2 =>
          by_cases ht : top = ".."
          · have e1 : cleanStep rooted (top :: acc2) ".." = ".." :: top :: acc2 := by
              simp [cleanStep, ht]
            rw [e1]
            refine ih _ _ l ?_ ?_ h2
            · intro x hx
              rcases List.mem_cons.1 hx with rfl | hx
              · simp
              · exact hacc x hx
            · have := walkFrom_snoc_of_ok ".." h1 hs hlen
              rw [e2] at this
              simpa using this
          · have e1 : cleanStep rooted (top :: acc2) ".." = acc2 := by
              simp [cleanStep, ht]
            rw [e1]
            have htn := hacc top (by simp)
            rw [List.reverse_cons, walkFrom_snoc_ok_iff] at h1
            obtain ⟨c, hc1, hc2, _, hc3⟩ := h1
            rw [stepLoc_name htn.1 htn.2 ht] at hc3
            subst hc3
            rw [List.dropLast_concat] at h2
            exact ih acc2 c l (fun x hx => hacc x (List.mem_cons_of_mem _ hx)) hc1 h2
      · have e1 : cleanStep rooted acc s = s :: acc := by simp [cleanStep, h0, hdd]
        rw [e1]
        refine ih _ _ l ?_ ?_ h2
        · intro x hx
          rcases List.mem_cons.1 hx with rfl | hx
          · exact ⟨hne1, hne2⟩
          · exact hacc x hx
        · have := walkFrom_snoc_of_ok s h1 hs hlen
          simpa using this

theorem isRooted_cons_ne {x : String} (h : x ≠ "") (rest : List String) :
    isRooted (x :: rest) = false := by
  unfold isRooted
  split
  · rename_i heq
    simp only [List.cons.injEq] at heq
    exact absurd heq.1 h
  · rfl

theorem isEmptyPath_cons_ne {x : String} (h : x ≠ "") (rest : List String) :
    isEmptyPath (x :: rest) = false := by
  simp [isEmptyPath, h]

/-- The walk of a path and the walk of its cleaned form end at the same location. -/
theorem walk_Clean {fs : FS} {p : Path} {l : Loc} (hne : isEmptyPath p = false)
    (hw : walkFrom fs (if isRooted p then [] else fs.cwd) p = .ok l) :
    isEmptyPath (Clean p) = false ∧
      walkFrom fs (if isRooted (Clean p) then [] else fs.cwd) (Clean p) = .ok l := by
  have hstart : searchable fs (if isRooted p then [] else fs.cwd) = .ok () := by
    cases p with
    | nil => simp [isEmptyPath] at hne
    | cons s rest => exact ((walkFrom_cons_ok_iff _ _ _ _ _).1 hw).1
  obtain ⟨hout, hmem⟩ := clean_walk fs (isRooted p) (if isRooted p then [] else fs.cwd)
    (by intro hr; simp [hr]) p [] _ l (by simp) (by simp [walkFrom]) hw
  unfold Clean
  by_cases hr : isRooted p = true
  · simp only [hr, if_true] at hout hstart hmem ⊢
    by_cases ho : (List.foldl (cleanStep true) [] p).reverse = []
    · simp only [ho, if_true]
      rw [ho] at hout
      simp only [walkFrom, Except.ok.injEq] at hout
      subst hout
      refine ⟨rfl, ?_⟩
      have : isRooted ["", ""] = true := rfl
      simp only [this, if_true, walkFrom_cons_ok_iff]
      exact ⟨hstart, by decide, by simpa [stepLoc] using hstart, by decide,
        by simp [stepLoc, walkFrom]⟩
    · simp only [ho, if_false]
      obtain ⟨a, t, hat⟩ := List.exists_cons_of_ne_nil ho
      rw [hat] at hout ⊢
      refine ⟨rfl, ?_⟩
      have : isRooted ("" :: a :: t) = true := rfl
      simp only [this, if_true, walkFrom_cons_ok_iff]
      refine ⟨hstart, by decide, ?_⟩
      have e : stepLoc [] "" = [] := by simp [stepLoc]
      rw [e]
      exact (walkFrom_cons_ok_iff _ _ _ _ _).1 hout
  · have hr2 : isRooted p = false := by simpa using hr
    simp only [hr2, Bool.false_eq_true, if_false] at hout hstart hmem ⊢
    by_cases ho : (List.foldl (cleanStep false) [] p).reverse = []
    · simp only [ho, if_true]
      rw [ho] at hout
      simp only [walkFrom, Except.ok.injEq] at hout
      subst hout
      refine ⟨rfl, ?_⟩
      have : isRooted ["."] = false := rfl
      simp only [this, Bool.false_eq_true, if_false, walkFrom_cons_ok_iff]
      exact ⟨hstart, by decide, by simp [stepLoc, walkFrom]⟩
    · simp only [ho, if_false]
      obtain ⟨a, t, hat⟩ := List.exists_cons_of_ne_nil ho
      have ha : a ≠ "" := by
        have : a ∈ List.foldl (cleanStep false) [] p := by
          rw [← List.mem_reverse, hat]; simp
        exact (hmem a this).1
      rw [hat] at hout ⊢
      refine ⟨isEmptyPath_cons_ne ha _, ?_⟩
      rw [isRooted_cons_ne ha]
      simpa using hout

/-- The weight of a list of segments: their bytes and one separator each. -/
theorem pathBytes_eq (p : Path) :
    pathBytes p = (p.map (fun s => s.utf8ByteSize + 1)).sum - 1 := by
  have h : ∀ q : Path, (q.map (fun s => s.utf8ByteSize + 1)).sum
      = (q.map String.utf8ByteSize).sum + q.length := by
    intro q
    induction q with
    | nil => rfl
    | cons x r ih => simp only [List.map_cons, List.sum_cons, List.length_cons, ih]; omega
  rw [h]
  unfold pathBytes
  cases p with
  | nil => rfl
  | cons x r => simp only [List.length_cons]; omega

theorem cleanStep_weight (r : Bool) (acc : List String) (s : String) :
    ((cleanStep r acc s).map (fun s => s.utf8ByteSize + 1)).sum
      ≤ (acc.map (fun s => s.utf8ByteSize + 1)).sum + (s.utf8ByteSize + 1) := by
  unfold cleanStep
  split
  · omega
  · split
    · rename_i hdd
      split
      · rename_i top rest
        split
        · simp only [List.map_cons, List.sum_cons]; omega
        · simp only [List.map_cons, List.sum_cons]; omega
      · split
        · simp
        · subst hdd; simp
    · simp only [List.map_cons, List.sum_cons]; omega

theorem foldl_cleanStep_weight (r : Bool) (segs : List String) :
    ∀ acc, ((segs.foldl (cleanStep r) acc).map (fun s => s.utf8ByteSize + 1)).sum
      ≤ (acc.map (fun s => s.utf8ByteSize + 1)).sum
        + (segs.map (fun s => s.utf8ByteSize + 1)).sum := by
  induction segs with
  | nil => intro acc; simp
  | cons s rest ih =>
    intro acc
    simp only [List.foldl_cons, List.map_cons, List.sum_cons]
    have h1 := ih (cleanStep r acc s)
    have h2 := cleanStep_weight r acc s
    omega

theorem isRooted_inv {p : Path} (h : isRooted p = true) : ∃ x rest, p = "" :: x :: rest := by
  unfold isRooted at h
  split at h
  · exact ⟨_, _, rfl⟩
  · cases h

/-- The cleaned form of a path is no longer than the path (one byte at least). -/
theorem pathBytes_Clean_le (p : Path) : pathBytes (Clean p) ≤ max 1 (pathBytes p) := by
  unfold Clean
  by_cases hr : isRooted p = true
  · simp only [hr, if_true]
    split
    · have : pathBytes ["", ""] = 1 := by decide
      rw [this]; exact le_max_left _ _
    · obtain ⟨x, rest, rfl⟩ := isRooted_inv hr
      have h := foldl_cleanStep_weight true (x :: rest) []
      have e : List.foldl (cleanStep true) [] ("" :: x :: rest)
          = List.foldl (cleanStep true) [] (x :: rest) := by
        simp [List.foldl_cons, cleanStep]
      rw [e]
      apply le_trans _ (le_max_right _ _)
      rw [pathBytes_eq, pathBytes_eq]
      simp only [List.map_cons, List.sum_cons, List.map_reverse, List.sum_reverse,
        List.map_nil, List.sum_nil] at h ⊢
      have e0 : "".utf8ByteSize = 0 := by decide
      rw [e0]
      omega
  · have hr2 : isRooted p = false := by simpa using hr
    simp only [hr2, Bool.false_eq_true, if_false]
    split
    · have : pathBytes ["."] = 1 := by decide
      rw [this]; exact le_max_left _ _
    · have h := foldl_cleanStep_weight false p []
      apply le_trans _ (le_max_right _ _)
      rw [pathBytes_eq, pathBytes_eq]
      simp only [List.map_reverse, List.sum_reverse, List.map_nil, List.sum_nil] at h ⊢
      omega

theorem pathBytes_Clean_lt {p : Path} (h : pathBytes p < 4096) : pathBytes (Clean p) < 4096 := by
  have := pathBytes_Clean_le p
  rcases le_max_iff.1 this with h1 | h1 <;> omega

/-- Resolution is not changed by `filepath.Clean`: a path that resolves and its
cleaned form denote the same location. -/
theorem resolve_Clean {fs : FS} {p : Path} {l : Loc} (h : resolve fs p = .ok l) :
    resolve fs (Clean p) = .ok l := by
  rw [resolve_ok_iff] at h
  obtain ⟨hne, hlen, hw⟩ := h
  obtain ⟨h1, h2⟩ := walk_Clean hne hw
  exact (resolve_ok_iff _ _ _).2 ⟨h1, pathBytes_Clean_lt hlen, h2⟩

theorem validName_iff (n : String) :
    validName n = true ↔ n ≠ "" ∧ n ≠ "." ∧ n ≠ ".." ∧ n.utf8ByteSize ≤ 255 := by
  simp [validName]

theorem isRooted_snoc {a : Path} (ha : isEmptyPath a = false) (n : String) :
    isRooted (a ++ [n]) = isRooted a := by
  match a, ha with
  | [], ha => simp [isEmptyPath] at ha
  | [x], ha =>
    have hx : x ≠ "" := by intro h; simp [isEmptyPath, h] at ha
    simp only [List.singleton_append]
    rw [isRooted_cons_ne hx, isRooted_cons_ne hx]
  | x :: y :: r, _ =>
    by_cases hx : x = ""
    · subst hx; rfl
    · simp only [List.cons_append]
      rw [isRooted_cons_ne hx, isRooted_cons_ne hx]

theorem isEmptyPath_snoc {a : Path} (ha : isEmptyPath a = false) (n : String) :
    isEmptyPath (a ++ [n]) = false := by
  cases a with
  | nil => simp [isEmptyPath] at ha
  | cons x r =>
    cases r with
    | nil => simp [isEmptyPath]
    | cons y r2 => simp [isEmptyPath]

theorem Join_eq {a : Path} (ha : isEmptyPath a = false) {n : String} (hn : n ≠ "") :
    Join a n = Clean (a ++ [n]) := by
  simp [Join, ha, hn]

/-- The walk of a path extended by a name goes on to the child. -/
theorem walk_snoc {fs : FS} {a : Path} {n : String} {l : Loc}
    (ha : resolve fs a = .ok l) (hs : searchable fs l = .ok ()) (hlen : n.utf8ByteSize ≤ 255) :
    isEmptyPath (a ++ [n]) = false ∧
      walkFrom fs (if isRooted (a ++ [n]) then [] else fs.cwd) (a ++ [n]) = .ok (stepLoc l n) := by
  rw [resolve_ok_iff] at ha
  obtain ⟨he, _, hw⟩ := ha
  refine ⟨isEmptyPath_snoc he n, ?_⟩
  rw [isRooted_snoc he]
  exact walkFrom_snoc_of_ok n hw hs hlen

/-- `filepath.Join` of a directory path and an entry name denotes the entry,
unless the joined path is too long. -/
theorem resolve_Join {fs : FS} {a : Path} {n : String} {l : Loc}
    (ha : resolve fs a = .ok l) (hs : searchable fs l = .ok ()) (hn : validName n = true)
    (hlen : pathBytes (Join a n) < 4096) :
    resolve fs (Join a n) = .ok (l ++ [n]) := by
  obtain ⟨h1, h2, h3, h4⟩ := (validName_iff n).1 hn
  rw [Join_eq ((resolve_ok_iff _ _ _).1 ha).1 h1] at hlen ⊢
  obtain ⟨e1, e2⟩ := walk_snoc (n := n) ha hs h4
  rw [stepLoc_name h1 h2 h3] at e2
  obtain ⟨c1, c2⟩ := walk_Clean e1 e2
  exact (resolve_ok_iff _ _ _).2 ⟨c1, hlen, c2⟩

/-! ## Directory listings -/

theorem lookupLoc_ne_none_iff (l : List (Loc × Entry)) (k : Loc) :
    lookupLoc l k ≠ none ↔ k ∈ l.map Prod.fst := by
  induction l with
  | nil => simp [lookupLoc]
  | cons kv rest ih =>
    obtain ⟨k2, e⟩ := kv
    simp only [lookupLoc, List.map_cons, List.mem_cons]
    by_cases h : k2 = k
    · subst h
      constructor
      · intro _; exact Or.inl rfl
      · intro _; rw [if_pos rfl]; exact Option.some_ne_none e
    · rw [if_neg h, ih]
      constructor
      · intro hm; exact Or.inr hm
      · rintro (h2 | h2)
        · exact absurd h2.symm h
        · exact h2

theorem dropLast_getLast_iff (k loc : Loc) (n : String) :
    (k.dropLast = loc ∧ k.getLast? = some n) ↔ k = loc ++ [n] := by
  constructor
  · rintro ⟨h1, h2⟩
    have hk : k ≠ [] := by rintro rfl; simp at h2
    rw [← List.dropLast_append_getLast hk, h1]
    rw [List.getLast?_eq_getLast _ hk] at h2
    simp only [Option.some.injEq] at h2
    rw [h2]
  · rintro rfl
    simp

theorem mem_childNames (fs : FS) (loc : Loc) (n : String) :
    n ∈ childNames fs loc ↔ validName n = true ∧ fs.get (loc ++ [n]) ≠ none := by
  unfold childNames FS.get
  rw [List.mem_dedup, List.mem_filter, lookupLoc_ne_none_iff, List.mem_filterMap, List.mem_map]
  constructor
  · rintro ⟨⟨kv, hkv, h⟩, hv⟩
    refine ⟨hv, kv, hkv, ?_⟩
    by_cases hd : kv.1.dropLast = loc
    · simp only [hd, if_true] at h
      exact (dropLast_getLast_iff _ _ _).1 ⟨hd, h⟩
    · simp [hd] at h
  · rintro ⟨hv, kv, hkv, h⟩
    refine ⟨⟨kv, hkv, ?_⟩, hv⟩
    obtain ⟨h1, h2⟩ := (dropLast_getLast_iff _ _ _).2 h
    simp [h1, h2]

theorem childNames_nodup (fs : FS) (loc : Loc) : (childNames fs loc).Nodup :=
  List.nodup_dedup _

theorem lexLE_total : ∀ a b : List Nat, lexLE a b = true ∨ lexLE b a = true
  | [], _ => Or.inl (by simp [lexLE])
  | _ :: _, [] => Or.inr (by simp [lexLE])
  | a :: as, b :: bs => by
    rcases Nat.lt_trichotomy a b with h | h | h
    · left; simp [lexLE, h]
    · subst h
      simp only [lexLE, lt_self_iff_false, if_false]
      exact lexLE_total as bs
    · right; simp [lexLE, h]

theorem lexLE_trans : ∀ a b c : List Nat, lexLE a b = true → lexLE b c = true → lexLE a c = true
  | [], _, _, _, _ => by simp [lexLE]
  | _ :: _, [], _, h, _ => by simp [lexLE] at h
  | _ :: _, _ :: _, [], _, h => by simp [lexLE] at h
  | a :: as, b :: bs, c :: cs, h1, h2 => by
    simp only [lexLE] at h1 h2 ⊢
    by_cases hab : a < b
    · by_cases hbc : b < c
      · simp [lt_trans hab hbc]
      · by_cases hcb : c < b
        · simp [hbc, hcb] at h2
        · have : b = c := by omega
          subst this
          simp [hab]
    · by_cases hba : b < a
      · simp [hab, hba] at h1
      · have : a = b := by omega
        subst this
        simp only [hab, if_false] at h1
        by_cases hac : a < c
        · simp [hac]
        · by_cases hca : c < a
          · simp [hac, hca] at h2
          · simp only [hac, hca, if_false] at h2 ⊢
            exact lexLE_trans as bs cs h1 h2

/-- What a successful `ReadDir` returned: the path names a readable directory,
searchable unless it is empty, and the entries are its children in ascending
name order. -/
theorem ReadDir_ok_inv {fs : FS} {p : Path} {entries : List DirEntry}
    (h : ReadDir fs p = .ok entries) :
    ∃ S m, resolve fs p = .ok S ∧ fs.get S = some (.dir m) ∧
      (listing fs S ≠ [] → canSearch m = true) ∧
      entries = (listing fs S).map (entryOf fs S) := by
  unfold ReadDir at h
  cases hO : Open fs p with
  | error e => simp [hO] at h
  | ok S =>
    simp only [hO] at h
    have hr := ((Open_ok_iff fs p S).1 hO).1
    cases hg : fs.get S with
    | none => simp [hg] at h
    | some e =>
      cases e with
      | file m d => simp [hg] at h
      | dir m =>
        simp only [hg] at h
        split at h
        · cases h
        · rename_i hc
          split at h
          · cases h
          · simp only [Except.ok.injEq] at h
            refine ⟨S, m, hr, hg, ?_, h.symm⟩
            intro hne
            by_contra hcs
            exact hc ⟨hne, by simpa using hcs⟩

theorem mem_listing (fs : FS) (S : Loc) (n : String) :
    n ∈ listing fs S ↔ validName n = true ∧ fs.get (S ++ [n]) ≠ none := by
  unfold listing
  rw [(List.perm_insertionSort nameLE _).mem_iff, mem_childNames]

theorem listing_nodup (fs : FS) (S : Loc) : (listing fs S).Nodup :=
  (List.perm_insertionSort nameLE _).nodup_iff.2 (childNames_nodup fs S)

theorem listing_sorted (fs : FS) (S : Loc) : (listing fs S).Sorted nameLE :=
  @List.sorted_insertionSort String nameLE _ ⟨fun _ _ => lexLE_total _ _⟩
    ⟨fun _ _ _ h1 h2 => lexLE_trans _ _ _ h1 h2⟩ _

/-! ## `os.MkdirAll` -/

theorem Mkdir_ok_inv {fs fs1 : FS} {p : Path} {perm : FileMode} (h : Mkdir fs p perm = .ok fs1) :
    ∃ l pm, resolve fs (if trimSlashes p = [] then p else trimSlashes p) = .ok l ∧
      fs.get l = none ∧ fs.get l.dropLast = some (.dir pm) ∧
      fs1 = fs.put l (.dir (mkdirMode fs.umask perm pm)) := by
  unfold Mkdir at h
  cases hr : resolve fs (if trimSlashes p = [] then p else trimSlashes p) with
  | error e => simp [hr] at h
  | ok l =>
    simp only [hr] at h
    cases hg : fs.get l with
    | some e => simp [hg] at h
    | none =>
      simp only [hg] at h
      cases hp : fs.get l.dropLast with
      | none => simp [hp] at h
      | some e =>
        cases e with
        | file m d => simp [hp] at h
        | dir pm =>
          simp only [hp] at h
          split at h
          · simp only [Except.ok.injEq] at h
            exact ⟨l, pm, rfl, hg, hp, h.symm⟩
          · simp at h

/-- `mkdir(2)` does not take the set-group-ID bit from the requested mode: a
directory asked for with mode 02755 under a parent of mode 0755 gets 0755. -/
theorem Mkdir_ignores_setgid_request :
    Mkdir (scenario 0) ["", "a", "d"] 0o2755
      = .ok ((scenario 0).put ["a", "d"] (.dir 0o755)) := by
  decide

/-- `mkdir(2)` hands down the set-group-ID bit of the parent: a directory asked
for with mode 0755 under a parent of mode 02755 gets 02755. -/
theorem Mkdir_inherits_setgid :
    Mkdir ((scenario 0).put ["a"] (.dir 0o2755)) ["", "a", "d"] 0o755
      = .ok (((scenario 0).put ["a"] (.dir 0o2755)).put ["a", "d"] (.dir 0o2755)) := by
  decide

/-- `MkdirAll` only ever adds directories. -/
theorem MkdirAllAux_frame (perm : FileMode) :
    ∀ (n : Nat) (fs : FS) (p : Path) (fs1 : FS) (r : Option Error),
      MkdirAllAux n fs p perm = (fs1, r) →
      DirStable fs fs1 ∧
        ∀ loc, fs1.get loc ≠ fs.get loc →
          fs.get loc = none ∧ ∃ m2, fs1.get loc = some (.dir m2) := by
  intro n
  induction n with
  | zero =>
    intro fs p fs1 r h
    simp only [MkdirAllAux, Prod.mk.injEq] at h
    obtain ⟨rfl, _⟩ := h
    exact ⟨DirStable.refl _, fun loc hl => absurd rfl hl⟩
  | succ n ih =>
    intro fs p fs1 r h
    have hsame : ∀ {x : FS}, x = fs1 → fs = x → DirStable fs fs1 ∧
        ∀ loc, fs1.get loc ≠ fs.get loc →
          fs.get loc = none ∧ ∃ m2, fs1.get loc = some (.dir m2) := by
      intro x h1 h2
      subst h1; subst h2
      exact ⟨DirStable.refl _, fun loc hl => absurd rfl hl⟩
    unfold MkdirAllAux at h
    cases hS : Stat fs p with
    | ok fi =>
      simp only [hS] at h
      split at h <;> (simp only [Prod.mk.injEq] at h; exact hsame h.1 rfl)
    | error e0 =>
      simp only [hS] at h
      generalize hrec : (if (trimSlashes p).dropLast ≠ [] ∧ (trimSlashes p).dropLast ≠ [""]
        then MkdirAllAux n fs (trimSlashes p).dropLast perm else (fs, none)) = rec at h
      obtain ⟨fsa, ra⟩ := rec
      have hA : DirStable fs fsa ∧ ∀ loc, fsa.get loc ≠ fs.get loc →
          fs.get loc = none ∧ ∃ m2, fsa.get loc = some (.dir m2) := by
        split at hrec
        · exact ih _ _ _ _ hrec
        · simp only [Prod.mk.injEq] at hrec
          obtain ⟨rfl, _⟩ := hrec
          exact ⟨DirStable.refl _, fun loc hl => absurd rfl hl⟩
      cases ra with
      | some err =>
        simp only [Prod.mk.injEq] at h
        obtain ⟨rfl, _⟩ := h
        exact hA
      | none =>
        simp only at h
        cases hM : Mkdir fsa p perm with
        | ok fs2 =>
          simp only [hM, Prod.mk.injEq] at h
          obtain ⟨rfl, _⟩ := h
          obtain ⟨l, pm, _, hg, _, rfl⟩ := Mkdir_ok_inv hM
          refine ⟨hA.1.trans (put_new_stable hg _), fun loc hl => ?_⟩
          rw [get_put] at hl ⊢
          by_cases hll : l = loc
          · subst hll
            simp only [if_true]
            refine ⟨?_, _, rfl⟩
            by_contra hc
            obtain ⟨e, he⟩ := Option.ne_none_iff_exists'.1 hc
            obtain ⟨e2, g2, _, _⟩ := hA.1.2.2 l e he
            rw [hg] at g2
            cases g2
          · simp only [hll, if_false] at hl ⊢
            exact hA.2 loc hl
        | error err =>
          simp only [hM] at h
          have : fsa = fs1 := by
            revert h
            cases Stat fsa p with
            | ok fi =>
              intro h
              simp only at h
              split at h <;> (simp only [Prod.mk.injEq] at h; exact h.1)
            | error e => intro h; simp only [Prod.mk.injEq] at h; exact h.1
          subst this
          exact hA

theorem MkdirAllAux_of_dir {fs : FS} {p : Path} {fi : FileInfo} (h : Stat fs p = .ok fi)
    (hd : fi.isDir = true) (n : Nat) (perm : FileMode) :
    MkdirAllAux (n + 1) fs p perm = (fs, none) := by
  simp [MkdirAllAux, h, hd]

theorem MkdirAllAux_of_file {fs : FS} {p : Path} {fi : FileInfo} (h : Stat fs p = .ok fi)
    (hd : fi.isDir = false) (n : Nat) (perm : FileMode) :
    MkdirAllAux (n + 1) fs p perm = (fs, some (.pathError "mkdir" p .ENOTDIR)) := by
  simp [MkdirAllAux, h, hd]

theorem trimSlashes_snoc (init : List String) (x : String) :
    trimSlashes (init ++ [x]) = if x = "" then trimSlashes init else init ++ [x] := by
  unfold trimSlashes
  rw [List.reverse_append]
  simp only [List.reverse_cons, List.reverse_nil, List.nil_append, List.singleton_append,
    List.dropWhile_cons]
  by_cases hx : x = ""
  · simp [hx]
  · simp [hx]

/-- The cleaned elements of a path extended by an entry name. -/
theorem foldl_cleanStep_snoc (rooted : Bool) (q : List String) {n : String}
    (hn : validName n = true) :
    (q ++ [n]).foldl (cleanStep rooted) [] = n :: q.foldl (cleanStep rooted) [] := by
  obtain ⟨h1, h2, h3, _⟩ := (validName_iff n).1 hn
  rw [List.foldl_append]
  simp [cleanStep, h1, h2, h3]

/-- The shape of a joined path: the cleaned directory elements followed by the name. -/
theorem Clean_snoc {q : Path} (hq : isEmptyPath q = false) {n : String}
    (hn : validName n = true) :
    Clean (q ++ [n]) =
      (if isRooted q then [""] else []) ++ (q.foldl (cleanStep (isRooted q)) []).reverse ++ [n] := by
  unfold Clean
  rw [isRooted_snoc hq, foldl_cleanStep_snoc _ _ hn]
  simp only [List.reverse_cons]
  cases isRooted q <;> simp

theorem Clean_eq (q : Path) :
    Clean q = if (q.foldl (cleanStep (isRooted q)) []).reverse = [] then
        (if isRooted q then ["", ""] else ["."])
      else (if isRooted q then [""] else []) ++ (q.foldl (cleanStep (isRooted q)) []).reverse := by
  unfold Clean
  by_cases h : (q.foldl (cleanStep (isRooted q)) []).reverse = []
  · cases hr : isRooted q <;> simp [hr] at h ⊢
  · cases hr : isRooted q <;> simp [hr] at h ⊢

theorem Stat_of_get {fs : FS} {p : Path} {l : Loc} {e : Entry} (hr : resolve fs p = .ok l)
    (hg : fs.get l = some e) : Stat fs p = .ok e.info := by
  simp [Stat, hr, hg]

theorem Stat_of_none {fs : FS} {p : Path} {l : Loc} (hr : resolve fs p = .ok l)
    (hg : fs.get l = none) : Stat fs p = .error (.pathError "stat" p .ENOENT) := by
  simp [Stat, hr, hg]

/-- `MkdirAll` on the joined path of an existing, searchable directory and an
entry name: nothing happens when the entry exists (success if it is a
directory), otherwise the one directory is created or the call fails. -/
theorem MkdirAll_Join {fs : FS} {q : Path} {n : String} {D : Loc}
    (hq : resolve fs q = .ok D) (hD : searchable fs D = .ok ()) (hn : validName n = true)
    (hlong : pathBytes (Join q n) < 4096) (perm : FileMode) :
    (∃ e, fs.get (D ++ [n]) = some e ∧ e.isDir = true ∧
        MkdirAll fs (Join q n) perm = (fs, none)) ∨
      (∃ err, MkdirAll fs (Join q n) perm = (fs, some err)) ∨
      (fs.get (D ++ [n]) = none ∧
        ∃ m2, MkdirAll fs (Join q n) perm = (fs.put (D ++ [n]) (.dir m2), none)) := by
  have hres := resolve_Join hq hD hn hlong
  obtain ⟨h1, h2, h3, _⟩ := (validName_iff n).1 hn
  have hqe := ((resolve_ok_iff _ _ _).1 hq).1
  cases hg : fs.get (D ++ [n]) with
  | some e =>
    have hS := Stat_of_get hres hg
    cases hd : e.isDir with
    | true =>
      left
      exact ⟨e, rfl, hd, MkdirAllAux_of_dir hS (by simp [Entry.info, hd]) _ perm⟩
    | false =>
      right; left
      exact ⟨_, MkdirAllAux_of_file hS (by simp [Entry.info, hd]) _ perm⟩
  | none =>
    right
    have hS := Stat_of_none hres hg
    obtain ⟨pm, hpm, hsx⟩ := searchable_ok_get hD
    have hshape : Join q n
        = ((if isRooted q then [""] else []) ++ (q.foldl (cleanStep (isRooted q)) []).reverse)
          ++ [n] := by
      rw [Join_eq hqe h1, Clean_snoc hqe hn]
    have htrim : trimSlashes (Join q n) = Join q n := by
      rw [hshape, trimSlashes_snoc, if_neg h1]
    have hparent : (Join q n).dropLast
        = (if isRooted q then [""] else []) ++ (q.foldl (cleanStep (isRooted q)) []).reverse := by
      rw [hshape, List.dropLast_concat]
    have hlen : (Join q n).length
        = ((if isRooted q then [""] else []) ++ (q.foldl (cleanStep (isRooted q)) []).reverse).length
          + 1 := by
      rw [hshape, List.length_append]; rfl
    have hinner : (if (trimSlashes (Join q n)).dropLast ≠ [] ∧ (trimSlashes (Join q n)).dropLast ≠ [""]
        then MkdirAllAux (Join q n).length fs (trimSlashes (Join q n)).dropLast perm
        else (fs, none)) = (fs, none) := by
      split
      · rename_i hc
        rw [htrim, hparent] at hc ⊢
        rw [hlen]
        have hcl : (if isRooted q then [""] else []) ++ (q.foldl (cleanStep (isRooted q)) []).reverse
            = Clean q := by
          rw [Clean_eq]
          by_cases ho : (q.foldl (cleanStep (isRooted q)) []).reverse = []
          · rw [ho] at hc
            cases hr : isRooted q <;> simp [hr] at hc
          · rw [if_neg ho]
        rw [hcl]
        exact MkdirAllAux_of_dir (Stat_of_get (resolve_Clean hq) hpm) rfl _ perm
      · rfl
    have hres2 : resolve fs (if trimSlashes (Join q n) = [] then Join q n else trimSlashes (Join q n))
        = .ok (D ++ [n]) := by
      rw [htrim]; split <;> exact hres
    by_cases hw : canWrite pm = true
    · right
      refine ⟨rfl, mkdirMode fs.umask perm pm, ?_⟩
      have hM : Mkdir fs (Join q n) perm
          = .ok (fs.put (D ++ [n]) (.dir (mkdirMode fs.umask perm pm))) := by
        simp [Mkdir, hres2, hg, hpm, hw, hsx]
      unfold MkdirAll MkdirAllAux
      simp only [hS, hinner, hM]
    · left
      have hM : Mkdir fs (Join q n) perm = .error (.pathError "mkdir" (Join q n) .EACCES) := by
        simp [Mkdir, hres2, hg, hpm, hw]
      refine ⟨.pathError "mkdir" (Join q n) .EACCES, ?_⟩
      unfold MkdirAll MkdirAllAux
      simp only [hS, hinner, hM]

theorem walkFrom_snoc_eq (fs : FS) (s : String) (c : Loc) :
    ∀ (segs : List String) (cur : Loc), walkFrom fs cur segs = .ok c →
      walkFrom fs cur (segs ++ [s]) =
        match searchable fs c with
        | .error e => .error e
        | .ok _ => if 255 < s.utf8ByteSize then .error .ENAMETOOLONG else .ok (stepLoc c s) := by
  intro segs
  induction segs with
  | nil =>
    intro cur h
    simp only [walkFrom, Except.ok.injEq] at h
    subst h
    simp only [List.nil_append, walkFrom]
  | cons a rest ih =>
    intro cur h
    rw [walkFrom_cons_ok_iff] at h
    simp only [List.cons_append, walkFrom, h.1, if_neg (Nat.not_lt.2 h.2.1)]
    exact ih _ h.2.2

/-- The location a joined path denotes: the child of the directory when the
directory is searchable, the search error otherwise; a joined path that is too
long is refused. -/
theorem resolve_Join_eq {fs : FS} {a : Path} {x : String} {D : Loc}
    (ha : resolve fs a = .ok D) (hx : validName x = true) :
    resolve fs (Join a x) =
      if 4096 ≤ pathBytes (Join a x) then .error .ENAMETOOLONG
      else match searchable fs D with
        | .error e => .error e
        | .ok _ => .ok (D ++ [x]) := by
  obtain ⟨h1, h2, h3, h4⟩ := (validName_iff x).1 hx
  have hae := ((resolve_ok_iff _ _ _).1 ha).1
  have hw := ((resolve_ok_iff _ _ _).1 ha).2.2
  have hstart : searchable fs (if isRooted a then [] else fs.cwd) = .ok () := by
    cases a with
    | nil => simp [isEmptyPath] at hae
    | cons s rest => exact ((walkFrom_cons_ok_iff _ _ _ _ _).1 hw).1
  obtain ⟨hout, hmem⟩ := clean_walk fs (isRooted a) (if isRooted a then [] else fs.cwd)
    (by intro hr; simp [hr]) a [] _ D (by simp) (by simp [walkFrom]) hw
  rw [Join_eq hae h1, Clean_snoc hae hx]
  have hstep : stepLoc D x = D ++ [x] := stepLoc_name h1 h2 h3 D
  have hx4 : ¬ 255 < x.utf8ByteSize := Nat.not_lt.2 h4
  by_cases hr : isRooted a = true
  · simp only [hr, if_true] at hout hstart hmem ⊢
    have hwalk : walkFrom fs [] ([""] ++ (List.foldl (cleanStep true) [] a).reverse) = .ok D := by
      simp only [List.singleton_append, walkFrom_cons_ok_iff]
      exact ⟨hstart, by decide, by simpa [stepLoc] using hout⟩
    have hroot : isRooted ([""] ++ (List.foldl (cleanStep true) [] a).reverse ++ [x]) = true := by
      cases (List.foldl (cleanStep true) [] a).reverse <;> rfl
    have hemp : isEmptyPath ([""] ++ (List.foldl (cleanStep true) [] a).reverse ++ [x]) = false := by
      cases (List.foldl (cleanStep true) [] a).reverse <;> simp [isEmptyPath]
    unfold resolve
    rw [hemp, hroot]
    simp only [Bool.false_eq_true, if_false, if_true]
    rw [walkFrom_snoc_eq fs x D _ _ hwalk, hstep, if_neg hx4]
  · have hr2 : isRooted a = false := by simpa using hr
    simp only [hr2, Bool.false_eq_true, if_false, List.nil_append] at hout hstart hmem ⊢
    have hhead : ∃ y t, (List.foldl (cleanStep false) [] a).reverse ++ [x] = y :: t ∧ y ≠ "" := by
      cases ho : (List.foldl (cleanStep false) [] a).reverse with
      | nil => exact ⟨x, [], rfl, h1⟩
      | cons y t =>
        refine ⟨y, t ++ [x], rfl, ?_⟩
        have : y ∈ List.foldl (cleanStep false) [] a := by
          rw [← List.mem_reverse, ho]; simp
        exact (hmem y this).1
    obtain ⟨y, t, hyt, hy⟩ := hhead
    unfold resolve
    rw [hyt, isEmptyPath_cons_ne hy, isRooted_cons_ne hy, ← hyt]
    simp only [Bool.false_eq_true, if_false]
    rw [walkFrom_snoc_eq fs x D _ _ hout, hstep, if_neg hx4]

theorem trimSlashes_spec (p : Path) :
    ∃ k, p = trimSlashes p ++ List.replicate k "" ∧
      ∀ h : trimSlashes p ≠ [], (trimSlashes p).getLast h ≠ "" := by
  induction p using List.reverseRecOn with
  | nil => exact ⟨0, by simp [trimSlashes], fun h => absurd (by simp [trimSlashes]) h⟩
  | append_singleton init x ih =>
    obtain ⟨k, hk, hlast⟩ := ih
    by_cases hx : x = ""
    · subst hx
      refine ⟨k + 1, ?_, ?_⟩
      · rw [trimSlashes_snoc, if_pos rfl, List.replicate_succ', ← List.append_assoc, ← hk]
      · intro h
        have e : trimSlashes (init ++ [""]) = trimSlashes init := by
          rw [trimSlashes_snoc, if_pos rfl]
        simp only [e] at h ⊢
        exact hlast h
    · refine ⟨0, ?_, ?_⟩
      · rw [trimSlashes_snoc, if_neg hx]; simp
      · intro h
        have e : trimSlashes (init ++ [x]) = init ++ [x] := by
          rw [trimSlashes_snoc, if_neg hx]
        simp only [e]
        simpa using hx

theorem foldl_cleanStep_replicate (rooted : Bool) (k : Nat) (acc : List String) :
    (List.replicate k "").foldl (cleanStep rooted) acc = acc := by
  induction k with
  | zero => rfl
  | succ k ih =>
    rw [List.replicate_succ, List.foldl_cons]
    have : cleanStep rooted acc "" = acc := by simp [cleanStep]
    rw [this, ih]

theorem isRooted_append_of_last {t : Path} (ht : t ≠ []) (hl : t.getLast ht ≠ "")
    (rest : List String) : isRooted (t ++ rest) = isRooted t := by
  match t, ht, hl with
  | [x], _, hl =>
    have hx : x ≠ "" := by simpa using hl
    simp only [List.singleton_append]
    rw [isRooted_cons_ne hx, isRooted_cons_ne hx]
  | x :: y :: r, _, _ =>
    by_cases hx : x = ""
    · subst hx; rfl
    · simp only [List.cons_append]
      rw [isRooted_cons_ne hx, isRooted_cons_ne hx]

/-- Trailing separators do not change the cleaned path. -/
theorem Clean_trim (p : Path) :
    Clean (if trimSlashes p = [] then p else trimSlashes p) = Clean p := by
  by_cases ht : trimSlashes p = []
  · rw [if_pos ht]
  · rw [if_neg ht]
    obtain ⟨k, hk, hlast⟩ := trimSlashes_spec p
    generalize trimSlashes p = t at ht hk hlast
    subst hk
    have hroot : isRooted (t ++ List.replicate k "") = isRooted t :=
      isRooted_append_of_last ht (hlast ht) _
    unfold Clean
    rw [hroot, List.foldl_append, foldl_cleanStep_replicate]

theorem Stat_dir_inv {fs : FS} {p : Path} {fi : FileInfo} (h : Stat fs p = .ok fi)
    (hd : fi.isDir = true) : ∃ l, resolve fs p = .ok l ∧ fs.get l = some (.dir fi.mode) := by
  obtain ⟨l, e, hr, hg, rfl⟩ := (Stat_ok_iff fs p fi).1 h
  cases e with
  | file m d => simp [Entry.info, Entry.isDir] at hd
  | dir m => exact ⟨l, hr, hg⟩

/-- After a successful `MkdirAll` the cleaned path denotes a directory. -/
theorem MkdirAllAux_post (perm : FileMode) (n : Nat) (fs : FS) (p : Path) (fs1 : FS)
    (h : MkdirAllAux n fs p perm = (fs1, none)) :
    ∃ D dm, resolve fs1 (Clean p) = .ok D ∧ fs1.get D = some (.dir dm) := by
  cases n with
  | zero => simp [MkdirAllAux] at h
  | succ n =>
    unfold MkdirAllAux at h
    cases hS : Stat fs p with
    | ok fi =>
      simp only [hS] at h
      split at h
      · rename_i hd
        simp only [Prod.mk.injEq, and_true] at h
        subst h
        obtain ⟨l, hr, hg⟩ := Stat_dir_inv hS hd
        exact ⟨l, _, resolve_Clean hr, hg⟩
      · simp at h
    | error e0 =>
      simp only [hS] at h
      generalize (if (trimSlashes p).dropLast ≠ [] ∧ (trimSlashes p).dropLast ≠ [""]
        then MkdirAllAux n fs (trimSlashes p).dropLast perm else (fs, none)) = rec at h
      obtain ⟨fsa, ra⟩ := rec
      cases ra with
      | some err => simp at h
      | none =>
        simp only at h
        cases hM : Mkdir fsa p perm with
        | ok fs2 =>
          simp only [hM, Prod.mk.injEq, and_true] at h
          subst h
          obtain ⟨l, pm, hr, hg, _, rfl⟩ := Mkdir_ok_inv hM
          have := resolve_Clean (resolve_stable
            (put_new_stable hg (.dir (mkdirMode fsa.umask perm pm))) hr)
          rw [Clean_trim] at this
          exact ⟨l, mkdirMode fsa.umask perm pm, this, by rw [get_put, if_pos rfl]⟩
        | error err =>
          simp only [hM] at h
          cases hS2 : Stat fsa p with
          | ok fi =>
            simp only [hS2] at h
            split at h
            · rename_i hd
              simp only [Prod.mk.injEq, and_true] at h
              subst h
              obtain ⟨l, hr, hg⟩ := Stat_dir_inv hS2 hd
              exact ⟨l, _, resolve_Clean hr, hg⟩
            · simp at h
          | error e => simp [hS2] at h

/-! ## CopyFile between locations -/

theorem SameBut.put_file {fs : FS} {L : Loc} (h : fs.get L = none ∨ ∃ m d, fs.get L = some (.file m d))
    (m : FileMode) (d : List Nat) : SameBut fs (fs.put L (.file m d)) L := by
  constructor
  · rcases h with h | ⟨m0, d0, h⟩
    · exact put_new_stable h _
    · exact put_file_stable h _ _
  · intro loc hl
    rw [get_put, if_neg (Ne.symm hl)]

theorem SameBut.compose {a b c : FS} {L : Loc} (h1 : SameBut a b L) (h2 : SameBut b c L) :
    SameBut a c L :=
  ⟨h1.1.trans h2.1, fun loc hl => (h2.2 loc hl).trans (h1.2 loc hl)⟩

theorem CopyFile_unresolved {fs : FS} {p q : Path} {e : Errno} (hq : resolve fs q = .error e) :
    (CopyFile fs p q).2 ≠ none ∧ (CopyFile fs p q).1 = fs := by
  have hC := Create_error_of_resolve hq
  unfold CopyFile
  cases hO : Open fs p with
  | error e => simp
  | ok S => simp [hC]

theorem CopyFile_src_unresolved {fs : FS} {p q : Path} {e : Errno}
    (hp : resolve fs p = .error e) :
    (CopyFile fs p q).2 ≠ none ∧ (CopyFile fs p q).1 = fs := by
  have hO : Open fs p = .error (.pathError "open" p e) := by simp [Open, hp]
  unfold CopyFile
  simp [hO]

/-- CopyFile from a regular file at `SL` to the location `L`: it either fails
leaving the state as it was, or succeeds with the effect `FileOk`. -/
theorem CopyFile_loc {fs : FS} {p q : Path} {SL L : Loc}
    (hp : resolve fs p = .ok SL) (hq : resolve fs q = .ok L)
    (hsrc : ∃ m d, fs.get SL = some (.file m d)) :
    ((CopyFile fs p q).2 ≠ none ∧ (CopyFile fs p q).1 = fs) ∨
      ((CopyFile fs p q).2 = none ∧ FileOk fs SL L (CopyFile fs p q).1) := by
  obtain ⟨m, d, hm⟩ := hsrc
  rcases CopyFile_trace fs p q with ⟨h1, h2⟩ | ⟨S2, D2, m0, hO, hC, h⟩
  · exact Or.inl ⟨h2, h1⟩
  · have hS2 := ((Open_ok_iff fs p S2).1 hO).1
    rw [hp] at hS2
    cases hS2
    obtain ⟨hrD, m1, hput, hc⟩ := Create_ok_inv hC
    rw [hq] at hrD
    cases hrD
    have hold : fs.get L = none ∨ ∃ m d, fs.get L = some (.file m d) := by
      rcases hc with ⟨d0, hd0⟩ | ⟨hn, _⟩
      · exact Or.inr ⟨_, _, hd0⟩
      · exact Or.inl hn
    have gD : (fs.put L (.file m0 [])).get L = some (.file m0 []) := by rw [get_put, if_pos rfl]
    have hgS : ∃ mi data, (fs.put L (.file m0 [])).get SL = some (.file mi data) ∧
        (SL ≠ L → mi = m ∧ data = d) := by
      by_cases hLS : L = SL
      · subst hLS
        exact ⟨m0, [], gD, fun h => absurd rfl h⟩
      · exact ⟨m, d, by rw [get_put, if_neg hLS, hm], fun _ => ⟨rfl, rfl⟩⟩
    obtain ⟨mi, data, hg1, hg2⟩ := hgS
    rcases h with ⟨_, _, h3⟩ | ⟨mi2, data2, hg, hall⟩
    · exact absurd hg1 (h3 mi data)
    · rw [hg1] at hg
      cases hg
      right
      rw [hall]
      refine ⟨rfl, ?_, hold, m, d, hm, ⟨mi, data, by rw [get_put, if_pos rfl]⟩, ?_⟩
      · have s1 := SameBut.put_file hold m0 []
        have s2 : SameBut (fs.put L (.file m0 [])) ((fs.put L (.file m0 [])).put L (.file m0 data)) L :=
          SameBut.put_file (Or.inr ⟨_, _, gD⟩) _ _
        have s3 : SameBut ((fs.put L (.file m0 [])).put L (.file m0 data))
            (((fs.put L (.file m0 [])).put L (.file m0 data)).put L (.file mi data)) L :=
          SameBut.put_file (Or.inr ⟨m0, data, by rw [get_put, if_pos rfl]⟩) _ _
        exact (s1.compose s2).compose s3
      · intro hne
        obtain ⟨rfl, rfl⟩ := hg2 hne
        rw [get_put, if_pos rfl]

/-! ## `filepath.Clean` is idempotent -/

/-- The shape of the elements `filepath.Clean` keeps: none is empty or `.`; a
rooted path keeps no `..`; below a `..` there are only `..`. -/
theorem cleanStep_shape (r : Bool) (st : List String) (s : String)
    (h : (∀ x ∈ st, x ≠ "" ∧ x ≠ ".") ∧ (r = true → ".." ∉ st) ∧
      (∀ a b, st = a ++ ".." :: b → ∀ x ∈ b, x = "..")) :
    (∀ x ∈ cleanStep r st s, x ≠ "" ∧ x ≠ ".") ∧ (r = true → ".." ∉ cleanStep r st s) ∧
      (∀ a b, cleanStep r st s = a ++ ".." :: b → ∀ x ∈ b, x = "..") := by
  obtain ⟨h1, h2, h3⟩ := h
  unfold cleanStep
  by_cases h0 : s = "" ∨ s = "."
  · rw [if_pos h0]; exact ⟨h1, h2, h3⟩
  · rw [if_neg h0]
    have hs1 : s ≠ "" := fun h => h0 (Or.inl h)
    have hs2 : s ≠ "." := fun h => h0 (Or.inr h)
    by_cases hdd : s = ".."
    · rw [if_pos hdd]
      subst hdd
      cases st with
      | nil =>
        by_cases hr : r = true
        · simp [hr]
        · simp only [hr, Bool.false_eq_true, if_false]
          refine ⟨by simp, by simp [hr], ?_⟩
          intro a b hab x hx
          cases a with
          | nil =>
            simp only [List.nil_append, List.cons.injEq, true_and] at hab
            rw [← hab] at hx; simp at hx
          | cons y a2 =>
            simp only [List.cons_append, List.cons.injEq] at hab
            have := congrArg List.length hab.2
            simp only [List.length_nil, List.length_append, List.length_cons] at this
            omega
      | cons top rest =>
        simp only
        by_cases ht : top = ".."
        · rw [if_pos ht]
          subst ht
          have hall : ∀ x ∈ rest, x = ".." := h3 [] rest rfl
          refine ⟨?_, ?_, ?_⟩
          · intro x hx
            rcases List.mem_cons.1 hx with rfl | hx
            · exact ⟨by decide, by decide⟩
            · exact h1 x hx
          · intro hr
            exact absurd (List.mem_cons_self _ _) (h2 hr)
          · intro a b hab x hx
            cases a with
            | nil =>
              simp only [List.nil_append, List.cons.injEq, true_and] at hab
              rw [← hab] at hx
              rcases List.mem_cons.1 hx with rfl | hx
              · rfl
              · exact hall x hx
            | cons y a2 =>
              simp only [List.cons_append, List.cons.injEq] at hab
              exact h3 a2 b hab.2 x hx
        · rw [if_neg ht]
          refine ⟨fun x hx => h1 x (List.mem_cons_of_mem _ hx),
            fun hr hx => h2 hr (List.mem_cons_of_mem _ hx), ?_⟩
          intro a b hab x hx
          exact h3 (top :: a) b (by rw [hab]; rfl) x hx
    · rw [if_neg hdd]
      refine ⟨?_, ?_, ?_⟩
      · intro x hx
        rcases List.mem_cons.1 hx with rfl | hx
        · exact ⟨hs1, hs2⟩
        · exact h1 x hx
      · intro hr hx
        rcases List.mem_cons.1 hx with h | hx
        · exact hdd h.symm
        · exact h2 hr hx
      · intro a b hab x hx
        cases a with
        | nil =>
          simp only [List.nil_append, List.cons.injEq] at hab
          exact absurd hab.1 hdd
        | cons y a2 =>
          simp only [List.cons_append, List.cons.injEq] at hab
          exact h3 a2 b hab.2 x hx

theorem foldl_cleanStep_shape (r : Bool) (segs : List String) :
    ∀ st, ((∀ x ∈ st, x ≠ "" ∧ x ≠ ".") ∧ (r = true → ".." ∉ st) ∧
        (∀ a b, st = a ++ ".." :: b → ∀ x ∈ b, x = "..")) →
      (∀ x ∈ segs.foldl (cleanStep r) st, x ≠ "" ∧ x ≠ ".") ∧
        (r = true → ".." ∉ segs.foldl (cleanStep r) st) ∧
        (∀ a b, segs.foldl (cleanStep r) st = a ++ ".." :: b → ∀ x ∈ b, x = "..") := by
  induction segs with
  | nil => intro st h; exact h
  | cons s rest ih =>
    intro st h
    simp only [List.foldl_cons]
    exact ih _ (cleanStep_shape r st s h)

/-- Cleaning the kept elements again keeps them all. -/
theorem foldl_cleanStep_kept (r : Bool) :
    ∀ st : List String, ((∀ x ∈ st, x ≠ "" ∧ x ≠ ".") ∧ (r = true → ".." ∉ st) ∧
        (∀ a b, st = a ++ ".." :: b → ∀ x ∈ b, x = "..")) →
      st.reverse.foldl (cleanStep r) [] = st := by
  intro st
  induction st with
  | nil => intro _; rfl
  | cons top rest ih =>
    intro h
    obtain ⟨h1, h2, h3⟩ := h
    have hrest : rest.reverse.foldl (cleanStep r) [] = rest :=
      ih ⟨fun x hx => h1 x (List.mem_cons_of_mem _ hx),
        fun hr hx => h2 hr (List.mem_cons_of_mem _ hx),
        fun a b hab x hx => h3 (top :: a) b (by rw [hab]; rfl) x hx⟩
    rw [List.reverse_cons, List.foldl_append, hrest]
    simp only [List.foldl_cons, List.foldl_nil]
    obtain ⟨t1, t2⟩ := h1 top (List.mem_cons_self _ _)
    unfold cleanStep
    rw [if_neg (by simp [t1, t2])]
    by_cases hdd : top = ".."
    · rw [if_pos hdd]
      subst hdd
      have hr : r = false := by
        cases r with
        | false => rfl
        | true => exact absurd (List.mem_cons_self _ _) (h2 rfl)
      cases rest with
      | nil => simp [hr]
      | cons y rest2 =>
        have : y = ".." := h3 [] (y :: rest2) rfl y (List.mem_cons_self _ _)
        simp [this]
    · rw [if_neg hdd]

theorem foldl_cleanStep_start (r : Bool) (p : Path) :
    (∀ x ∈ p.foldl (cleanStep r) [], x ≠ "" ∧ x ≠ ".") ∧
      (r = true → ".." ∉ p.foldl (cleanStep r) []) ∧
      (∀ a b, p.foldl (cleanStep r) [] = a ++ ".." :: b → ∀ x ∈ b, x = "..") :=
  foldl_cleanStep_shape r p [] ⟨by simp, by simp, by
    intro a b hab
    have := congrArg List.length hab
    simp only [List.length_nil, List.length_append, List.length_cons] at this
    omega⟩

/-- `filepath.Clean` returns cleaned paths as they are. -/
theorem Clean_idem (p : Path) : Clean (Clean p) = Clean p := by
  have hshape := foldl_cleanStep_start (isRooted p) p
  have hkept := foldl_cleanStep_kept (isRooted p) _ hshape
  rw [Clean_eq p]
  by_cases ho : (p.foldl (cleanStep (isRooted p)) []).reverse = []
  · rw [if_pos ho]
    cases isRooted p <;> decide
  · rw [if_neg ho]
    obtain ⟨y, t, hyt⟩ := List.exists_cons_of_ne_nil ho
    have hy : y ≠ "" := by
      have : y ∈ p.foldl (cleanStep (isRooted p)) [] := by
        rw [← List.mem_reverse, hyt]; simp
      exact (hshape.1 y this).1
    cases hr : isRooted p with
    | true =>
      rw [hr] at hkept hyt ho
      simp only [if_true]
      have hroot : isRooted ([""] ++ (p.foldl (cleanStep true) []).reverse) = true := by
        rw [hyt]; rfl
      rw [Clean_eq, hroot]
      have hf : ([""] ++ (p.foldl (cleanStep true) []).reverse).foldl (cleanStep true) []
          = p.foldl (cleanStep true) [] := by
        rw [List.foldl_append]
        simpa [cleanStep] using hkept
      rw [hf, if_neg ho]
      simp
    | false =>
      rw [hr] at hkept hyt ho
      simp only [Bool.false_eq_true, if_false, List.nil_append]
      have hroot : isRooted (p.foldl (cleanStep false) []).reverse = false := by
        rw [hyt]; exact isRooted_cons_ne hy _
      rw [Clean_eq, hroot, hkept, if_neg ho]
      simp

/-- A joined path is a cleaned path. -/
theorem Clean_Join {a : Path} (ha : isEmptyPath a = false) (x : String) :
    Clean (Join a x) = Join a x := by
  unfold Join
  rw [ha]
  simp only [Bool.false_eq_true, if_false]
  split <;> exact Clean_idem _

/-! ## `MkdirAll` on a plain path -/

theorem plainPath_inv {p : Path} (h : plainPath p = true) :
    ∃ pre names, p = pre ++ names ∧ (pre = [] ∨ pre = [""]) ∧ names ≠ [] ∧
      ∀ x ∈ names, x ≠ "" ∧ x ≠ "." ∧ x ≠ ".." := by
  cases p with
  | nil => simp [plainPath] at h
  | cons s rest =>
    simp only [plainPath] at h
    by_cases hs : s = ""
    · subst hs
      simp only [if_true, Bool.and_eq_true, Bool.not_eq_true', List.all_eq_true,
        decide_eq_true_eq] at h
      refine ⟨[""], rest, rfl, Or.inr rfl, ?_, h.2⟩
      intro hr
      rw [hr] at h
      simp at h
    · simp only [hs, if_false, List.all_eq_true, decide_eq_true_eq] at h
      exact ⟨[], s :: rest, rfl, Or.inl rfl, by simp, h⟩

theorem walkFrom_plain {fs : FS} :
    ∀ (names : List String) (cur l : Loc), (∀ x ∈ names, x ≠ "" ∧ x ≠ "." ∧ x ≠ "..") →
      walkFrom fs cur names = .ok l → l = cur ++ names := by
  intro names
  induction names with
  | nil =>
    intro cur l _ h
    simp only [walkFrom, Except.ok.injEq] at h
    simp [h]
  | cons x rest ih =>
    intro cur l hn h
    rw [walkFrom_cons_ok_iff] at h
    obtain ⟨hx1, hx2, hx3⟩ := hn x (List.mem_cons_self _ _)
    rw [stepLoc_name hx1 hx2 hx3] at h
    rw [ih _ _ (fun y hy => hn y (List.mem_cons_of_mem _ hy)) h.2.2]
    simp

/-- The location a plain path denotes: its names under the root or the working directory. -/
theorem resolve_plain {fs : FS} {pre names : List String} {l : Loc}
    (hpre : pre = [] ∨ pre = [""]) (hne : names ≠ [])
    (hn : ∀ x ∈ names, x ≠ "" ∧ x ≠ "." ∧ x ≠ "..")
    (h : resolve fs (pre ++ names) = .ok l) :
    l = (if pre = [] then fs.cwd else []) ++ names := by
  obtain ⟨y, t, rfl⟩ := List.exists_cons_of_ne_nil hne
  obtain ⟨_, _, hw⟩ := (resolve_ok_iff _ _ _).1 h
  rcases hpre with rfl | rfl
  · have hr : isRooted (y :: t) = false := isRooted_cons_ne (hn y (List.mem_cons_self _ _)).1 _
    simp only [List.nil_append, hr, Bool.false_eq_true, if_false] at hw
    simpa using walkFrom_plain _ _ _ hn hw
  · have hr : isRooted ([""] ++ y :: t) = true := rfl
    rw [hr] at hw
    simp only [if_true, List.singleton_append] at hw
    rw [walkFrom_cons_ok_iff] at hw
    have e : stepLoc [] "" = [] := by simp [stepLoc]
    rw [e] at hw
    have := walkFrom_plain _ _ _ hn hw.2.2
    simpa using this

/-- `MkdirAll` on a plain path creates directories only at locations on the
way to the one the path denotes. -/
theorem MkdirAllAux_plain (perm : FileMode) :
    ∀ (n : Nat) (names pre : List String) (fs fs1 : FS) (r : Option Error),
      (pre = [] ∨ pre = [""]) → names ≠ [] → (∀ x ∈ names, x ≠ "" ∧ x ≠ "." ∧ x ≠ "..") →
      MkdirAllAux n fs (pre ++ names) perm = (fs1, r) →
      ∀ loc, fs1.get loc ≠ fs.get loc → loc <+: (if pre = [] then fs.cwd else []) ++ names := by
  intro n
  induction n with
  | zero =>
    intro names pre fs fs1 r _ _ _ h loc hl
    simp only [MkdirAllAux, Prod.mk.injEq] at h
    rw [h.1] at hl
    exact absurd rfl hl
  | succ n ih =>
    intro names pre fs fs1 r hpre hne hn h loc hl
    obtain ⟨init, x, rfl⟩ : ∃ init x, names = init ++ [x] :=
      ⟨names.dropLast, names.getLast hne, (List.dropLast_append_getLast hne).symm⟩
    have hx := hn x (by simp)
    have htrim : trimSlashes (pre ++ (init ++ [x])) = pre ++ (init ++ [x]) := by
      rw [← List.append_assoc, trimSlashes_snoc, if_neg hx.1]
    have hparent : (pre ++ (init ++ [x])).dropLast = pre ++ init := by
      rw [← List.append_assoc, List.dropLast_concat]
    unfold MkdirAllAux at h
    cases hS : Stat fs (pre ++ (init ++ [x])) with
    | ok fi =>
      simp only [hS] at h
      have : fs = fs1 := by
        split at h <;> (simp only [Prod.mk.injEq] at h; exact h.1)
      rw [this] at hl
      exact absurd rfl hl
    | error e0 =>
      simp only [hS, htrim, hparent] at h
      generalize hrec : (if pre ++ init ≠ [] ∧ pre ++ init ≠ [""]
        then MkdirAllAux n fs (pre ++ init) perm else (fs, none)) = rec at h
      obtain ⟨fsa, ra⟩ := rec
      have hA : DirStable fs fsa ∧ ∀ loc, fsa.get loc ≠ fs.get loc →
          loc <+: (if pre = [] then fs.cwd else []) ++ (init ++ [x]) := by
        split at hrec
        · rename_i hc
          have hinit : init ≠ [] := by
            rintro rfl
            rcases hpre with rfl | rfl <;> simp at hc
          refine ⟨(MkdirAllAux_frame perm n fs _ fsa ra hrec).1, fun loc hl => ?_⟩
          have := ih init pre fs fsa ra hpre hinit
            (fun y hy => hn y (List.mem_append_left _ hy)) hrec loc hl
          rw [← List.append_assoc]
          exact this.trans (List.prefix_append _ _)
        · simp only [Prod.mk.injEq] at hrec
          obtain ⟨rfl, _⟩ := hrec
          exact ⟨DirStable.refl _, fun loc hl => absurd rfl hl⟩
      cases ra with
      | some err =>
        simp only [Prod.mk.injEq] at h
        obtain ⟨rfl, _⟩ := h
        exact hA.2 loc hl
      | none =>
        simp only at h
        cases hM : Mkdir fsa (pre ++ (init ++ [x])) perm with
        | ok fs2 =>
          simp only [hM, Prod.mk.injEq] at h
          obtain ⟨rfl, _⟩ := h
          obtain ⟨l, pm, hr, hg, _, rfl⟩ := Mkdir_ok_inv hM
          rw [htrim] at hr
          have hr2 : resolve fsa (pre ++ (init ++ [x])) = .ok l := by
            split at hr <;> exact hr
          have hl2 := resolve_plain hpre hne hn hr2
          rw [hA.1.1] at hl2
          rw [get_put] at hl
          by_cases hll : l = loc
          · rw [← hll, hl2]
          · rw [if_neg hll] at hl
            exact hA.2 loc hl
        | error err =>
          simp only [hM] at h
          have : fsa = fs1 := by
            revert h
            cases Stat fsa (pre ++ (init ++ [x])) with
            | ok fi =>
              intro h
              simp only at h
              split at h <;> (simp only [Prod.mk.injEq] at h; exact h.1)
            | error e => intro h; simp only [Prod.mk.injEq] at h; exact h.1
          subst this
          exact hA.2 loc hl

theorem foldl_cleanStep_plain (r : Bool) :
    ∀ (names acc : List String), (∀ x ∈ names, x ≠ "" ∧ x ≠ "." ∧ x ≠ "..") →
      names.foldl (cleanStep r) acc = names.reverse ++ acc := by
  intro names
  induction names with
  | nil => intro acc _; rfl
  | cons x rest ih =>
    intro acc hn
    obtain ⟨h1, h2, h3⟩ := hn x (List.mem_cons_self _ _)
    simp only [List.foldl_cons, List.reverse_cons, List.append_assoc, List.singleton_append]
    rw [ih _ (fun y hy => hn y (List.mem_cons_of_mem _ hy))]
    simp [cleanStep, h1, h2, h3]

/-- A plain path is its own cleaned form. -/
theorem Clean_plain {p : Path} (h : plainPath p = true) : Clean p = p := by
  obtain ⟨pre, names, rfl, hpre, hne, hn⟩ := plainPath_inv h
  obtain ⟨y, t, rfl⟩ := List.exists_cons_of_ne_nil hne
  rw [Clean_eq]
  rcases hpre with rfl | rfl
  · have hr : isRooted (y :: t) = false := isRooted_cons_ne (hn y (List.mem_cons_self _ _)).1 _
    simp only [List.nil_append, hr, foldl_cleanStep_plain _ _ _ hn]
    simp
  · have hr : isRooted ([""] ++ y :: t) = true := rfl
    rw [hr, List.foldl_append]
    have e : List.foldl (cleanStep true) [] [""] = [] := by simp [cleanStep]
    rw [e, foldl_cleanStep_plain _ _ _ hn]
    simp

/-- After `MkdirAll` on a plain path, whatever it created lies on the way to
the directory the cleaned path denotes. -/
theorem MkdirAll_plain {fs fs1 : FS} {dest : Path} {perm : FileMode} {r : Option Error}
    {D : Loc} (hp : plainPath dest = true) (hM : MkdirAll fs dest perm = (fs1, r))
    (hD : resolve fs1 (Clean dest) = .ok D) :
    ∀ loc, fs1.get loc ≠ fs.get loc → loc <+: D := by
  rw [Clean_plain hp] at hD
  obtain ⟨pre, names, rfl, hpre, hne, hn⟩ := plainPath_inv hp
  have hD2 := resolve_plain hpre hne hn hD
  rw [(MkdirAllAux_frame perm _ fs _ fs1 r hM).1.1] at hD2
  intro loc hl
  rw [hD2]
  exact MkdirAllAux_plain perm _ names pre fs fs1 r hpre hne hn hM loc hl

/-! ## CopyDir refines the location-level relation -/

theorem Enter.keeps {fs fs1 : FS} {SL L : Loc} (h : Enter fs SL L fs1) : DirStable fs fs1 := by
  obtain ⟨m, _, h⟩ := h
  rcases h with ⟨rfl, _⟩ | ⟨hn, m2, rfl⟩
  · exact DirStable.refl _
  · exact put_new_stable hn _

theorem Run.stable {fs fs2 : FS} {S D : Loc} {names : List String} {ok : Bool}
    (h : Run fs S D names fs2 ok) : DirStable fs fs2 := by
  induction h with
  | done => exact DirStable.refl _
  | fileOk _ hf _ ih => exact hf.1.1.trans ih
  | entryFail => exact DirStable.refl _
  | mkdirOnly _ _ _ _ hn => exact put_new_stable hn _
  | dirFail _ _ he _ ih => exact he.keeps.trans ih
  | dirOk _ he _ _ ih1 ih2 => exact (he.keeps.trans ih1).trans ih2

theorem DirCopy.preserves {fs fs2 : FS} {SL L : Loc} {ok : Bool} (h : DirCopy fs SL L fs2 ok) :
    DirStable fs fs2 := by
  rcases h with ⟨_, rfl | ⟨m, m2, _, hn, rfl⟩⟩ | ⟨fs1, he, hr⟩
  · exact DirStable.refl _
  · exact put_new_stable hn _
  · exact he.keeps.trans hr.stable

theorem DirStable.get_dir {fs fs2 : FS} (h : DirStable fs fs2) {loc : Loc} {m : FileMode}
    (hg : fs.get loc = some (.dir m)) : fs2.get loc = some (.dir m) := by
  obtain ⟨e2, g2, _, d2⟩ := h.2.2 loc _ hg
  rw [g2, d2 rfl]

theorem DirStable.get_file {fs fs2 : FS} (h : DirStable fs fs2) {loc : Loc} {m : FileMode}
    {d : List Nat} (hg : fs.get loc = some (.file m d)) :
    ∃ m2 d2, fs2.get loc = some (.file m2 d2) := by
  obtain ⟨e2, g2, k2, _⟩ := h.2.2 loc _ hg
  cases e2 with
  | file m2 d2 => exact ⟨m2, d2, g2⟩
  | dir m2 => simp [Entry.isDir] at k2

theorem searchable_dir_error {fs : FS} {D : Loc} {dm : FileMode} {e : Errno}
    (hD : fs.get D = some (.dir dm)) (h : searchable fs D = .error e) : e ≠ .ENOENT := by
  unfold searchable at h
  rw [hD] at h
  simp only at h
  split at h
  · cases h
  · cases h
    simp

/-- The destination of the recursive call for an entry is local at the entry's location. -/
theorem LocalDest_Join {fs : FS} {destPath : Path} {D : Loc} {dm : FileMode} {n : String}
    (hq : resolve fs destPath = .ok D) (hD : fs.get D = some (.dir dm))
    (hn : validName n = true) : LocalDest fs (Join destPath n) (D ++ [n]) := by
  by_cases hlong : 4096 ≤ pathBytes (Join destPath n)
  · left
    refine ⟨.ENAMETOOLONG, by decide, ?_⟩
    rw [resolve_Join_eq hq hn, if_pos hlong]
  · have hlt : pathBytes (Join destPath n) < 4096 := Nat.lt_of_not_le hlong
    cases hs : searchable fs D with
    | error e =>
      left
      refine ⟨e, searchable_dir_error hD hs, ?_⟩
      rw [resolve_Join_eq hq hn, if_neg hlong, hs]
    | ok u =>
      right
      exact ⟨resolve_Clean (resolve_Join hq hs hn hlt),
        fun perm => MkdirAll_Join hq hs hn hlt perm⟩

/-- When the cleaned form of a joined path resolves, the joined path is not too
long and denotes the child. -/
theorem resolve_Clean_Join {fs : FS} {a : Path} {x : String} {S SL : Loc}
    (ha : resolve fs a = .ok S) (hx : validName x = true)
    (h : resolve fs (Clean (Join a x)) = .ok SL) :
    SL = S ++ [x] ∧ resolve fs (Join a x) = .ok (S ++ [x]) := by
  rw [Clean_Join ((resolve_ok_iff _ _ _).1 ha).1] at h
  have h2 := h
  rw [resolve_Join_eq ha hx] at h2
  by_cases hlong : 4096 ≤ pathBytes (Join a x)
  · rw [if_pos hlong] at h2; cases h2
  · rw [if_neg hlong] at h2
    cases hs : searchable fs S with
    | error e => rw [hs] at h2; cases h2
    | ok u =>
      rw [hs] at h2
      simp only [Except.ok.injEq] at h2
      subst h2
      exact ⟨rfl, h⟩

/-- The loop over the listing refines `Run`, given that the recursive calls refine `DirCopy`. -/
theorem copyEntries_run (n : Nat)
    (IH : ∀ (fs : FS) (src dest : Path) (L : Loc) (fs2 : FS) (r : Option Error),
      LocalDest fs dest L → CopyDir n fs src dest = some (fs2, r) →
      (r ≠ none ∧ fs2 = fs) ∨
        ∃ SL, resolve fs (Clean src) = .ok SL ∧ DirCopy fs SL L fs2 r.isNone)
    (srcPath destPath : Path) (S D : Loc) :
    ∀ (es : List DirEntry) (fs fs2 : FS) (r : Option Error),
      resolve fs srcPath = .ok S → resolve fs destPath = .ok D →
      (∃ dm, fs.get D = some (.dir dm)) →
      (es ≠ [] → searchable fs S = .ok ()) →
      (∀ e ∈ es, validName e.name = true ∧
        ∃ en, fs.get (S ++ [e.name]) = some en ∧ en.isDir = e.isDir) →
      copyEntries (CopyDir n) srcPath destPath fs es = some (fs2, r) →
      Run fs S D (es.map DirEntry.name) fs2 r.isNone := by
  intro es
  induction es with
  | nil =>
    intro fs fs2 r _ _ _ _ _ h
    simp only [copyEntries, Option.some.injEq, Prod.mk.injEq] at h
    obtain ⟨rfl, rfl⟩ := h
    exact Run.done _ _ _
  | cons e rest ih =>
    intro fs fs2 r hS hD hDdir hsearch hes h
    have hSs := hsearch (by simp)
    obtain ⟨hv, en, hen, hkind⟩ := hes e (by simp)
    obtain ⟨dm, hdm⟩ := hDdir
    -- the context survives any step that keeps directories
    have next : ∀ fs1, DirStable fs fs1 → copyEntries (CopyDir n) srcPath destPath fs1 rest
        = some (fs2, r) → Run fs1 S D (rest.map DirEntry.name) fs2 r.isNone := by
      intro fs1 hst hrest
      refine ih fs1 fs2 r (resolve_stable hst hS) (resolve_stable hst hD)
        ⟨dm, hst.get_dir hdm⟩ (fun _ => searchable_stable hst hSs) ?_ hrest
      intro e2 he2
      obtain ⟨hv2, en2, hen2, hk2⟩ := hes e2 (List.mem_cons_of_mem _ he2)
      obtain ⟨e3, g3, k3, _⟩ := hst.2.2 _ _ hen2
      exact ⟨hv2, e3, g3, k3.trans hk2⟩
    rw [copyEntries] at h
    simp only [List.map_cons]
    by_cases hd : e.isDir = true
    · simp only [hd, if_true] at h
      cases hc : CopyDir n fs (Join srcPath e.name) (Join destPath e.name) with
      | none => simp [hc] at h
      | some res =>
        obtain ⟨fs1, r1⟩ := res
        have hB := IH fs _ _ (D ++ [e.name]) fs1 r1 (LocalDest_Join hD hdm hv) hc
        cases r1 with
        | some err =>
          simp only [hc, Option.some.injEq, Prod.mk.injEq] at h
          obtain ⟨rfl, rfl⟩ := h
          simp only [Option.isNone_some]
          rcases hB with ⟨_, rfl⟩ | ⟨SL, hSL, hcopy⟩
          · exact Run.entryFail _ _ _ _ _
          · obtain ⟨rfl, _⟩ := resolve_Clean_Join hS hv hSL
            rcases hcopy with ⟨_, rfl | ⟨m, m2, hm, hn, rfl⟩⟩ | ⟨fsa, hent, hrun⟩
            · exact Run.entryFail _ _ _ _ _
            · exact Run.mkdirOnly _ m2 hv hm hn
            · exact Run.dirFail _ hv hent hrun
        | none =>
          simp only [hc] at h
          rcases hB with ⟨hne, _⟩ | ⟨SL, hSL, hcopy⟩
          · exact absurd rfl hne
          · obtain ⟨rfl, _⟩ := resolve_Clean_Join hS hv hSL
            rcases hcopy with ⟨hf, _⟩ | ⟨fsa, hent, hrun⟩
            · simp at hf
            · simp only [Option.isNone_none] at hrun
              exact Run.dirOk hv hent hrun (next fs1 (hent.keeps.trans hrun.stable) h)
    · have hd2 : e.isDir = false := by simpa using hd
      simp only [hd2, Bool.false_eq_true, if_false] at h
      have hfile : ∃ m d, fs.get (S ++ [e.name]) = some (.file m d) := by
        cases en with
        | file m d => exact ⟨m, d, hen⟩
        | dir m => simp [Entry.isDir, hd2] at hkind
      have hcases : ((CopyFile fs (Join srcPath e.name) (Join destPath e.name)).2 ≠ none ∧
            (CopyFile fs (Join srcPath e.name) (Join destPath e.name)).1 = fs) ∨
          ((CopyFile fs (Join srcPath e.name) (Join destPath e.name)).2 = none ∧
            FileOk fs (S ++ [e.name]) (D ++ [e.name])
              (CopyFile fs (Join srcPath e.name) (Join destPath e.name)).1) := by
        cases hrs : resolve fs (Join srcPath e.name) with
        | error er => exact Or.inl (CopyFile_src_unresolved hrs)
        | ok SL =>
          cases hrd : resolve fs (Join destPath e.name) with
          | error er => exact Or.inl (CopyFile_unresolved hrd)
          | ok L =>
            have e1 := (resolve_Clean_Join hS hv (resolve_Clean hrs)).1
            have e2 := (resolve_Clean_Join hD hv (resolve_Clean hrd)).1
            subst e1; subst e2
            exact CopyFile_loc hrs hrd hfile
      cases hc : CopyFile fs (Join srcPath e.name) (Join destPath e.name) with
      | mk fs1 r1 =>
        rw [hc] at hcases h
        cases r1 with
        | some err =>
          simp only [Option.some.injEq, Prod.mk.injEq] at h
          obtain ⟨rfl, rfl⟩ := h
          simp only [Option.isNone_some]
          rcases hcases with ⟨_, h2⟩ | ⟨h1, _⟩
          · simp only at h2
            subst h2
            exact Run.entryFail _ _ _ _ _
          · simp at h1
        | none =>
          simp only at h
          rcases hcases with ⟨h1, _⟩ | ⟨_, hok⟩
          · simp at h1
          · exact Run.fileOk hv hok (next fs1 hok.1.1 h)

/-- The ways a CopyDir call with recursion left can end, stage by stage. -/
theorem CopyDir_succ_cases {n : Nat} {fs : FS} {src dest : Path} {fs2 : FS} {r : Option Error}
    (h : CopyDir (n + 1) fs src dest = some (fs2, r)) :
    (r ≠ none ∧ fs2 = fs) ∨
    ∃ SL m fs1, resolve fs (Clean src) = .ok SL ∧ fs.get SL = some (.dir m) ∧
      (∀ e, resolve fs dest = .error e → e = .ENOENT) ∧
      ((∃ err, MkdirAll fs dest m = (fs1, some err) ∧ fs2 = fs1 ∧ r ≠ none) ∨
        (MkdirAll fs dest m = (fs1, none) ∧
          ((∃ err, ReadDir fs1 src = .error err ∧ fs2 = fs1 ∧ r ≠ none) ∨
            ∃ entries, ReadDir fs1 src = .ok entries ∧
              copyEntries (CopyDir n) (Clean src) (Clean dest) fs1 entries = some (fs2, r)))) := by
  unfold CopyDir at h
  cases hS : Stat fs (Clean src) with
  | error e =>
    simp only [hS, Option.some.injEq, Prod.mk.injEq] at h
    obtain ⟨rfl, rfl⟩ := h
    exact Or.inl ⟨by simp, rfl⟩
  | ok fi =>
    simp only [hS] at h
    by_cases hd : fi.isDir = true
    · simp only [hd, Bool.not_true, Bool.false_eq_true, if_false] at h
      obtain ⟨SL, hr, hg⟩ := Stat_dir_inv hS hd
      generalize hlook : (match Stat fs dest with
        | .ok _ => (none : Option Error)
        | .error err => if (!IsNotExist (some err)) = true then some err else none) = look at h
      cases look with
      | some err =>
        simp only [Option.some.injEq, Prod.mk.injEq] at h
        obtain ⟨rfl, rfl⟩ := h
        exact Or.inl ⟨by simp, rfl⟩
      | none =>
        simp only at h
        have hnoent : ∀ e, resolve fs dest = .error e → e = .ENOENT := by
          intro e he
          rw [Stat_error_of_resolve he] at hlook
          simp only at hlook
          cases e <;> simp [IsNotExist] at hlook ⊢
        right
        cases hM : MkdirAll fs dest fi.mode with
        | mk fs1 rm =>
          refine ⟨SL, fi.mode, fs1, hr, hg, hnoent, ?_⟩
          rw [hM] at h
          cases rm with
          | some err =>
            simp only [Option.some.injEq, Prod.mk.injEq] at h
            obtain ⟨rfl, rfl⟩ := h
            exact Or.inl ⟨err, hM, rfl, by simp⟩
          | none =>
            simp only at h
            refine Or.inr ⟨hM, ?_⟩
            cases hR : ReadDir fs1 src with
            | error err =>
              simp only [hR, Option.some.injEq, Prod.mk.injEq] at h
              obtain ⟨rfl, rfl⟩ := h
              exact Or.inl ⟨err, rfl, rfl, by simp⟩
            | ok entries =>
              simp only [hR] at h
              exact Or.inr ⟨entries, rfl, h⟩
    · simp only [hd, Bool.not_false, if_true, Option.some.injEq, Prod.mk.injEq] at h
      obtain ⟨rfl, rfl⟩ := h
      exact Or.inl ⟨by simp, rfl⟩

theorem MkdirAll_stable {fs fs1 : FS} {p : Path} {perm : FileMode} {r : Option Error}
    (h : MkdirAll fs p perm = (fs1, r)) : DirStable fs fs1 :=
  (MkdirAllAux_frame perm _ fs p fs1 r h).1

/-- Once the listing has been read, the loop of CopyDir refines `Run` on the listing. -/
theorem copyEntries_listing_run (n : Nat)
    (IH : ∀ (fs : FS) (src dest : Path) (L : Loc) (fs2 : FS) (r : Option Error),
      LocalDest fs dest L → CopyDir n fs src dest = some (fs2, r) →
      (r ≠ none ∧ fs2 = fs) ∨
        ∃ SL, resolve fs (Clean src) = .ok SL ∧ DirCopy fs SL L fs2 r.isNone)
    {fs1 fs2 : FS} {src dest : Path} {SL D : Loc} {dm : FileMode} {entries : List DirEntry}
    {r : Option Error}
    (hsrc : resolve fs1 (Clean src) = .ok SL) (hread : ReadDir fs1 src = .ok entries)
    (hdest : resolve fs1 (Clean dest) = .ok D) (hD : fs1.get D = some (.dir dm))
    (h : copyEntries (CopyDir n) (Clean src) (Clean dest) fs1 entries = some (fs2, r)) :
    Run fs1 SL D (listing fs1 SL) fs2 r.isNone := by
  obtain ⟨S2, m2, hr2, hg2, hsearch, rfl⟩ := ReadDir_ok_inv hread
  have := resolve_Clean hr2
  rw [hsrc] at this
  cases this
  have hrun := copyEntries_run n IH (Clean src) (Clean dest) SL D
    ((listing fs1 SL).map (entryOf fs1 SL)) fs1 fs2 r hsrc hdest ⟨dm, hD⟩ ?_ ?_ h
  · simpa [List.map_map, Function.comp_def, entryOf] using hrun
  · intro hne
    apply searchable_of_get hg2
    apply hsearch
    intro hnil
    exact hne (by simp [hnil])
  · intro e he
    obtain ⟨x, hx, rfl⟩ := List.mem_map.1 he
    obtain ⟨hv, hex⟩ := (mem_listing fs1 SL x).1 hx
    obtain ⟨en, hen⟩ := Option.ne_none_iff_exists'.1 hex
    exact ⟨hv, en, hen, by simp [entryOf, hen]⟩

/-- CopyDir with a local destination refines `DirCopy`. -/
theorem CopyDir_dircopy : ∀ (n : Nat) (fs : FS) (src dest : Path) (L : Loc) (fs2 : FS)
    (r : Option Error), LocalDest fs dest L → CopyDir n fs src dest = some (fs2, r) →
    (r ≠ none ∧ fs2 = fs) ∨
      ∃ SL, resolve fs (Clean src) = .ok SL ∧ DirCopy fs SL L fs2 r.isNone := by
  intro n
  induction n with
  | zero => intro fs src dest L fs2 r _ h; simp [CopyDir] at h
  | succ n ih =>
    intro fs src dest L fs2 r hloc h
    rcases CopyDir_succ_cases h with hl | ⟨SL, m, fs1, hr, hg, hnoent, hrest⟩
    · exact Or.inl hl
    · rcases hloc with ⟨e, hne, he⟩ | ⟨hres, hmk⟩
      · exact absurd (hnoent e he) hne
      · have hnotnone : ∀ {x : Option Error}, x ≠ none → x.isNone = false := by
          intro x hx; cases x <;> simp_all
        rcases hmk m with ⟨e, hge, _, hM⟩ | ⟨err, hM⟩ | ⟨hnone, m2, hM⟩
        · -- the destination directory exists already
          rcases hrest with ⟨err, hM2, _, _⟩ | ⟨hM2, hrd⟩
          · rw [hM] at hM2; cases hM2
          · rw [hM] at hM2
            cases hM2
            rcases hrd with ⟨err, _, rfl, hrn⟩ | ⟨entries, hread, hcopy⟩
            · exact Or.inl ⟨hrn, rfl⟩
            · right
              refine ⟨SL, hr, Or.inr ⟨fs, ?_, ?_⟩⟩
              · cases e with
                | file m0 d0 => simp [Entry.isDir] at *
                | dir dm => exact ⟨m, hg, Or.inl ⟨rfl, dm, hge⟩⟩
              · cases e with
                | file m0 d0 => simp [Entry.isDir] at *
                | dir dm => exact copyEntries_listing_run n ih hr hread hres hge hcopy
        · rcases hrest with ⟨err2, hM2, rfl, hrn⟩ | ⟨hM2, _⟩
          · rw [hM] at hM2
            cases hM2
            exact Or.inl ⟨hrn, rfl⟩
          · rw [hM] at hM2; cases hM2
        · -- the destination directory is created
          rcases hrest with ⟨err, hM2, _, _⟩ | ⟨hM2, hrd⟩
          · rw [hM] at hM2; cases hM2
          · rw [hM] at hM2
            cases hM2
            have hst : DirStable fs (fs.put L (.dir m2)) :=
              put_new_stable hnone _
            right
            refine ⟨SL, hr, ?_⟩
            rcases hrd with ⟨err, _, rfl, hrn⟩ | ⟨entries, hread, hcopy⟩
            · exact Or.inl ⟨hnotnone hrn, Or.inr ⟨m, m2, hg, hnone, rfl⟩⟩
            · refine Or.inr ⟨_, ⟨m, hg, Or.inr ⟨hnone, m2, rfl⟩⟩, ?_⟩
              exact copyEntries_listing_run n ih (resolve_stable hst hr) hread
                (resolve_stable hst hres) (by rw [get_put, if_pos rfl]) hcopy

/-! ## Where a directory copy writes -/

theorem under_of_under_snoc {D loc : Loc} {n : String} (h : (D ++ [n]) <+: loc) : D <+: loc :=
  (List.prefix_append D [n]).trans h

theorem snoc_prefix_unique {D loc : Loc} {x y : String} (hx : (D ++ [x]) <+: loc)
    (hy : (D ++ [y]) <+: loc) : x = y := by
  obtain ⟨t1, h1⟩ := hx
  obtain ⟨t2, h2⟩ := hy
  rw [← h2] at h1
  simp only [List.append_assoc, List.append_cancel_left_eq, List.singleton_append,
    List.cons.injEq] at h1
  exact h1.1

theorem Apart.snoc {S D : Loc} (h : Apart S D) (n : String) : Apart (S ++ [n]) (D ++ [n]) := by
  constructor
  · intro hp
    rcases List.prefix_or_prefix_of_prefix (under_of_under_snoc hp) (List.prefix_append D [n])
      with h1 | h1
    · exact h.1 h1
    · -- D is a prefix of S, both extended by one name to comparable lists of the same shape
      exact h.2 h1
  · intro hp
    rcases List.prefix_or_prefix_of_prefix (under_of_under_snoc hp) (List.prefix_append S [n])
      with h1 | h1
    · exact h.2 h1
    · exact h.1 h1

theorem Apart.not_both {S D loc : Loc} (h : Apart S D) (hD : D <+: loc) : ¬ S <+: loc := by
  intro hS
  rcases List.prefix_or_prefix_of_prefix hS hD with h1 | h1
  · exact h.1 h1
  · exact h.2 h1

theorem Enter.atDest {fs fs1 : FS} {SL L : Loc} (h : Enter fs SL L fs1) (loc : Loc)
    (hl : fs1.get loc ≠ fs.get loc) : loc = L ∧ fs.get L = none := by
  obtain ⟨m, _, h⟩ := h
  rcases h with ⟨rfl, _⟩ | ⟨hn, m2, rfl⟩
  · exact absurd rfl hl
  · rw [get_put] at hl
    by_cases hL : L = loc
    · exact ⟨hL.symm, hn⟩
    · rw [if_neg hL] at hl
      exact absurd rfl hl

/-- Every location a run changes lies under the destination entry of one of the listed names. -/
theorem Run.confined {fs fs2 : FS} {S D : Loc} {names : List String} {ok : Bool}
    (h : Run fs S D names fs2 ok) :
    ∀ loc, fs2.get loc ≠ fs.get loc → ∃ n ∈ names, (D ++ [n]) <+: loc := by
  induction h with
  | done => intro loc hl; exact absurd rfl hl
  | @fileOk fs fs1 fs2 S D n rest ok _ hf _ ih =>
    intro loc hl
    by_cases h1 : fs1.get loc = fs.get loc
    · rw [← h1] at hl
      obtain ⟨x, hx, hp⟩ := ih loc hl
      exact ⟨x, List.mem_cons_of_mem _ hx, hp⟩
    · have : loc = D ++ [n] := by
        by_contra hne
        exact h1 (hf.1.2 loc hne)
      exact ⟨n, List.mem_cons_self _ _, by rw [this]⟩
  | entryFail => intro loc hl; exact absurd rfl hl
  | @mkdirOnly fs S D n rest m m2 _ _ hn =>
    intro loc hl
    rw [get_put] at hl
    by_cases hL : D ++ [n] = loc
    · exact ⟨n, List.mem_cons_self _ _, by rw [hL]⟩
    · rw [if_neg hL] at hl
      exact absurd rfl hl
  | @dirFail fs fs1 fs2 S D n rest _ he _ ih =>
    intro loc hl
    by_cases h1 : fs1.get loc = fs.get loc
    · rw [← h1] at hl
      obtain ⟨x, _, hp⟩ := ih loc hl
      exact ⟨n, List.mem_cons_self _ _, under_of_under_snoc hp⟩
    · exact ⟨n, List.mem_cons_self _ _, by rw [(he.atDest loc h1).1]⟩
  | @dirOk fs fs1 fs2 fs3 S D n rest ok _ he _ _ ih1 ih2 =>
    intro loc hl
    by_cases h2 : fs3.get loc = fs2.get loc
    · rw [h2] at hl
      by_cases h1 : fs1.get loc = fs.get loc
      · rw [← h1] at hl
        obtain ⟨x, _, hp⟩ := ih1 loc hl
        exact ⟨n, List.mem_cons_self _ _, under_of_under_snoc hp⟩
      · exact ⟨n, List.mem_cons_self _ _, by rw [(he.atDest loc h1).1]⟩
    · obtain ⟨x, hx, hp⟩ := ih2 loc h2
      exact ⟨x, List.mem_cons_of_mem _ hx, hp⟩

/-- Every location a directory copy changes lies under its destination. -/
theorem DirCopy.underDest {fs fs2 : FS} {SL L : Loc} {ok : Bool} (h : DirCopy fs SL L fs2 ok) :
    ∀ loc, fs2.get loc ≠ fs.get loc → L <+: loc := by
  intro loc hl
  rcases h with ⟨_, rfl | ⟨m, m2, _, hn, rfl⟩⟩ | ⟨fs1, he, hr⟩
  · exact absurd rfl hl
  · rw [get_put] at hl
    by_cases hL : L = loc
    · rw [hL]
    · rw [if_neg hL] at hl
      exact absurd rfl hl
  · by_cases h1 : fs1.get loc = fs.get loc
    · rw [← h1] at hl
      obtain ⟨x, _, hp⟩ := hr.confined loc hl
      exact under_of_under_snoc hp
    · rw [(he.atDest loc h1).1]

/-! ## What a directory copy changes -/

theorem AgreeUnder.child {S : Loc} {fs fs1 : FS} (h : AgreeUnder S fs fs1) (n : String) :
    AgreeUnder (S ++ [n]) fs fs1 :=
  fun loc hl => h loc (under_of_under_snoc hl)

theorem AgreeUnder.chain {S : Loc} {a b c : FS} (h1 : AgreeUnder S a b) (h2 : AgreeUnder S b c) :
    AgreeUnder S a c :=
  fun loc hl => (h2 loc hl).trans (h1 loc hl)

theorem AgreeUnder.of_confined {S D : Loc} {fs fs1 : FS} (hA : Apart S D)
    (h : ∀ loc, fs1.get loc ≠ fs.get loc → D <+: loc) : AgreeUnder S fs fs1 := by
  intro loc hl
  by_contra hne
  exact hA.not_both (h loc hne) hl

theorem inTree_agree {fs fs1 : FS} (rel : List String) :
    ∀ S, AgreeUnder S fs fs1 → inTree fs1 S rel → inTree fs S rel := by
  induction rel with
  | nil =>
    intro S h ht
    simp only [inTree] at ht ⊢
    rwa [h S (List.prefix_refl S)] at ht
  | cons n rel ih =>
    intro S h ht
    simp only [inTree] at ht ⊢
    obtain ⟨⟨m, hm⟩, hv, ht2⟩ := ht
    rw [h S (List.prefix_refl S)] at hm
    exact ⟨⟨m, hm⟩, hv, ih _ (h.child n) ht2⟩

theorem CopiedOver.of_agree {fs fs1 : FS} {S D loc : Loc} (hA : AgreeUnder S fs fs1)
    (hl : fs1.get loc = fs.get loc) (h : CopiedOver fs1 S D loc) : CopiedOver fs S D loc := by
  obtain ⟨rel, h1, h2, h3, h4⟩ := h
  refine ⟨rel, h1, h2, inTree_agree rel S hA h3, ?_⟩
  intro m d hg
  rw [← hl] at hg
  obtain ⟨m2, d2, hs⟩ := h4 m d hg
  rw [hA _ (List.prefix_append S rel)] at hs
  exact ⟨m2, d2, hs⟩

theorem CopiedOver.sub {fs : FS} {S D loc : Loc} {n : String} {m : FileMode}
    (hS : fs.get S = some (.dir m)) (hv : validName n = true)
    (h : CopiedOver fs (S ++ [n]) (D ++ [n]) loc) : CopiedOver fs S D loc := by
  obtain ⟨rel, _, h2, h3, h4⟩ := h
  refine ⟨n :: rel, by simp, by simpa using h2, ⟨⟨m, hS⟩, hv, h3⟩, ?_⟩
  intro m1 d1 hg
  simpa using h4 m1 d1 hg

theorem CopiedOver.entry {fs : FS} {S D : Loc} {n : String} {m : FileMode}
    (hS : fs.get S = some (.dir m)) (hv : validName n = true)
    (hsrc : fs.get (S ++ [n]) ≠ none)
    (hfile : ∀ m1 d1, fs.get (D ++ [n]) = some (.file m1 d1) →
      ∃ m2 d2, fs.get (S ++ [n]) = some (.file m2 d2)) :
    CopiedOver fs S D (D ++ [n]) :=
  ⟨[n], by simp, rfl, ⟨⟨m, hS⟩, hv, hsrc⟩, hfile⟩

theorem Enter.srcSame {fs fs1 : FS} {S D : Loc} {n : String} (hA : Apart S D)
    (h : Enter fs (S ++ [n]) (D ++ [n]) fs1) : AgreeUnder S fs fs1 :=
  AgreeUnder.of_confined hA (fun loc hl => by
    rw [(h.atDest loc hl).1]; exact List.prefix_append D [n])

theorem Run.agree {fs fs2 : FS} {S D : Loc} {names : List String} {ok : Bool} (hA : Apart S D)
    (h : Run fs S D names fs2 ok) : AgreeUnder S fs fs2 :=
  AgreeUnder.of_confined hA (fun loc hl => by
    obtain ⟨n, _, hp⟩ := h.confined loc hl
    exact under_of_under_snoc hp)

/-- With source and destination apart, a run changes only destination
counterparts of entries of the source tree. -/
theorem Run.changes {fs fs2 : FS} {S D : Loc} {names : List String} {ok : Bool}
    (h : Run fs S D names fs2 ok) :
    Apart S D → (∃ m, fs.get S = some (.dir m)) →
    ∀ loc, fs2.get loc ≠ fs.get loc → CopiedOver fs S D loc := by
  induction h with
  | done => intro _ _ loc hl; exact absurd rfl hl
  | @fileOk fs fs1 fs2 S D n rest ok hv hf hrun ih =>
    intro hA hS loc hl
    obtain ⟨m, hm⟩ := hS
    have hag : AgreeUnder S fs fs1 := AgreeUnder.of_confined hA (fun l hne => by
      have : l = D ++ [n] := by
        by_contra hx
        exact hne (hf.1.2 l hx)
      rw [this]; exact List.prefix_append D [n])
    by_cases h1 : fs1.get loc = fs.get loc
    · rw [← h1] at hl
      exact (ih hA ⟨m, hf.1.1.get_dir hm⟩ loc hl).of_agree hag h1
    · have : loc = D ++ [n] := by
        by_contra hx
        exact h1 (hf.1.2 loc hx)
      subst this
      obtain ⟨_, _, ms, ds, hsrc, _, _⟩ := hf
      exact CopiedOver.entry hm hv (by rw [hsrc]; simp) (fun _ _ _ => ⟨ms, ds, hsrc⟩)
  | entryFail => intro _ _ loc hl; exact absurd rfl hl
  | @mkdirOnly fs S D n rest m m2 hv hsrc hn =>
    intro hA hS loc hl
    obtain ⟨ms, hms⟩ := hS
    rw [get_put] at hl
    by_cases hL : D ++ [n] = loc
    · subst hL
      exact CopiedOver.entry hms hv (by rw [hsrc]; simp) (fun m1 d1 hg => by rw [hn] at hg; cases hg)
    · rw [if_neg hL] at hl
      exact absurd rfl hl
  | @dirFail fs fs1 fs2 S D n rest hv he hrun ih =>
    intro hA hS loc hl
    obtain ⟨ms, hms⟩ := hS
    obtain ⟨m, hsrc, _⟩ := id he
    by_cases h1 : fs1.get loc = fs.get loc
    · rw [← h1] at hl
      have := ih (hA.snoc n) ⟨m, he.keeps.get_dir hsrc⟩ loc hl
      exact (this.of_agree ((he.srcSame hA).child n) h1).sub hms hv
    · obtain ⟨rfl, hnone⟩ := he.atDest loc h1
      exact CopiedOver.entry hms hv (by rw [hsrc]; simp)
        (fun m1 d1 hg => by rw [hnone] at hg; cases hg)
  | @dirOk fs fs1 fs2 fs3 S D n rest ok hv he hsub hrest ih1 ih2 =>
    intro hA hS loc hl
    obtain ⟨ms, hms⟩ := hS
    obtain ⟨m, hsrc, _⟩ := id he
    have hag1 := he.srcSame hA
    have hag2 : AgreeUnder S fs1 fs2 := AgreeUnder.of_confined hA (fun l hne => by
      obtain ⟨x, _, hp⟩ := hsub.confined l hne
      exact under_of_under_snoc (under_of_under_snoc hp))
    by_cases h2 : fs2.get loc = fs.get loc
    · rw [← h2] at hl
      have hst := he.keeps.trans hsub.stable
      exact (ih2 hA ⟨ms, hst.get_dir hms⟩ loc hl).of_agree (hag1.chain hag2) h2
    · by_cases h1 : fs1.get loc = fs.get loc
      · rw [← h1] at h2
        have := ih1 (hA.snoc n) ⟨m, he.keeps.get_dir hsrc⟩ loc h2
        exact (this.of_agree (hag1.child n) h1).sub hms hv
      · obtain ⟨rfl, hnone⟩ := he.atDest loc h1
        exact CopiedOver.entry hms hv (by rw [hsrc]; simp)
          (fun m1 d1 hg => by rw [hnone] at hg; cases hg)

/-- With source and destination apart, a directory copy changes only the
destination directory itself (creating it) and counterparts of source entries. -/
theorem DirCopy.changed {fs fs2 : FS} {S D : Loc} {ok : Bool} (h : DirCopy fs S D fs2 ok)
    (hA : Apart S D) :
    ∀ loc, fs2.get loc ≠ fs.get loc → (loc = D ∧ fs.get D = none) ∨ CopiedOver fs S D loc := by
  intro loc hl
  rcases h with ⟨_, rfl | ⟨m, m2, _, hn, rfl⟩⟩ | ⟨fs1, he, hr⟩
  · exact absurd rfl hl
  · rw [get_put] at hl
    by_cases hL : D = loc
    · exact Or.inl ⟨hL.symm, hn⟩
    · rw [if_neg hL] at hl
      exact absurd rfl hl
  · obtain ⟨m, hsrc, _⟩ := id he
    have hag : AgreeUnder S fs fs1 := AgreeUnder.of_confined hA (fun l hne => by
      rw [(he.atDest l hne).1])
    by_cases h1 : fs1.get loc = fs.get loc
    · rw [← h1] at hl
      exact Or.inr ((hr.changes hA ⟨m, he.keeps.get_dir hsrc⟩ loc hl).of_agree hag h1)
    · exact Or.inl (he.atDest loc h1)

theorem LocalDest_of_dir {fs : FS} {dest : Path} {D : Loc} {dm : FileMode}
    (hD : resolve fs dest = .ok D) (hg : fs.get D = some (.dir dm)) : LocalDest fs dest D := by
  right
  refine ⟨resolve_Clean hD, fun perm => Or.inl ⟨_, hg, rfl, ?_⟩⟩
  exact MkdirAllAux_of_dir (Stat_of_get hD hg) rfl _ perm

/-- Frame of CopyDir into an existing directory, for a call that returns. -/
theorem CopyDir_frame_of_result {n : Nat} {fs fs2 : FS} {src dest : Path} {r : Option Error}
    {S D : Loc} {dm : FileMode}
    (hS : resolve fs (Clean src) = .ok S) (hD : resolve fs dest = .ok D)
    (hg : fs.get D = some (.dir dm)) (hA : Apart S D)
    (h : CopyDir n fs src dest = some (fs2, r)) :
    DirStable fs fs2 ∧ ∀ loc, fs2.get loc ≠ fs.get loc → CopiedOver fs S D loc := by
  rcases CopyDir_dircopy n fs src dest D fs2 r (LocalDest_of_dir hD hg) h with
    ⟨_, rfl⟩ | ⟨SL, hSL, hcopy⟩
  · exact ⟨DirStable.refl _, fun loc hl => absurd rfl hl⟩
  · rw [hS] at hSL
    cases hSL
    refine ⟨hcopy.preserves, fun loc hl => ?_⟩
    rcases hcopy.changed hA loc hl with ⟨_, hn⟩ | hc
    · rw [hg] at hn; cases hn
    · exact hc

/-! ## Depth of the source tree -/

theorem foldr_max_le_iff (l : List Nat) (d : Nat) :
    l.foldr max 0 ≤ d ↔ ∀ x ∈ l, x ≤ d := by
  induction l with
  | nil => simp
  | cons a rest ih => simp [List.foldr_cons, ih]

theorem treeDepth_le_iff (fs : FS) (S : Loc) (d : Nat) :
    treeDepth fs S ≤ d ↔ ∀ k, S <+: k → fs.get k ≠ none → k.length - S.length ≤ d := by
  unfold treeDepth
  rw [foldr_max_le_iff]
  constructor
  · intro h k hk hg
    have hmem : k ∈ fs.entries.map Prod.fst := (lookupLoc_ne_none_iff _ _).1 hg
    obtain ⟨kv, hkv, rfl⟩ := List.mem_map.1 hmem
    apply h
    exact List.mem_map.2 ⟨kv, List.mem_filter.2 ⟨hkv, by simpa using hk⟩, rfl⟩
  · intro h x hx
    obtain ⟨kv, hkv, rfl⟩ := List.mem_map.1 hx
    obtain ⟨hin, hp⟩ := List.mem_filter.1 hkv
    apply h kv.1 (by simpa using hp)
    exact (lookupLoc_ne_none_iff _ _).2 (List.mem_map.2 ⟨kv, hin, rfl⟩)

theorem treeDepth_agree {fs fs1 : FS} {S : Loc} (h : AgreeUnder S fs fs1) :
    treeDepth fs1 S = treeDepth fs S := by
  apply le_antisymm
  · rw [treeDepth_le_iff]
    intro k hk hg
    rw [h k hk] at hg
    exact (treeDepth_le_iff fs S _).1 le_rfl k hk hg
  · rw [treeDepth_le_iff]
    intro k hk hg
    rw [← h k hk] at hg
    exact (treeDepth_le_iff fs1 S _).1 le_rfl k hk hg

/-- A directory with an entry is at least one level deeper than the tree under that entry. -/
theorem treeDepth_child {fs : FS} {S : Loc} {x : String} (h : fs.get (S ++ [x]) ≠ none) :
    treeDepth fs (S ++ [x]) + 1 ≤ treeDepth fs S := by
  have h1 : 1 ≤ treeDepth fs S := by
    have := (treeDepth_le_iff fs S _).1 le_rfl (S ++ [x]) (List.prefix_append S [x]) h
    simpa using this
  have h2 : treeDepth fs (S ++ [x]) ≤ treeDepth fs S - 1 := by
    rw [treeDepth_le_iff]
    intro k hk hg
    have := (treeDepth_le_iff fs S _).1 le_rfl k (under_of_under_snoc hk) hg
    have hlen := hk.length_le
    simp only [List.length_append, List.length_singleton] at hlen ⊢
    omega
  omega

/-! ## Termination within the depth of the source tree -/

theorem DirCopy.srcAgree {fs fs2 : FS} {S D : Loc} {n : String} {ok : Bool} (hA : Apart S D)
    (h : DirCopy fs (S ++ [n]) (D ++ [n]) fs2 ok) : AgreeUnder S fs fs2 :=
  AgreeUnder.of_confined hA (fun loc hl => under_of_under_snoc (h.underDest loc hl))

/-- A write at the destination of an existing source entry keeps every
location under `S0` within the length `B`, when the destination directory is
no deeper than the source directory or lies outside `S0`. -/
theorem depth_kept_of_write {S0 : Loc} {B : Nat} {fs fs1 : FS} {S D : Loc} {n : String}
    (hinv : ∀ loc, S0 <+: loc → fs.get loc ≠ none → loc.length ≤ B)
    (hS0 : S0 <+: S) (hsafe : D.length ≤ S.length ∨ ∀ loc, D <+: loc → ¬ S0 <+: loc)
    (hsrc : fs.get (S ++ [n]) ≠ none)
    (hsame : ∀ loc, loc ≠ D ++ [n] → fs1.get loc = fs.get loc) :
    ∀ loc, S0 <+: loc → fs1.get loc ≠ none → loc.length ≤ B := by
  intro loc hl hg
  by_cases h : loc = D ++ [n]
  · subst h
    rcases hsafe with h1 | h1
    · have := hinv (S ++ [n]) (hS0.trans (List.prefix_append _ _)) hsrc
      simp only [List.length_append, List.length_singleton] at this ⊢
      omega
    · exact absurd hl (h1 _ (List.prefix_append _ _))
  · rw [hsame loc h] at hg
    exact hinv loc hl hg

theorem safe_snoc {S0 S D : Loc} (n : String)
    (h : D.length ≤ S.length ∨ ∀ loc, D <+: loc → ¬ S0 <+: loc) :
    (D ++ [n]).length ≤ (S ++ [n]).length ∨ ∀ loc, (D ++ [n]) <+: loc → ¬ S0 <+: loc := by
  rcases h with h | h
  · left; simpa using h
  · right; exact fun loc hl => h loc (under_of_under_snoc hl)

theorem Enter.keepsDepth {S0 : Loc} {B : Nat} {fs fs1 : FS} {S D : Loc} {n : String}
    (he : Enter fs (S ++ [n]) (D ++ [n]) fs1)
    (hS0 : S0 <+: S) (hsafe : D.length ≤ S.length ∨ ∀ loc, D <+: loc → ¬ S0 <+: loc)
    (hinv : ∀ loc, S0 <+: loc → fs.get loc ≠ none → loc.length ≤ B) :
    ∀ loc, S0 <+: loc → fs1.get loc ≠ none → loc.length ≤ B := by
  obtain ⟨m, hm, _⟩ := id he
  refine depth_kept_of_write hinv hS0 hsafe (by rw [hm]; simp) (fun loc hl => ?_)
  by_contra hne
  exact hl (he.atDest loc hne).1

/-- A run keeps every location under `S0` within the length `B`. -/
theorem Run.withinDepth {S0 : Loc} {B : Nat} {fs fs2 : FS} {S D : Loc} {names : List String}
    {ok : Bool} (h : Run fs S D names fs2 ok) :
    S0 <+: S → (D.length ≤ S.length ∨ ∀ loc, D <+: loc → ¬ S0 <+: loc) →
    (∀ loc, S0 <+: loc → fs.get loc ≠ none → loc.length ≤ B) →
    ∀ loc, S0 <+: loc → fs2.get loc ≠ none → loc.length ≤ B := by
  induction h with
  | done => intro _ _ h; exact h
  | @fileOk fs fs1 fs2 S D n rest ok hv hf hrun ih =>
    intro h0 hs hinv
    obtain ⟨_, _, m, d, hsrc, _⟩ := id hf
    exact ih h0 hs (depth_kept_of_write hinv h0 hs (by rw [hsrc]; simp) hf.1.2)
  | entryFail => intro _ _ h; exact h
  | @mkdirOnly fs S D n rest m m2 hv hsrc hn =>
    intro h0 hs hinv
    exact depth_kept_of_write hinv h0 hs (by rw [hsrc]; simp)
      (fun loc hl => by rw [get_put, if_neg (Ne.symm hl)])
  | @dirFail fs fs1 fs2 S D n rest hv he hrun ih =>
    intro h0 hs hinv
    exact ih (h0.trans (List.prefix_append _ _)) (safe_snoc n hs) (he.keepsDepth h0 hs hinv)
  | @dirOk fs fs1 fs2 fs3 S D n rest ok hv he hsub hrest ih1 ih2 =>
    intro h0 hs hinv
    exact ih2 h0 hs
      (ih1 (h0.trans (List.prefix_append _ _)) (safe_snoc n hs) (he.keepsDepth h0 hs hinv))

theorem DirCopy.boundedDepth {S0 : Loc} {B : Nat} {fs fs2 : FS} {S D : Loc} {n : String} {ok : Bool}
    (h : DirCopy fs (S ++ [n]) (D ++ [n]) fs2 ok)
    (hS0 : S0 <+: S) (hsafe : D.length ≤ S.length ∨ ∀ loc, D <+: loc → ¬ S0 <+: loc)
    (hinv : ∀ loc, S0 <+: loc → fs.get loc ≠ none → loc.length ≤ B) :
    ∀ loc, S0 <+: loc → fs2.get loc ≠ none → loc.length ≤ B := by
  rcases h with ⟨_, rfl | ⟨m, m2, hm, hn, rfl⟩⟩ | ⟨fs1, he, hr⟩
  · exact hinv
  · exact depth_kept_of_write hinv hS0 hsafe (by rw [hm]; simp)
      (fun loc hl => by rw [get_put, if_neg (Ne.symm hl)])
  · exact hr.withinDepth (hS0.trans (List.prefix_append _ _)) (safe_snoc n hsafe)
      (he.keepsDepth hS0 hsafe hinv)

/-- The loop returns when every recursive call one level further down does. -/
theorem copyEntries_returns (n : Nat) (S0 : Loc) (B : Nat)
    (hrec : ∀ (fs : FS) (src dest : Path) (L : Loc), LocalDest fs dest L →
      (∀ loc, S0 <+: loc → fs.get loc ≠ none → loc.length ≤ B) →
      (∀ S, resolve fs (Clean src) = .ok S →
        S0 <+: S ∧ (L.length ≤ S.length ∨ ∀ loc, L <+: loc → ¬ S0 <+: loc) ∧
          B < S.length + n) →
      0 < n → ∃ res, CopyDir n fs src dest = some res)
    (srcPath destPath : Path) (S D : Loc) (hS0 : S0 <+: S)
    (hsafe : D.length ≤ S.length ∨ ∀ loc, D <+: loc → ¬ S0 <+: loc)
    (hB : B ≤ S.length + n) :
    ∀ (es : List DirEntry) (fs : FS),
      resolve fs srcPath = .ok S → resolve fs destPath = .ok D →
      (∃ dm, fs.get D = some (.dir dm)) →
      (es ≠ [] → searchable fs S = .ok ()) →
      (∀ e ∈ es, validName e.name = true ∧
        ∃ en, fs.get (S ++ [e.name]) = some en ∧ en.isDir = e.isDir) →
      (∀ loc, S0 <+: loc → fs.get loc ≠ none → loc.length ≤ B) →
      ∃ res, copyEntries (CopyDir n) srcPath destPath fs es = some res := by
  intro es
  induction es with
  | nil => intro fs _ _ _ _ _ _; exact ⟨_, rfl⟩
  | cons e rest ih =>
    intro fs hS hD hDdir hsearch hes hinv
    have hSs := hsearch (by simp)
    obtain ⟨hv, en, hen, hkind⟩ := hes e (by simp)
    obtain ⟨dm, hdm⟩ := hDdir
    have hex : fs.get (S ++ [e.name]) ≠ none := by rw [hen]; simp
    have hlenS : S.length + 1 ≤ B := by
      have := hinv (S ++ [e.name]) (hS0.trans (List.prefix_append _ _)) hex
      simpa using this
    have next : ∀ fs1, DirStable fs fs1 →
        (∀ loc, S0 <+: loc → fs1.get loc ≠ none → loc.length ≤ B) →
        ∃ res, copyEntries (CopyDir n) srcPath destPath fs1 rest = some res := by
      intro fs1 hst hinv1
      refine ih fs1 (resolve_stable hst hS) (resolve_stable hst hD)
        ⟨dm, hst.get_dir hdm⟩ (fun _ => searchable_stable hst hSs) ?_ hinv1
      intro e2 he2
      obtain ⟨hv2, en2, hen2, hk2⟩ := hes e2 (List.mem_cons_of_mem _ he2)
      obtain ⟨e3, g3, k3, _⟩ := hst.2.2 _ _ hen2
      exact ⟨hv2, e3, g3, k3.trans hk2⟩
    rw [copyEntries]
    by_cases hd : e.isDir = true
    · simp only [hd, if_true]
      have hloc := LocalDest_Join (n := e.name) hD hdm hv
      obtain ⟨res, hres⟩ := hrec fs (Join srcPath e.name) (Join destPath e.name) (D ++ [e.name])
        hloc hinv (by
          intro S2 hS2
          obtain ⟨rfl, _⟩ := resolve_Clean_Join hS hv hS2
          refine ⟨hS0.trans (List.prefix_append _ _), safe_snoc e.name hsafe, ?_⟩
          simp only [List.length_append, List.length_singleton]
          omega) (by omega)
      obtain ⟨fs1, r1⟩ := res
      rw [hres]
      cases r1 with
      | some err => exact ⟨_, rfl⟩
      | none =>
        simp only
        rcases CopyDir_dircopy n fs _ _ _ fs1 none hloc hres with ⟨hne, _⟩ | ⟨SL, hSL, hcopy⟩
        · exact absurd rfl hne
        · obtain ⟨rfl, _⟩ := resolve_Clean_Join hS hv hSL
          exact next fs1 hcopy.preserves (hcopy.boundedDepth hS0 hsafe hinv)
    · have hd2 : e.isDir = false := by simpa using hd
      simp only [hd2, Bool.false_eq_true, if_false]
      have hfile : ∃ m d, fs.get (S ++ [e.name]) = some (.file m d) := by
        cases en with
        | file m d => exact ⟨m, d, hen⟩
        | dir m => simp [Entry.isDir, hd2] at hkind
      cases hc : CopyFile fs (Join srcPath e.name) (Join destPath e.name) with
      | mk fs1 r1 =>
        cases r1 with
        | some err => exact ⟨_, rfl⟩
        | none =>
          simp only
          have hok : FileOk fs (S ++ [e.name]) (D ++ [e.name]) fs1 := by
            cases hrs : resolve fs (Join srcPath e.name) with
            | error er =>
              have := @CopyFile_src_unresolved fs (Join srcPath e.name) (Join destPath e.name) er hrs
              rw [hc] at this
              exact absurd rfl this.1
            | ok SL =>
              cases hrd : resolve fs (Join destPath e.name) with
              | error er =>
                have := @CopyFile_unresolved fs (Join srcPath e.name) (Join destPath e.name) er hrd
                rw [hc] at this
                exact absurd rfl this.1
              | ok L =>
                have e1 := (resolve_Clean_Join hS hv (resolve_Clean hrs)).1
                have e2 := (resolve_Clean_Join hD hv (resolve_Clean hrd)).1
                subst e1; subst e2
                rcases CopyFile_loc hrs hrd hfile with ⟨h1, _⟩ | ⟨_, h2⟩
                · rw [hc] at h1; exact absurd rfl h1
                · rw [hc] at h2; exact h2
          exact next fs1 hok.1.1 (depth_kept_of_write hinv hS0 hsafe hex hok.1.2)

/-- After the listing is read, the loop returns. -/
theorem copyEntries_listing_returns (n : Nat) (S0 : Loc) (B : Nat)
    (hrec : ∀ (fs : FS) (src dest : Path) (L : Loc), LocalDest fs dest L →
      (∀ loc, S0 <+: loc → fs.get loc ≠ none → loc.length ≤ B) →
      (∀ S, resolve fs (Clean src) = .ok S →
        S0 <+: S ∧ (L.length ≤ S.length ∨ ∀ loc, L <+: loc → ¬ S0 <+: loc) ∧
          B < S.length + n) →
      0 < n → ∃ res, CopyDir n fs src dest = some res)
    {fs1 : FS} {src dest : Path} {SL D : Loc} {dm : FileMode} {entries : List DirEntry}
    (hS0 : S0 <+: SL) (hsafe : D.length ≤ SL.length ∨ ∀ loc, D <+: loc → ¬ S0 <+: loc)
    (hB : B ≤ SL.length + n)
    (hsrc : resolve fs1 (Clean src) = .ok SL) (hread : ReadDir fs1 src = .ok entries)
    (hdest : resolve fs1 (Clean dest) = .ok D) (hD : fs1.get D = some (.dir dm))
    (hinv : ∀ loc, S0 <+: loc → fs1.get loc ≠ none → loc.length ≤ B) :
    ∃ res, copyEntries (CopyDir n) (Clean src) (Clean dest) fs1 entries = some res := by
  obtain ⟨S2, m2, hr2, hg2, hsearch, rfl⟩ := ReadDir_ok_inv hread
  have := resolve_Clean hr2
  rw [hsrc] at this
  cases this
  refine copyEntries_returns n S0 B hrec (Clean src) (Clean dest) SL D hS0 hsafe hB _ fs1
    hsrc hdest ⟨dm, hD⟩ ?_ ?_ hinv
  · intro hne
    apply searchable_of_get hg2
    apply hsearch
    intro hnil
    exact hne (by simp [hnil])
  · intro e he
    obtain ⟨x, hx, rfl⟩ := List.mem_map.1 he
    obtain ⟨hv, hex⟩ := (mem_listing fs1 SL x).1 hx
    obtain ⟨en, hen⟩ := Option.ne_none_iff_exists'.1 hex
    exact ⟨hv, en, hen, by simp [entryOf, hen]⟩

theorem CopyDir_succ_returns (n : Nat) (S0 : Loc) (B : Nat)
    (hrec : ∀ (fs : FS) (src dest : Path) (L : Loc), LocalDest fs dest L →
      (∀ loc, S0 <+: loc → fs.get loc ≠ none → loc.length ≤ B) →
      (∀ S, resolve fs (Clean src) = .ok S →
        S0 <+: S ∧ (L.length ≤ S.length ∨ ∀ loc, L <+: loc → ¬ S0 <+: loc) ∧
          B < S.length + n) →
      0 < n → ∃ res, CopyDir n fs src dest = some res)
    (fs : FS) (src dest : Path) (L : Loc) (hloc : LocalDest fs dest L)
    (hinv : ∀ loc, S0 <+: loc → fs.get loc ≠ none → loc.length ≤ B)
    (hsrc : ∀ S, resolve fs (Clean src) = .ok S →
      S0 <+: S ∧ (L.length ≤ S.length ∨ ∀ loc, L <+: loc → ¬ S0 <+: loc) ∧
        B ≤ S.length + n) :
    ∃ res, CopyDir (n + 1) fs src dest = some res := by
  unfold CopyDir
  dsimp only
  cases hS : Stat fs (Clean src) with
  | error e => exact ⟨_, rfl⟩
  | ok fi =>
    simp only
    by_cases hd : fi.isDir = true
    · simp only [hd, Bool.not_true, Bool.false_eq_true, if_false]
      obtain ⟨SL, hr, hg⟩ := Stat_dir_inv hS hd
      obtain ⟨hS0, hsafe, hB⟩ := hsrc SL hr
      rcases hloc with ⟨e, hne, he⟩ | ⟨hres, hmk⟩
      · rw [Stat_error_of_resolve he]
        have : IsNotExist (some (Error.pathError "stat" dest e)) = false := by
          cases e <;> simp [IsNotExist] at hne ⊢
        simp only [this, Bool.not_false, if_true]
        exact ⟨_, rfl⟩
      · generalize (match Stat fs dest with
          | .ok _ => (none : Option Error)
          | .error err => if (!IsNotExist (some err)) = true then some err else none) = look
        cases look with
        | some err => exact ⟨_, rfl⟩
        | none =>
          simp only
          rcases hmk fi.mode with ⟨e, hge, hdir, hM⟩ | ⟨err, hM⟩ | ⟨hnone, m2, hM⟩
          · rw [hM]
            simp only
            cases hR : ReadDir fs src with
            | error err => exact ⟨_, rfl⟩
            | ok entries =>
              simp only
              cases e with
              | file m0 d0 => simp [Entry.isDir] at hdir
              | dir dm =>
                exact copyEntries_listing_returns n S0 B hrec hS0 hsafe hB hr hR hres hge hinv
          · rw [hM]; exact ⟨_, rfl⟩
          · rw [hM]
            simp only
            have hst : DirStable fs (fs.put L (.dir m2)) := put_new_stable hnone _
            have hinv1 : ∀ loc, S0 <+: loc → (fs.put L (.dir m2)).get loc ≠ none →
                loc.length ≤ B := by
              intro loc hl hex
              rw [get_put] at hex
              by_cases hL : L = loc
              · subst hL
                rcases hsafe with h1 | h1
                · have := hinv SL hS0 (by rw [hg]; simp)
                  omega
                · exact absurd hl (h1 _ (List.prefix_refl _))
              · rw [if_neg hL] at hex
                exact hinv loc hl hex
            cases hR : ReadDir (fs.put L (.dir m2)) src with
            | error err => exact ⟨_, rfl⟩
            | ok entries =>
              simp only
              exact copyEntries_listing_returns n S0 B hrec hS0 hsafe hB
                (resolve_stable hst hr) hR (resolve_stable hst hres)
                (by rw [get_put, if_pos rfl]) hinv1
    · simp only [hd, Bool.not_false, if_true]
      exact ⟨_, rfl⟩

theorem CopyDir_returns_aux (S0 : Loc) (B : Nat) :
    ∀ (n : Nat) (fs : FS) (src dest : Path) (L : Loc), LocalDest fs dest L →
      (∀ loc, S0 <+: loc → fs.get loc ≠ none → loc.length ≤ B) →
      (∀ S, resolve fs (Clean src) = .ok S →
        S0 <+: S ∧ (L.length ≤ S.length ∨ ∀ loc, L <+: loc → ¬ S0 <+: loc) ∧
          B < S.length + n) →
      0 < n → ∃ res, CopyDir n fs src dest = some res := by
  intro n
  induction n with
  | zero => intro fs src dest L _ _ _ h; exact absurd h (lt_irrefl 0)
  | succ n ih =>
    intro fs src dest L hloc hinv hS _
    apply CopyDir_succ_returns n S0 B ih fs src dest L hloc hinv
    intro S2 hS2
    obtain ⟨h1, h2, h3⟩ := hS S2 hS2
    exact ⟨h1, h2, by omega⟩

/-- The locations under `S` are within the depth of the tree under `S`. -/
theorem depth_inv_of_treeDepth {fs : FS} {S : Loc} {d : Nat} (h : treeDepth fs S ≤ d) :
    ∀ loc, S <+: loc → fs.get loc ≠ none → loc.length ≤ S.length + d := by
  intro loc hl hg
  have := (treeDepth_le_iff fs S d).1 h loc hl hg
  omega

/-- A destination that is not strictly inside the source is no deeper than
the source or has no location in common with the source tree. -/
theorem safe_of_not_inside {S D : Loc} (h : S <+: D → D = S) :
    D.length ≤ S.length ∨ ∀ loc, D <+: loc → ¬ S <+: loc := by
  by_cases hlen : D.length ≤ S.length
  · exact Or.inl hlen
  · right
    intro loc h1 h2
    have hSD : S <+: D := List.prefix_of_prefix_length_le h2 h1 (by omega)
    rw [h hSD] at hlen
    exact hlen le_rfl

/-- CopyDir with a local destination apart from the source returns within a
recursion depth of one more than the depth of the source tree. -/
theorem CopyDir_returns (n : Nat) (fs : FS) (src dest : Path) (L : Loc)
    (hloc : LocalDest fs dest L)
    (hsrc : ∀ S, resolve fs (Clean src) = .ok S → Apart S L ∧ treeDepth fs S < n)
    (hn : 0 < n) : ∃ res, CopyDir n fs src dest = some res := by
  cases hr : resolve fs (Clean src) with
  | error e =>
    cases n with
    | zero => exact absurd hn (lt_irrefl 0)
    | succ n =>
      unfold CopyDir
      simp [Stat_error_of_resolve hr]
  | ok S =>
    obtain ⟨hA, hd⟩ := hsrc S hr
    apply CopyDir_returns_aux S (S.length + treeDepth fs S) n fs src dest L hloc
      (depth_inv_of_treeDepth le_rfl) ?_ hn
    intro S2 hS2
    rw [hr] at hS2
    cases hS2
    refine ⟨List.prefix_refl _, safe_of_not_inside (fun h => absurd h hA.1), by omega⟩

/-- When the destination directory is not strictly inside the source directory,
`MkdirAll` on a plain destination path leaves the source tree as it is. -/
theorem MkdirAll_plain_agree {fs fs1 : FS} {dest : Path} {m : FileMode} {S D : Loc}
    (hp : plainPath dest = true) (hM : MkdirAll fs dest m = (fs1, none))
    (hS : fs.get S = some (.dir m)) (hD : resolve fs1 (Clean dest) = .ok D)
    (hout : S <+: D → D = S) : AgreeUnder S fs fs1 := by
  intro loc hl
  by_contra hne
  have h1 := MkdirAll_plain hp hM hD loc hne
  have h2 := ((MkdirAllAux_frame _ _ _ _ _ _ hM).2 loc hne).1
  have hDS := hout (hl.trans h1)
  rw [hDS] at h1
  have hlen1 := hl.length_le
  have hlen2 := h1.length_le
  have : loc = S := h1.eq_of_length (by omega)
  rw [this, hS] at h2
  cases h2

/-- CopyDir returns within a recursion depth of one more than the depth of
the source tree whenever creating the destination adds no level to the source
tree (as is the case for a plain destination path) and the destination directory
is not strictly inside the source directory: it may be the source directory
itself, lie above it or apart from it, and any of its parent directories may be
missing. -/
theorem CopyDir_returns_general (n : Nat) (fs : FS) (src dest : Path)
    (h : ∀ S m, resolve fs (Clean src) = .ok S → fs.get S = some (.dir m) →
      (plainPath dest = true ∨ treeDepth (MkdirAll fs dest m).1 S ≤ treeDepth fs S) ∧
      ∀ D, resolve (MkdirAll fs dest m).1 (Clean dest) = .ok D → S <+: D → D = S)
    (hn : srcDepth fs src < n) : ∃ res, CopyDir n fs src dest = some res := by
  cases n with
  | zero => exact absurd hn (Nat.not_lt_zero _)
  | succ n =>
    unfold CopyDir
    dsimp only
    cases hS : Stat fs (Clean src) with
    | error e => exact ⟨_, rfl⟩
    | ok fi =>
      simp only
      by_cases hd : fi.isDir = true
      · simp only [hd, Bool.not_true, Bool.false_eq_true, if_false]
        obtain ⟨S, hr, hg⟩ := Stat_dir_inv hS hd
        obtain ⟨hdepth, hout⟩ := h S fi.mode hr hg
        have hn2 : treeDepth fs S ≤ n := by
          simp only [srcDepth, hr] at hn
          omega
        generalize (match Stat fs dest with
          | .ok _ => (none : Option Error)
          | .error err => if (!IsNotExist (some err)) = true then some err else none) = look
        cases look with
        | some err => exact ⟨_, rfl⟩
        | none =>
          simp only
          cases hM : MkdirAll fs dest fi.mode with
          | mk fs1 rm =>
            rw [hM] at hdepth hout
            simp only at hdepth hout
            cases rm with
            | some err => exact ⟨_, rfl⟩
            | none =>
              simp only
              obtain ⟨D, dm, hD, hgD⟩ := MkdirAllAux_post _ _ _ _ _ hM
              have hdepth : treeDepth fs1 S ≤ treeDepth fs S := by
                rcases hdepth with hp | hle
                · rw [treeDepth_agree (MkdirAll_plain_agree hp hM hg hD (hout D hD))]
                · exact hle
              cases hR : ReadDir fs1 src with
              | error err => exact ⟨_, rfl⟩
              | ok entries =>
                simp only
                exact copyEntries_listing_returns n S (S.length + treeDepth fs S)
                  (CopyDir_returns_aux S (S.length + treeDepth fs S) n)
                  (List.prefix_refl _) (safe_of_not_inside (hout D hD)) (by omega)
                  (resolve_stable (MkdirAll_stable hM) hr) hR hD hgD
                  (depth_inv_of_treeDepth hdepth)
      · simp only [hd, Bool.not_false, if_true]
        exact ⟨_, rfl⟩

/-! ## Termination for every input: the limit on the length of a path -/

theorem utf8ByteSize_pos {s : String} (h : s ≠ "") : 0 < s.utf8ByteSize := by
  cases s with
  | mk l =>
    cases l with
    | nil => exact absurd rfl h
    | cons c cs =>
      simp only [String.utf8ByteSize, String.utf8ByteSize.go]
      have := Char.utf8Size_pos c
      omega

/-- What `filepath.Clean` keeps of a cleaned path is what it kept of the path. -/
theorem Clean_fold (p : Path) :
    isRooted (Clean p) = isRooted p ∧
      (Clean p).foldl (cleanStep (isRooted p)) [] = p.foldl (cleanStep (isRooted p)) [] := by
  have hshape := foldl_cleanStep_start (isRooted p) p
  have hkept := foldl_cleanStep_kept (isRooted p) _ hshape
  rw [Clean_eq p]
  by_cases ho : (p.foldl (cleanStep (isRooted p)) []).reverse = []
  · rw [if_pos ho]
    have ho2 : p.foldl (cleanStep (isRooted p)) [] = [] := by simpa using ho
    rw [ho2]
    cases isRooted p <;> exact ⟨rfl, by decide⟩
  · rw [if_neg ho]
    obtain ⟨y, t, hyt⟩ := List.exists_cons_of_ne_nil ho
    have hy : y ≠ "" := by
      have : y ∈ p.foldl (cleanStep (isRooted p)) [] := by
        rw [← List.mem_reverse, hyt]; simp
      exact (hshape.1 y this).1
    cases hr : isRooted p with
    | true =>
      rw [hr] at hkept hyt
      simp only [if_true]
      refine ⟨by rw [hyt]; rfl, ?_⟩
      rw [List.foldl_append]
      simpa [cleanStep] using hkept
    | false =>
      rw [hr] at hkept hyt
      simp only [Bool.false_eq_true, if_false, List.nil_append]
      exact ⟨by rw [hyt]; exact isRooted_cons_ne hy _, hkept⟩

theorem isEmptyPath_Clean (p : Path) : isEmptyPath (Clean p) = false := by
  have hshape := foldl_cleanStep_start (isRooted p) p
  rw [Clean_eq p]
  by_cases ho : (p.foldl (cleanStep (isRooted p)) []).reverse = []
  · rw [if_pos ho]
    cases isRooted p <;> decide
  · rw [if_neg ho]
    obtain ⟨y, t, hyt⟩ := List.exists_cons_of_ne_nil ho
    have hy : y ≠ "" := by
      have : y ∈ p.foldl (cleanStep (isRooted p)) [] := by
        rw [← List.mem_reverse, hyt]; simp
      exact (hshape.1 y this).1
    rw [hyt]
    cases isRooted p with
    | true => simp [isEmptyPath]
    | false => simpa using isEmptyPath_cons_ne hy t

theorem cleanLen_Clean (p : Path) : cleanLen (Clean p) = cleanLen p := by
  unfold cleanLen
  rw [(Clean_fold p).1, (Clean_fold p).2]

/-- Joining an entry name to a cleaned path adds one element. -/
theorem cleanLen_Join (p : Path) {x : String} (hx : validName x = true) :
    cleanLen (Join (Clean p) x) = cleanLen p + 1 := by
  obtain ⟨h1, _, _, _⟩ := (validName_iff x).1 hx
  rw [Join_eq (isEmptyPath_Clean p) h1, cleanLen_Clean]
  unfold cleanLen
  rw [isRooted_snoc (isEmptyPath_Clean p), foldl_cleanStep_snoc _ _ hx, List.length_cons,
    (Clean_fold p).1, (Clean_fold p).2]

theorem weight_ge (l : List String) (h : ∀ x ∈ l, x ≠ "") :
    2 * l.length ≤ (l.map (fun s => s.utf8ByteSize + 1)).sum := by
  induction l with
  | nil => simp
  | cons a r ih =>
    have h1 := utf8ByteSize_pos (h a (List.mem_cons_self _ _))
    have h2 := ih (fun x hx => h x (List.mem_cons_of_mem _ hx))
    simp only [List.length_cons, List.map_cons, List.sum_cons]
    omega

/-- A cleaned path of `k` elements is at least `2 k - 1` bytes long. -/
theorem pathBytes_Clean_ge (p : Path) : 2 * cleanLen p ≤ pathBytes (Clean p) + 1 := by
  have hshape := foldl_cleanStep_start (isRooted p) p
  have hw := weight_ge (p.foldl (cleanStep (isRooted p)) []) (fun x hx => (hshape.1 x hx).1)
  unfold cleanLen
  rw [Clean_eq p, pathBytes_eq]
  by_cases ho : (p.foldl (cleanStep (isRooted p)) []).reverse = []
  · have ho2 : p.foldl (cleanStep (isRooted p)) [] = [] := by simpa using ho
    rw [ho2]
    simp
  · rw [if_neg ho]
    cases hr : isRooted p with
    | true =>
      rw [hr] at hw
      simp only [if_true, List.map_append, List.sum_append, List.map_cons, List.map_nil,
        List.sum_cons, List.sum_nil, List.map_reverse, List.sum_reverse]
      omega
    | false =>
      rw [hr] at hw
      simp only [Bool.false_eq_true, if_false, List.nil_append, List.map_reverse,
        List.sum_reverse]
      omega

/-- A source path of 2049 elements or more is too long to be looked up. -/
theorem Stat_error_of_cleanLen {fs : FS} {src : Path} (h : 2049 ≤ cleanLen src) :
    ∃ e, Stat fs (Clean src) = .error e := by
  have hb := pathBytes_Clean_ge src
  have hlong : 4096 ≤ pathBytes (Clean src) := by omega
  refine ⟨_, Stat_error_of_resolve (e := .ENAMETOOLONG) ?_⟩
  unfold resolve
  rw [isEmptyPath_Clean, if_pos hlong]
  simp

/-- The loop returns when the recursive calls on longer paths do. -/
theorem copyEntries_total (n : Nat) (src dest : Path)
    (hrec : ∀ (fs : FS) (x : String) (dest2 : Path), validName x = true →
      ∃ res, CopyDir n fs (Join (Clean src) x) dest2 = some res) :
    ∀ (es : List DirEntry) (fs : FS), (∀ e ∈ es, validName e.name = true) →
      ∃ res, copyEntries (CopyDir n) (Clean src) (Clean dest) fs es = some res := by
  intro es
  induction es with
  | nil => intro fs _; exact ⟨_, rfl⟩
  | cons e rest ih =>
    intro fs hes
    have hv := hes e (List.mem_cons_self _ _)
    have hrest : ∀ fs1, ∃ res, copyEntries (CopyDir n) (Clean src) (Clean dest) fs1 rest
        = some res := fun fs1 => ih fs1 (fun e2 he2 => hes e2 (List.mem_cons_of_mem _ he2))
    rw [copyEntries]
    by_cases hd : e.isDir = true
    · simp only [hd, if_true]
      obtain ⟨⟨fs1, r1⟩, hres⟩ := hrec fs e.name (Join (Clean dest) e.name) hv
      rw [hres]
      cases r1 with
      | some err => exact ⟨_, rfl⟩
      | none => exact hrest fs1
    · have hd2 : e.isDir = false := by simpa using hd
      simp only [hd2, Bool.false_eq_true, if_false]
      cases hc : CopyFile fs (Join (Clean src) e.name) (Join (Clean dest) e.name) with
      | mk fs1 r1 =>
        cases r1 with
        | some err => exact ⟨_, rfl⟩
        | none => exact hrest fs1

theorem CopyDir_total_aux : ∀ (n : Nat) (fs : FS) (src dest : Path),
    2050 ≤ n + cleanLen src → 0 < n → ∃ res, CopyDir n fs src dest = some res := by
  intro n
  induction n with
  | zero => intro fs src dest _ h; exact absurd h (lt_irrefl 0)
  | succ n ih =>
    intro fs src dest h _
    unfold CopyDir
    dsimp only
    cases hS : Stat fs (Clean src) with
    | error e => exact ⟨_, rfl⟩
    | ok fi =>
      simp only
      have hshort : cleanLen src < 2049 := by
        by_contra hc
        obtain ⟨e, he⟩ := @Stat_error_of_cleanLen fs src (by omega)
        rw [hS] at he
        cases he
      by_cases hd : fi.isDir = true
      · simp only [hd, Bool.not_true, Bool.false_eq_true, if_false]
        generalize (match Stat fs dest with
          | .ok _ => (none : Option Error)
          | .error err => if (!IsNotExist (some err)) = true then some err else none) = look
        cases look with
        | some err => exact ⟨_, rfl⟩
        | none =>
          simp only
          cases hM : MkdirAll fs dest fi.mode with
          | mk fs1 rm =>
            cases rm with
            | some err => exact ⟨_, rfl⟩
            | none =>
              simp only
              cases hR : ReadDir fs1 src with
              | error err => exact ⟨_, rfl⟩
              | ok entries =>
                simp only
                obtain ⟨S2, m2, _, _, _, rfl⟩ := ReadDir_ok_inv hR
                apply copyEntries_total n src dest
                · intro fs2 x dest2 hx
                  apply ih
                  · rw [cleanLen_Join src hx]
                    omega
                  · omega
                · intro e he
                  obtain ⟨x, hx, rfl⟩ := List.mem_map.1 he
                  exact ((mem_listing fs1 S2 x).1 hx).1
      · simp only [hd, Bool.not_false, if_true]
        exact ⟨_, rfl⟩

/-- CopyDir returns on every state and every pair of paths: a path of 4096
bytes or more is refused, so the recursion is never more than 2050 calls deep. -/
theorem CopyDir_total (n : Nat) (hn : 2050 ≤ n) (fs : FS) (src dest : Path) :
    ∃ res, CopyDir n fs src dest = some res :=
  CopyDir_total_aux n fs src dest (by omega) (by omega)

/-! ## The recursion bound does not change the result -/

theorem copyEntries_mono (f g : FS → Path → Path → Option (FS × Option Error))
    (hfg : ∀ fs s d res, f fs s d = some res → g fs s d = some res) (sp dp : Path) :
    ∀ (es : List DirEntry) (fs : FS) (res : FS × Option Error),
      copyEntries f sp dp fs es = some res → copyEntries g sp dp fs es = some res := by
  intro es
  induction es with
  | nil => intro fs res h; simpa [copyEntries] using h
  | cons e rest ih =>
    intro fs res h
    rw [copyEntries] at h ⊢
    by_cases hd : e.isDir = true
    · simp only [hd, if_true] at h ⊢
      cases hc : f fs (Join sp e.name) (Join dp e.name) with
      | none => simp [hc] at h
      | some r1 =>
        rw [hfg _ _ _ _ hc]
        rw [hc] at h
        obtain ⟨fs1, e1⟩ := r1
        cases e1 with
        | some err => exact h
        | none => exact ih fs1 res h
    · simp only [hd, if_false] at h ⊢
      cases hc : CopyFile fs (Join sp e.name) (Join dp e.name) with
      | mk fs1 r1 =>
        rw [hc] at h
        cases r1 with
        | some err => exact h
        | none => exact ih fs1 res h

/-- Once CopyDir returns within a recursion bound, it returns the same under the next. -/
theorem CopyDir_succ_same : ∀ (n : Nat) (fs : FS) (src dest : Path) (res : FS × Option Error),
    CopyDir n fs src dest = some res → CopyDir (n + 1) fs src dest = some res := by
  intro n
  induction n with
  | zero => intro fs src dest res h; simp [CopyDir] at h
  | succ n ih =>
    intro fs src dest res h
    unfold CopyDir at h ⊢
    dsimp only at h ⊢
    cases hS : Stat fs (Clean src) with
    | error e => rw [hS] at h; exact h
    | ok fi =>
      rw [hS] at h
      simp only at h ⊢
      by_cases hd : fi.isDir = true
      · simp only [hd, Bool.not_true, Bool.false_eq_true, if_false] at h ⊢
        generalize (match Stat fs dest with
          | .ok _ => (none : Option Error)
          | .error err => if (!IsNotExist (some err)) = true then some err else none) = look at h ⊢
        cases look with
        | some err => exact h
        | none =>
          simp only at h ⊢
          cases hM : MkdirAll fs dest fi.mode with
          | mk fs1 rm =>
            rw [hM] at h
            cases rm with
            | some err => exact h
            | none =>
              simp only at h ⊢
              cases hR : ReadDir fs1 src with
              | error err => rw [hR] at h; exact h
              | ok entries =>
                rw [hR] at h
                simp only at h ⊢
                exact copyEntries_mono _ _ ih _ _ _ _ _ h
      · simp only [hd, Bool.not_false, if_true] at h ⊢
        exact h

/-- The result of CopyDir does not depend on the recursion bound under which it returns. -/
theorem CopyDir_bound_same {n k : Nat} {fs : FS} {src dest : Path} {res : FS × Option Error}
    (h : CopyDir n fs src dest = some res) (hk : n ≤ k) : CopyDir k fs src dest = some res := by
  induction k with
  | zero =>
    have : n = 0 := by omega
    subst this
    exact h
  | succ k ih =>
    by_cases hnk : n ≤ k
    · exact CopyDir_succ_same k fs src dest res (ih hnk)
    · have : n = k + 1 := by omega
      subst this
      exact h

/-- A destination whose path resolves is local: `MkdirAll` creates at most the
directory the path denotes. -/
theorem LocalDest_of_resolve {fs : FS} {dest : Path} {D : Loc}
    (h : resolve fs dest = .ok D) : LocalDest fs dest D := by
  right
  refine ⟨resolve_Clean h, fun perm => ?_⟩
  cases hg : fs.get D with
  | some e =>
    have hS := Stat_of_get h hg
    cases hd : e.isDir with
    | true => exact Or.inl ⟨e, rfl, hd, MkdirAllAux_of_dir hS (by simp [Entry.info, hd]) _ perm⟩
    | false => exact Or.inr (Or.inl ⟨_, MkdirAllAux_of_file hS (by simp [Entry.info, hd]) _ perm⟩)
  | none =>
    right
    have hS := Stat_of_none h hg
    obtain ⟨hne, hlen, hw⟩ := (resolve_ok_iff _ _ _).1 h
    have hnil : dest ≠ [] := by rintro rfl; simp [isEmptyPath] at hne
    obtain ⟨init, s, rfl⟩ : ∃ init s, dest = init ++ [s] :=
      ⟨dest.dropLast, dest.getLast hnil, (List.dropLast_append_getLast hnil).symm⟩
    rw [walkFrom_snoc_ok_iff] at hw
    obtain ⟨c, hc1, hc2, _, hc3⟩ := hw
    obtain ⟨pm, hpm, _⟩ := searchable_ok_get hc2
    have hs : ¬ (s = "" ∨ s = ".") := by
      intro hs
      have : D = c := by rw [hc3]; simp [stepLoc, hs]
      rw [this, hpm] at hg
      cases hg
    have hs1 : s ≠ "" := fun h0 => hs (Or.inl h0)
    have htrim : trimSlashes (init ++ [s]) = init ++ [s] := by
      rw [trimSlashes_snoc, if_neg hs1]
    have hinner : (if (trimSlashes (init ++ [s])).dropLast ≠ [] ∧
          (trimSlashes (init ++ [s])).dropLast ≠ [""]
        then MkdirAllAux (init ++ [s]).length fs (trimSlashes (init ++ [s])).dropLast perm
        else (fs, none)) = (fs, none) := by
      rw [htrim, List.dropLast_concat]
      split
      · rename_i hcnd
        have hie : isEmptyPath init = false := by
          simp only [isEmptyPath, decide_eq_false_iff_not, not_or]
          exact hcnd
        have hri : resolve fs init = .ok c := by
          rw [resolve_ok_iff]
          refine ⟨hie, ?_, ?_⟩
          · rw [pathBytes_snoc] at hlen
            omega
          · rw [← isRooted_snoc hie s]
            exact hc1
        have hlen : (init ++ [s]).length = init.length + 1 := by simp
        rw [hlen]
        exact MkdirAllAux_of_dir (Stat_of_get hri hpm) rfl _ perm
      · rfl
    have hres2 : resolve fs (if trimSlashes (init ++ [s]) = [] then init ++ [s]
        else trimSlashes (init ++ [s])) = .ok D := by
      rw [htrim]; split <;> exact h
    cases hM : Mkdir fs (init ++ [s]) perm with
    | ok fs2 =>
      right
      obtain ⟨l, pm2, hl, _, _, rfl⟩ := Mkdir_ok_inv hM
      rw [hres2] at hl
      cases hl
      refine ⟨rfl, mkdirMode fs.umask perm pm2, ?_⟩
      unfold MkdirAll MkdirAllAux
      simp only [hS, hinner, hM]
    | error err =>
      left
      refine ⟨err, ?_⟩
      unfold MkdirAll MkdirAllAux
      simp only [hS, hinner, hM]

/-! ## Claims about CopyDir -/

/-- C9 (amended): CopyDir returns on every state and every pair of paths, a
destination inside the source included: a path of 4096 bytes or more is
refused, so every recursion bound from 2050 on is enough.  The recursion stays
within the depth of the source tree as it was before the call (every bound
greater than that depth is enough) whenever the destination directory is not
strictly inside the source directory and creating the destination adds no level
to the source tree, as is the case for every dest written without `.`, `..` or
empty segments; the destination may be the source directory itself, lie above
it or apart from it, and any of its parent directories may be missing.  What
CopyDir returns within one recursion bound it returns within every greater one. -/
theorem CopyDir_terminates (fs : FS) (src dest : Path) :
    (∀ n, 2050 ≤ n → ∃ res, CopyDir n fs src dest = some res) ∧
    (∀ n, srcDepth fs src < n →
      (∀ S m, resolve fs (Clean src) = .ok S → fs.get S = some (.dir m) →
        (plainPath dest = true ∨ treeDepth (MkdirAll fs dest m).1 S ≤ treeDepth fs S) ∧
        ∀ D, resolve (MkdirAll fs dest m).1 (Clean dest) = .ok D → S <+: D → D = S) →
      ∃ res, CopyDir n fs src dest = some res) ∧
    (∀ n k res, CopyDir n fs src dest = some res → n ≤ k →
      CopyDir k fs src dest = some res) :=
  ⟨fun n hn => CopyDir_total n hn fs src dest,
    fun n hn h => CopyDir_returns_general n fs src dest h hn,
    fun _ _ _ h hk => CopyDir_bound_same h hk⟩

/-- C9 (amended) at the scenario, within the depth of the source tree: `/a`
(two levels) copied to `/new/dest` where `/new` is missing, `/a` copied onto
itself, and `/a/b` (one level) copied to `/a`, the directory above it. -/
theorem CopyDir_terminates_witness :
    (∃ res, CopyDir 3 (scenario 0o022) ["", "a"] ["", "new", "dest"] = some res) ∧
    (∃ res, CopyDir 3 (scenario 0o022) ["", "a"] ["", "a"] = some res) ∧
    (∃ res, CopyDir 2 (scenario 0o022) ["", "a", "b"] ["", "a"] = some res) :=
  ⟨(CopyDir_terminates (scenario 0o022) ["", "a"] ["", "new", "dest"]).2.1 3 (by decide) (by
      intro S m hS hm
      have h : resolve (scenario 0o022) (Clean ["", "a"]) = .ok ["a"] := by decide
      rw [h] at hS
      cases hS
      have hm2 : (scenario 0o022).get ["a"] = some (.dir 0o755) := by decide
      rw [hm2] at hm
      cases hm
      refine ⟨Or.inl (by decide), fun D hD => ?_⟩
      have hd : resolve (MkdirAll (scenario 0o022) ["", "new", "dest"] 0o755).1
          (Clean ["", "new", "dest"]) = .ok ["new", "dest"] := by decide
      rw [hd] at hD
      cases hD
      decide),
   (CopyDir_terminates (scenario 0o022) ["", "a"] ["", "a"]).2.1 3 (by decide) (by
      intro S m hS hm
      have h : resolve (scenario 0o022) (Clean ["", "a"]) = .ok ["a"] := by decide
      rw [h] at hS
      cases hS
      have hm2 : (scenario 0o022).get ["a"] = some (.dir 0o755) := by decide
      rw [hm2] at hm
      cases hm
      refine ⟨Or.inl (by decide), fun D hD => ?_⟩
      have hd : resolve (MkdirAll (scenario 0o022) ["", "a"] 0o755).1
          (Clean ["", "a"]) = .ok ["a"] := by decide
      rw [hd] at hD
      cases hD
      decide),
   (CopyDir_terminates (scenario 0o022) ["", "a", "b"] ["", "a"]).2.1 2 (by decide) (by
      intro S m hS hm
      have h : resolve (scenario 0o022) (Clean ["", "a", "b"]) = .ok ["a", "b"] := by decide
      rw [h] at hS
      cases hS
      have hm2 : (scenario 0o022).get ["a", "b"] = some (.dir 0o755) := by decide
      rw [hm2] at hm
      cases hm
      refine ⟨Or.inl (by decide), fun D hD => ?_⟩
      have hd : resolve (MkdirAll (scenario 0o022) ["", "a"] 0o755).1
          (Clean ["", "a"]) = .ok ["a"] := by decide
      rw [hd] at hD
      cases hD
      decide)⟩

/-- C6: CopyDir into an existing directory `dest` apart from the source tree
returns (within the depth of the source tree) and, whether it succeeds or fails:
no entry is deleted or changes kind, and directories keep their mode; every
location under dest whose relative path is not that of a source entry holds
exactly what it held; and a regular file whose content or mode changed has the
relative path of a regular file of the source tree. -/
theorem CopyDir_keeps_unrelated (fs : FS) (src dest : Path) (S D : Loc) (dm : FileMode)
    (hS : resolve fs (Clean src) = .ok S) (hD : resolve fs dest = .ok D)
    (hg : fs.get D = some (.dir dm)) (hA : Apart S D) (n : Nat) (hn : treeDepth fs S < n) :
    ∃ fs2 r, CopyDir n fs src dest = some (fs2, r) ∧
      (∀ loc e, fs.get loc = some e →
        ∃ e2, fs2.get loc = some e2 ∧ e2.isDir = e.isDir ∧ (e.isDir = true → e2 = e)) ∧
      (∀ rel, ¬ inTree fs S rel → fs2.get (D ++ rel) = fs.get (D ++ rel)) ∧
      (∀ loc m d, fs.get loc = some (.file m d) → fs2.get loc ≠ some (.file m d) →
        ∃ rel, loc = D ++ rel ∧ inTree fs S rel ∧
          ∃ m2 d2, fs.get (S ++ rel) = some (.file m2 d2)) := by
  obtain ⟨⟨fs2, r⟩, hres⟩ := CopyDir_returns n fs src dest D (LocalDest_of_resolve hD)
    (by
      intro S2 hS2
      rw [hS] at hS2
      cases hS2
      exact ⟨hA, hn⟩) (by omega)
  obtain ⟨hst, hch⟩ := CopyDir_frame_of_result hS hD hg hA hres
  refine ⟨fs2, r, hres, hst.2.2, ?_, ?_⟩
  · intro rel hrel
    by_contra hne
    obtain ⟨rel2, _, heq, ht, _⟩ := hch _ hne
    rw [List.append_cancel_left heq] at hrel
    exact hrel ht
  · intro loc m d hf hne
    have hne2 : fs2.get loc ≠ fs.get loc := by rw [hf]; exact hne
    obtain ⟨rel, _, heq, ht, hfile⟩ := hch loc hne2
    exact ⟨rel, heq, ht, hfile m d hf⟩

/-- C6 at the scenario with `/dest` in place: the copy of `/a` returns at bound 3 with the frame. -/
theorem CopyDir_keeps_unrelated_witness :
    ∃ fs2 r, CopyDir 3 scenarioWithDest ["", "a"] ["", "dest"] = some (fs2, r) ∧
      (∀ loc e, scenarioWithDest.get loc = some e →
        ∃ e2, fs2.get loc = some e2 ∧ e2.isDir = e.isDir ∧ (e.isDir = true → e2 = e)) ∧
      (∀ rel, ¬ inTree scenarioWithDest ["a"] rel →
        fs2.get (["dest"] ++ rel) = scenarioWithDest.get (["dest"] ++ rel)) ∧
      (∀ loc m d, scenarioWithDest.get loc = some (.file m d) →
        fs2.get loc ≠ some (.file m d) →
        ∃ rel, loc = ["dest"] ++ rel ∧ inTree scenarioWithDest ["a"] rel ∧
          ∃ m2 d2, scenarioWithDest.get (["a"] ++ rel) = some (.file m2 d2)) :=
  CopyDir_keeps_unrelated scenarioWithDest ["", "a"] ["", "dest"] ["a"] ["dest"] 0o700
    (by decide) (by decide) (by decide) (by unfold Apart; decide) 3 (by decide)

/-! ## The loop, entry by entry -/

theorem copyEntries_cons (f : FS → Path → Path → Option (FS × Option Error))
    (sp dp : Path) (fs : FS) (e : DirEntry) (rest : List DirEntry) :
    copyEntries f sp dp fs (e :: rest) =
      match copyEntry f sp dp fs e with
      | none => none
      | some (fs1, some err) => some (fs1, some (.wrap err ("copying " ++ e.name)))
      | some (fs1, none) => copyEntries f sp dp fs1 rest := by
  rw [copyEntries]
  unfold copyEntry
  by_cases hd : e.isDir = true
  · simp only [hd, if_true]
  · simp only [hd, if_false]
    cases hc : CopyFile fs (Join sp e.name) (Join dp e.name) with
    | mk fs1 r1 => cases r1 <;> rfl

theorem copyEntries_append (f : FS → Path → Path → Option (FS × Option Error))
    (sp dp : Path) (a b : List DirEntry) :
    ∀ fs, copyEntries f sp dp fs (a ++ b) =
      match copyEntries f sp dp fs a with
      | some (fs1, none) => copyEntries f sp dp fs1 b
      | other => other := by
  induction a with
  | nil => intro fs; simp [copyEntries]
  | cons e rest ih =>
    intro fs
    rw [List.cons_append, copyEntries_cons, copyEntries_cons]
    cases hc : copyEntry f sp dp fs e with
    | none => rfl
    | some res =>
      obtain ⟨fs1, r1⟩ := res
      cases r1 with
      | some err => rfl
      | none => exact ih fs1

/-- CopyDir after a successful preamble is the loop over the listing. -/
theorem CopyDir_succ_eq_loop {n : Nat} {fs fs1 : FS} {src dest : Path} {fi : FileInfo}
    {entries : List DirEntry}
    (hS : Stat fs (Clean src) = .ok fi) (hdir : fi.isDir = true)
    (hlook : ∀ err, Stat fs dest = .error err → IsNotExist (some err) = true)
    (hM : MkdirAll fs dest fi.mode = (fs1, none))
    (hR : ReadDir fs1 src = .ok entries) :
    CopyDir (n + 1) fs src dest = copyEntries (CopyDir n) (Clean src) (Clean dest) fs1 entries := by
  unfold CopyDir
  dsimp only
  have hl : (match Stat fs dest with
      | .ok _ => (none : Option Error)
      | .error err => if (!IsNotExist (some err)) = true then some err else none) = none := by
    cases hd : Stat fs dest with
    | ok fi2 => rfl
    | error err => simp [hlook err hd]
  simp only [hS, hdir, hl, hM, hR, Bool.not_true, Bool.false_eq_true, if_false]

theorem LoopCtx.run {fs fs2 : FS} {sp dp : Path} {S D : Loc} {es : List DirEntry} {n : Nat}
    {r : Option Error} (h : LoopCtx fs sp dp S D es)
    (hc : copyEntries (CopyDir n) sp dp fs es = some (fs2, r)) :
    Run fs S D (es.map DirEntry.name) fs2 r.isNone :=
  copyEntries_run n (CopyDir_dircopy n) sp dp S D es fs fs2 r h.1 h.2.1 h.2.2.1 h.2.2.2.1
    h.2.2.2.2 hc

theorem LoopCtx.carry {fs fs1 : FS} {sp dp : Path} {S D : Loc} {es : List DirEntry}
    (h : LoopCtx fs sp dp S D es) (hst : DirStable fs fs1) : LoopCtx fs1 sp dp S D es := by
  obtain ⟨h1, h2, ⟨dm, h3⟩, h4, h5⟩ := h
  refine ⟨resolve_stable hst h1, resolve_stable hst h2, ⟨dm, hst.get_dir h3⟩,
    fun hne => searchable_stable hst (h4 hne), fun e he => ?_⟩
  obtain ⟨hv, en, hen, hk⟩ := h5 e he
  obtain ⟨e3, g3, k3, _⟩ := hst.2.2 _ _ hen
  exact ⟨hv, e3, g3, k3.trans hk⟩

theorem LoopCtx.mono {fs : FS} {sp dp : Path} {S D : Loc} {es es2 : List DirEntry}
    (h : LoopCtx fs sp dp S D es) (hsub : ∀ e ∈ es2, e ∈ es) : LoopCtx fs sp dp S D es2 := by
  obtain ⟨h1, h2, h3, h4, h5⟩ := h
  refine ⟨h1, h2, h3, fun hne => h4 ?_, fun e he => h5 e (hsub e he)⟩
  obtain ⟨x, t, rfl⟩ := List.exists_cons_of_ne_nil hne
  exact List.ne_nil_of_mem (hsub x (List.mem_cons_self _ _))

theorem LoopCtx.of_ReadDir {fs1 : FS} {src dest : Path} {D : Loc} {dm : FileMode}
    {entries : List DirEntry} (hR : ReadDir fs1 src = .ok entries)
    (hD : resolve fs1 (Clean dest) = .ok D) (hg : fs1.get D = some (.dir dm)) :
    ∃ S, LoopCtx fs1 (Clean src) (Clean dest) S D entries ∧
      entries.map DirEntry.name = listing fs1 S := by
  obtain ⟨S, m, hr, hgS, hsearch, rfl⟩ := ReadDir_ok_inv hR
  refine ⟨S, ⟨resolve_Clean hr, hD, ⟨dm, hg⟩, ?_, ?_⟩, ?_⟩
  · intro hne
    apply searchable_of_get hgS
    apply hsearch
    intro hnil
    exact hne (by simp [hnil])
  · intro e he
    obtain ⟨x, hx, rfl⟩ := List.mem_map.1 he
    obtain ⟨hv, hex⟩ := (mem_listing fs1 S x).1 hx
    obtain ⟨en, hen⟩ := Option.ne_none_iff_exists'.1 hex
    exact ⟨hv, en, hen, by simp [entryOf, hen]⟩
  · simp [List.map_map, Function.comp_def, entryOf]

/-- A run leaves alone everything under the destination entries of names it does not list. -/
theorem Run.untouched {fs fs2 : FS} {S D : Loc} {names : List String} {ok : Bool}
    (h : Run fs S D names fs2 ok) {x : String} (hx : x ∉ names) {loc : Loc}
    (hl : (D ++ [x]) <+: loc) : fs2.get loc = fs.get loc := by
  by_contra hne
  obtain ⟨y, hy, hp⟩ := h.confined loc hne
  rw [snoc_prefix_unique hl hp] at hx
  exact hx hy

/-! ## Directories made by a successful copy -/

theorem AgreeUnder.symm {S : Loc} {fs fs1 : FS} (h : AgreeUnder S fs fs1) : AgreeUnder S fs1 fs :=
  fun loc hl => (h loc hl).symm

theorem inTree_exists {fs : FS} {S : Loc} {rel : List String} (h : inTree fs S rel) :
    fs.get S ≠ none := by
  cases rel with
  | nil => exact h
  | cons n rel =>
    obtain ⟨⟨m, hm⟩, _, _⟩ := h
    rw [hm]; simp

theorem inTree_stable {fs fs1 : FS} (hst : DirStable fs fs1) (rel : List String) :
    ∀ S, inTree fs S rel → inTree fs1 S rel := by
  induction rel with
  | nil =>
    intro S h
    simp only [inTree] at h ⊢
    obtain ⟨e, he⟩ := Option.ne_none_iff_exists'.1 h
    obtain ⟨e2, g2, _, _⟩ := hst.2.2 S e he
    rw [g2]; simp
  | cons n rel ih =>
    intro S h
    obtain ⟨⟨m, hm⟩, hv, ht⟩ := h
    exact ⟨⟨m, hst.get_dir hm⟩, hv, ih _ ht⟩

/-- The directory at the end of a relative path: the entry itself for a
one-name path, a directory on the way otherwise. -/
theorem inTree_head_dir {fs : FS} {S : Loc} {n : String} {rel : List String} {m : FileMode}
    (ht : inTree fs S (n :: rel)) (hg : fs.get (S ++ n :: rel) = some (.dir m)) :
    ∃ m1, fs.get (S ++ [n]) = some (.dir m1) := by
  cases rel with
  | nil => exact ⟨m, hg⟩
  | cons y rel2 => exact ht.2.2.1

theorem put_ne_get {fs : FS} {L loc : Loc} {e : Entry} (h : (fs.put L e).get loc ≠ fs.get loc) :
    loc = L := by
  rw [get_put] at h
  by_contra hne
  rw [if_neg (Ne.symm hne)] at h
  exact h rfl

theorem snoc_ne_of_head {D : Loc} {n x : String} {rel : List String} (hx : x ≠ n) :
    ¬ (D ++ [n]) <+: (D ++ x :: rel) := by
  intro h
  have h2 : (D ++ [x]) <+: (D ++ x :: rel) := by
    have : D ++ x :: rel = (D ++ [x]) ++ rel := by simp
    rw [this]; exact List.prefix_append _ _
  exact hx (snoc_prefix_unique h2 h)

theorem DirMade.of_pre {fs fs1 fs2 : FS} {loc : Loc}
    (hg : fs1.get loc = fs.get loc) (h : DirMade fs1 fs2 loc) : DirMade fs fs2 loc := by
  obtain ⟨m2, h1, h2⟩ := h
  rw [hg] at h2
  exact ⟨m2, h1, h2⟩

theorem DirMade.post {fs fs2 fs3 : FS} {loc : Loc} (h : DirMade fs fs2 loc)
    (hst : DirStable fs2 fs3) : DirMade fs fs3 loc := by
  obtain ⟨m2, h1, h2⟩ := h
  exact ⟨m2, hst.get_dir h1, h2⟩

theorem Enter.dirMade {fs fs1 : FS} {SL L : Loc} (he : Enter fs SL L fs1) :
    DirMade fs fs1 L := by
  obtain ⟨m0, hm0, h⟩ := he
  rcases h with ⟨rfl, dm, hdm⟩ | ⟨hn, m2, rfl⟩
  · exact ⟨dm, hdm, fun e he => by rw [hdm] at he; cases he; rfl⟩
  · refine ⟨m2, by rw [get_put, if_pos rfl], ?_⟩
    intro e he
    rw [hn] at he
    cases he

/-- A successful run leaves a directory at the destination counterpart of every
directory of the source tree below a listed name. -/
theorem Run.dirs {fs fs2 : FS} {S D : Loc} {names : List String} {ok : Bool}
    (h : Run fs S D names fs2 ok) :
    ok = true → names.Nodup →
    ∀ x rel m, x ∈ names → inTree fs S (x :: rel) → fs.get (S ++ x :: rel) = some (.dir m) →
      DirMade fs fs2 (D ++ x :: rel) := by
  induction h with
  | done => intro _ _ x rel m hx; simp at hx
  | @fileOk fs fs1 fs2 S D n rest ok hv hf hrun ih =>
    intro hok hnd x rel m hx ht hg
    obtain ⟨hn, hnd2⟩ := List.nodup_cons.1 hnd
    rcases List.mem_cons.1 hx with rfl | hxr
    · obtain ⟨m1, hm1⟩ := inTree_head_dir ht hg
      obtain ⟨_, _, ms, ds, hsrc, _⟩ := hf
      rw [hm1] at hsrc
      cases hsrc
    · have hxn : x ≠ n := by rintro rfl; exact hn hxr
      have hloc : D ++ x :: rel ≠ D ++ [n] := by
        intro heq
        apply @snoc_ne_of_head D n x rel hxn
        rw [heq]
      exact (ih hok hnd2 x rel m hxr (inTree_stable hf.1.1 _ _ ht)
        (hf.1.1.get_dir hg)).of_pre (hf.1.2 _ hloc)
  | entryFail => intro hok; cases hok
  | mkdirOnly => intro hok; cases hok
  | dirFail => intro hok; cases hok
  | @dirOk fs fs1 fs2 fs3 S D n rest ok hv he hsub hrest ih1 ih2 =>
    intro hok hnd x rel m hx ht hg
    obtain ⟨hn, hnd2⟩ := List.nodup_cons.1 hnd
    rcases List.mem_cons.1 hx with rfl | hxr
    · cases rel with
      | nil => exact (he.dirMade.post hsub.stable).post hrest.stable
      | cons y rel2 =>
        obtain ⟨_, _, ht2⟩ := ht
        have hy : y ∈ listing fs1 (S ++ [x]) := by
          rw [mem_listing]
          refine ⟨ht2.2.1, ?_⟩
          exact inTree_exists (inTree_stable he.keeps _ _ ht2.2.2)
        have heq : S ++ x :: y :: rel2 = (S ++ [x]) ++ y :: rel2 := by simp
        have heqD : D ++ x :: y :: rel2 = (D ++ [x]) ++ y :: rel2 := by simp
        rw [heq] at hg
        have hmade := ih1 rfl (listing_nodup _ _) y rel2 m hy
          (inTree_stable he.keeps _ _ ht2) (he.keeps.get_dir hg)
        rw [heqD]
        have hsame : fs1.get ((D ++ [x]) ++ y :: rel2) = fs.get ((D ++ [x]) ++ y :: rel2) := by
          by_contra hne
          have := (he.atDest _ hne).1
          have hlen := congrArg List.length this
          simp at hlen
        exact (hmade.of_pre hsame).post hrest.stable
    · have hxn : x ≠ n := by rintro rfl; exact hn hxr
      have hst := he.keeps.trans hsub.stable
      have hsame : fs2.get (D ++ x :: rel) = fs.get (D ++ x :: rel) := by
        by_contra hne
        by_cases h1 : fs1.get (D ++ x :: rel) = fs.get (D ++ x :: rel)
        · rw [← h1] at hne
          obtain ⟨z, _, hp⟩ := hsub.confined _ hne
          exact snoc_ne_of_head hxn (under_of_under_snoc hp)
        · have := (he.atDest _ h1).1
          apply @snoc_ne_of_head D n x rel hxn
          rw [this]
      exact (ih2 hok hnd2 x rel m hxr (inTree_stable hst _ _ ht) (hst.get_dir hg)).of_pre
        hsame

/-- What a successful CopyDir call went through: the source is a directory,
`MkdirAll` made the destination a directory, and the loop ran over the listing. -/
theorem CopyDir_success_inv {n : Nat} {fs fs2 : FS} {src dest : Path}
    (h : CopyDir n fs src dest = some (fs2, none)) :
    ∃ S m fs1 D dm, resolve fs (Clean src) = .ok S ∧ fs.get S = some (.dir m) ∧
      MkdirAll fs dest m = (fs1, none) ∧ resolve fs1 (Clean dest) = .ok D ∧
      fs1.get D = some (.dir dm) ∧ Run fs1 S D (listing fs1 S) fs2 true := by
  cases n with
  | zero => simp [CopyDir] at h
  | succ n =>
    rcases CopyDir_succ_cases h with ⟨hne, _⟩ | ⟨S, m, fs1, hr, hg, _, hrest⟩
    · exact absurd rfl hne
    · rcases hrest with ⟨err, _, _, hne⟩ | ⟨hM, hrd⟩
      · exact absurd rfl hne
      · rcases hrd with ⟨err, _, _, hne⟩ | ⟨entries, hread, hcopy⟩
        · exact absurd rfl hne
        · obtain ⟨D, dm, hD, hgD⟩ := MkdirAllAux_post _ _ _ _ _ hM
          obtain ⟨S2, hctx, hnames⟩ := LoopCtx.of_ReadDir hread hD hgD
          have hEq : S2 = S := by
            have := resolve_stable (MkdirAll_stable hM) hr
            rw [hctx.1] at this
            exact Except.ok.inj this
          subst hEq
          have hrun := hctx.run hcopy
          rw [hnames] at hrun
          exact ⟨S2, m, fs1, D, dm, hr, hg, hM, hD, hgD, hrun⟩

/-- C8 at a failing input: `/dest` exists with mode 0700 before the call; the
copy of `/a` (mode 0755) succeeds and `/dest` still has mode 0700, because
CopyDir never sets the mode of a directory that is already there. -/
theorem CopyDir_existing_dest_keeps_mode :
    scenarioWithDest.get ["a"] = some (.dir 0o755) ∧
      scenarioWithDest.get ["dest"] = some (.dir 0o700) ∧
      ∃ fs2, CopyDir 3 scenarioWithDest ["", "a"] ["", "dest"] = some (fs2, none) ∧
        fs2.get ["dest"] = some (.dir 0o700) := by
  refine ⟨by decide, by decide, _, rfl, ?_⟩
  decide

/-! ## Files made by a successful copy -/

theorem Apart.ne_snoc {S D : Loc} (h : Apart S D) (n : String) : S ++ [n] ≠ D ++ [n] := by
  intro heq
  have : S = D := List.append_cancel_right heq
  exact h.1 (by rw [this])

/-- A successful run between directories that lie apart leaves, at the
destination counterpart of every regular file of the source tree below a listed
name, a regular file with the same bytes and the same mode. -/
theorem Run.files {fs fs2 : FS} {S D : Loc} {names : List String} {ok : Bool}
    (h : Run fs S D names fs2 ok) :
    ok = true → Apart S D → names.Nodup →
    ∀ x rel m d, x ∈ names → inTree fs S (x :: rel) →
      fs.get (S ++ x :: rel) = some (.file m d) →
      fs2.get (D ++ x :: rel) = some (.file m d) := by
  induction h with
  | done => intro _ _ _ x rel m d hx; simp at hx
  | @fileOk fs fs1 fs2 S D n rest ok hv hf hrun ih =>
    intro hok hA hnd x rel m d hx ht hg
    obtain ⟨hn, hnd2⟩ := List.nodup_cons.1 hnd
    have hag : AgreeUnder S fs fs1 := AgreeUnder.of_confined hA (fun l hne => by
      have : l = D ++ [n] := by
        by_contra hx
        exact hne (hf.1.2 l hx)
      rw [this]; exact List.prefix_append D [n])
    rcases List.mem_cons.1 hx with rfl | hxr
    · cases rel with
      | nil =>
        obtain ⟨_, _, ms, ds, hsrc, _, hcopy⟩ := hf
        rw [hg] at hsrc
        cases hsrc
        have h1 := hcopy (hA.ne_snoc x)
        rw [hrun.untouched hn (List.prefix_refl _), h1]
      | cons y rel2 =>
        obtain ⟨m1, hm1⟩ := ht.2.2.1
        obtain ⟨_, _, ms, ds, hsrc, _⟩ := hf
        rw [hm1] at hsrc
        cases hsrc
    · have hsub : S <+: S ++ x :: rel := List.prefix_append _ _
      exact ih hok hA hnd2 x rel m d hxr
        (inTree_agree _ S hag.symm ht) (by rw [hag _ hsub]; exact hg)
  | entryFail => intro hok; cases hok
  | mkdirOnly => intro hok; cases hok
  | dirFail => intro hok; cases hok
  | @dirOk fs fs1 fs2 fs3 S D n rest ok hv he hsub hrest ih1 ih2 =>
    intro hok hA hnd x rel m d hx ht hg
    obtain ⟨hn, hnd2⟩ := List.nodup_cons.1 hnd
    have hag1 := he.srcSame hA
    have hag2 : AgreeUnder S fs1 fs2 := AgreeUnder.of_confined hA (fun l hne => by
      obtain ⟨z, _, hp⟩ := hsub.confined l hne
      exact under_of_under_snoc (under_of_under_snoc hp))
    have hag := hag1.chain hag2
    rcases List.mem_cons.1 hx with rfl | hxr
    · cases rel with
      | nil =>
        obtain ⟨m1, hm1, _⟩ := id he
        rw [hg] at hm1
        cases hm1
      | cons y rel2 =>
        obtain ⟨_, _, ht2⟩ := ht
        have heq : S ++ x :: y :: rel2 = (S ++ [x]) ++ y :: rel2 := by simp
        have heqD : D ++ x :: y :: rel2 = (D ++ [x]) ++ y :: rel2 := by simp
        have hunder : S <+: (S ++ [x]) ++ y :: rel2 := by
          rw [List.append_assoc]; exact List.prefix_append _ _
        rw [heq] at hg
        have hy : y ∈ listing fs1 (S ++ [x]) := by
          rw [mem_listing]
          exact ⟨ht2.2.1, inTree_exists (inTree_stable he.keeps _ _ ht2.2.2)⟩
        have h2 := ih1 rfl (hA.snoc x) (listing_nodup _ _) y rel2 m d hy
          (inTree_agree _ _ (hag1.child x).symm ht2) (by rw [hag1 _ hunder]; exact hg)
        rw [heqD, hrest.untouched hn (List.prefix_append _ _), h2]
    · have hsub2 : S <+: S ++ x :: rel := List.prefix_append _ _
      exact ih2 hok hA hnd2 x rel m d hxr
        (inTree_agree _ S hag.symm ht) (by rw [hag _ hsub2]; exact hg)

/-- The copy of a tree to a new destination whose parent exists, apart from
the source: on success the destination holds every regular file of the source
tree with the same bytes and mode, a directory for every directory of the source
tree, and nothing else. -/
theorem CopyDir_mirrors_tree {n : Nat} {fs fs2 : FS} {src dest : Path} {S D : Loc}
    (hS : resolve fs (Clean src) = .ok S) (hD : resolve fs dest = .ok D) (hA : Apart S D)
    (hnew : ∀ loc, D <+: loc → fs.get loc = none)
    (h : CopyDir n fs src dest = some (fs2, none)) :
    resolve fs2 (Clean dest) = .ok D ∧
      (∀ rel m d, inTree fs S rel → fs.get (S ++ rel) = some (.file m d) →
        fs2.get (D ++ rel) = some (.file m d)) ∧
      (∀ rel m, inTree fs S rel → fs.get (S ++ rel) = some (.dir m) →
        ∃ m2, fs2.get (D ++ rel) = some (.dir m2)) ∧
      (∀ rel, fs2.get (D ++ rel) ≠ none → inTree fs S rel) := by
  rcases CopyDir_dircopy n fs src dest D fs2 none (LocalDest_of_resolve hD) h with
    ⟨hne, _⟩ | ⟨SL, hSL, hcopy⟩
  · exact absurd rfl hne
  · rw [hS] at hSL
    cases hSL
    have hst := hcopy.preserves
    have hchanged := hcopy.changed hA
    rcases hcopy with ⟨hf, _⟩ | ⟨fs1, he, hrun⟩
    · simp at hf
    · simp only [Option.isNone_none] at hrun
      obtain ⟨m0, hm0, hent⟩ := id he
      have hDnone : fs.get D = none := hnew D (List.prefix_refl D)
      have hfs1 : ∃ m2, fs1 = fs.put D (.dir m2) := by
        rcases hent with ⟨_, dm, hdm⟩ | ⟨_, h1⟩
        · rw [hDnone] at hdm; cases hdm
        · exact h1
      have hag : AgreeUnder S fs fs1 := AgreeUnder.of_confined hA (fun l hne => by
        rw [(he.atDest l hne).1])
      have hx : ∀ x rel, inTree fs S (x :: rel) → x ∈ listing fs1 S := by
        intro x rel ht
        rw [mem_listing]
        exact ⟨ht.2.1, inTree_exists (inTree_stable he.keeps _ _ ht.2.2)⟩
      refine ⟨resolve_stable hst (resolve_Clean hD), ?_, ?_, ?_⟩
      · intro rel m d ht hg
        cases rel with
        | nil =>
          simp only [List.append_nil] at hg
          rw [hm0] at hg
          cases hg
        | cons x rel2 =>
          exact hrun.files rfl hA (listing_nodup _ _) x rel2 m d (hx x rel2 ht)
            (inTree_stable he.keeps _ _ ht) (by rw [hag _ (List.prefix_append _ _)]; exact hg)
      · intro rel m ht hg
        cases rel with
        | nil =>
          simp only [List.append_nil] at hg ⊢
          rw [hm0] at hg
          cases hg
          obtain ⟨m2, hfs1⟩ := hfs1
          refine ⟨m2, ?_⟩
          apply hrun.stable.get_dir
          rw [hfs1, get_put, if_pos rfl]
        | cons x rel2 =>
          obtain ⟨m2, h1, _⟩ := hrun.dirs rfl (listing_nodup _ _) x rel2 m (hx x rel2 ht)
            (inTree_stable he.keeps _ _ ht) (he.keeps.get_dir hg)
          exact ⟨m2, h1⟩
      · intro rel hex
        have hne : fs2.get (D ++ rel) ≠ fs.get (D ++ rel) := by
          rw [hnew _ (List.prefix_append _ _)]; exact hex
        rcases hchanged _ hne with ⟨heq, _⟩ | ⟨rel2, _, heq, ht, _⟩
        · have : rel = [] := by
            have := congrArg List.length heq
            simp at this
            exact this
          subst this
          simp only [inTree]
          rw [hm0]; simp
        · rw [List.append_cancel_left heq]
          exact ht

/-! ## Fail-fast -/

/-- C7 refuted: `/a` lists the unreadable file `a0` and then the directory `b`.
CopyDir from `/a` to `/dest/b/..` fails at `a0`, the first entry, and yet
`/dest/b`, the destination of the later entry `b`, has been created: `MkdirAll`
made it on the way to the destination directory `/dest`. -/
theorem CopyDir_creates_later_entry :
    ReadDir scenarioUnreadable ["", "a"] = .ok [⟨"a0", false⟩, ⟨"b", true⟩] ∧
    scenarioUnreadable.get ["dest", "b"] = none ∧
    ∃ fs2 err,
      CopyDir 2 scenarioUnreadable ["", "a"] ["", "dest", "b", ".."] = some (fs2, some err) ∧
      err.text = "copying a0: opening the input file: open /a/a0: permission denied" ∧
      resolve fs2 (Clean ["", "dest", "b", ".."]) = .ok ["dest"] ∧
      fs2.get ["dest", "b"] = some (.dir 0o755) := by
  refine ⟨by decide, by decide, _, _, rfl, by decide, by decide, by decide⟩

/-- C7 (amended): CopyDir is fail-fast over the listing, which is in ascending
name order.  When the preamble has succeeded, the entries before `e` have been
copied without error and the copy of `e` fails with `E`, CopyDir returns `E`
wrapped with "copying <name of e>".  Whatever lies under the destination entry
of an earlier entry is as its copy left it: it holds a directory for each
directory of the source entry and, when the destination directory lies apart
from the source directory, the regular files of the source entry with their
bytes and modes.
Under the destination entries of the later ones the loop creates and modifies
nothing: what lies there is what lay there before the call, or a directory that
`MkdirAll` made while creating the destination; and nothing at all is created
there when dest could be looked up before the call or is written without `.`,
`..` or empty segments. -/
theorem CopyDir_fail_fast (n : Nat) (fs fs1 fsk fse : FS) (src dest : Path) (fi : FileInfo)
    (pre post : List DirEntry) (e : DirEntry) (E : Error)
    (hS : Stat fs (Clean src) = .ok fi) (hdir : fi.isDir = true)
    (hlook : ∀ err, Stat fs dest = .error err → IsNotExist (some err) = true)
    (hM : MkdirAll fs dest fi.mode = (fs1, none))
    (hR : ReadDir fs1 src = .ok (pre ++ e :: post))
    (hpre : copyEntries (CopyDir n) (Clean src) (Clean dest) fs1 pre = some (fsk, none))
    (hfail : copyEntry (CopyDir n) (Clean src) (Clean dest) fsk e = some (fse, some E)) :
    CopyDir (n + 1) fs src dest = some (fse, some (.wrap E ("copying " ++ e.name))) ∧
    (Error.wrap E ("copying " ++ e.name)).text = "copying " ++ e.name ++ ": " ++ E.text ∧
    ((pre ++ e :: post).map DirEntry.name).Sorted nameLE ∧
    ∃ S D, resolve fs1 (Clean src) = .ok S ∧ resolve fs1 (Clean dest) = .ok D ∧
      (∀ pre1 p pre2 fsp, pre = pre1 ++ p :: pre2 →
        copyEntries (CopyDir n) (Clean src) (Clean dest) fs1 (pre1 ++ [p]) = some (fsp, none) →
        ∀ loc, (D ++ [p.name]) <+: loc → fse.get loc = fsp.get loc) ∧
      (∀ p ∈ pre, ∀ rel, inTree fs1 S (p.name :: rel) →
        (∀ m, fs1.get (S ++ p.name :: rel) = some (.dir m) →
          ∃ m2, fse.get (D ++ p.name :: rel) = some (.dir m2)) ∧
        (Apart S D → ∀ m d, fs1.get (S ++ p.name :: rel) = some (.file m d) →
          fse.get (D ++ p.name :: rel) = some (.file m d))) ∧
      (∀ q ∈ post, ∀ loc, (D ++ [q.name]) <+: loc →
        fse.get loc = fs1.get loc ∧
        (fse.get loc = fs.get loc ∨ (fs.get loc = none ∧ ∃ m, fse.get loc = some (.dir m))) ∧
        ((∃ D0, resolve fs dest = .ok D0) ∨ plainPath dest = true →
          fse.get loc = fs.get loc)) := by
  obtain ⟨D, dm, hD, hg⟩ := MkdirAllAux_post _ _ _ _ _ hM
  obtain ⟨S, hctx, hnames⟩ := LoopCtx.of_ReadDir hR hD hg
  have hnodup : ((pre ++ e :: post).map DirEntry.name).Nodup := by
    rw [hnames]; exact listing_nodup fs1 S
  have hstep : copyEntries (CopyDir n) (Clean src) (Clean dest) fsk (e :: post)
      = some (fse, some (.wrap E ("copying " ++ e.name))) := by
    rw [copyEntries_cons, hfail]
  have hone : copyEntries (CopyDir n) (Clean src) (Clean dest) fsk [e]
      = some (fse, some (.wrap E ("copying " ++ e.name))) := by
    rw [copyEntries_cons, hfail]
  -- the runs
  have hrunpre := (@LoopCtx.mono _ _ _ _ _ _ pre hctx (fun x hx => List.mem_append_left _ hx)).run hpre
  have hctxk : LoopCtx fsk (Clean src) (Clean dest) S D (pre ++ e :: post) :=
    hctx.carry hrunpre.stable
  have hrune := (@LoopCtx.mono _ _ _ _ _ _ [e] hctxk (fun x hx => by
    rw [List.mem_singleton.1 hx]; exact List.mem_append_right _ (List.mem_cons_self _ _))).run hone
  simp only [List.map_append, List.map_cons] at hnodup
  have hndpre : (pre.map DirEntry.name).Nodup := (List.nodup_append.1 hnodup).1
  have hnotE : ∀ p ∈ pre, p.name ∉ [e].map DirEntry.name := by
    intro p hp hx
    simp only [List.map_cons, List.map_nil, List.mem_singleton] at hx
    exact (List.nodup_append.1 hnodup).2.2 (List.mem_map.2 ⟨p, hp, rfl⟩)
      (by rw [hx]; exact List.mem_cons_self _ _)
  refine ⟨?_, rfl, ?_, S, D, hctx.1, hD, ?_, ?_, ?_⟩
  · rw [CopyDir_succ_eq_loop hS hdir hlook hM hR, copyEntries_append, hpre]
    exact hstep
  · rw [hnames]; exact listing_sorted fs1 S
  · intro pre1 p pre2 fsp hsplit hp loc hl
    subst hsplit
    have hrun1 := (@LoopCtx.mono _ _ _ _ _ _ (pre1 ++ [p]) hctx (fun x hx => by
      apply List.mem_append_left
      rcases List.mem_append.1 hx with h | h
      · exact List.mem_append_left _ h
      · rw [List.mem_singleton.1 h]
        exact List.mem_append_right _ (List.mem_cons_self _ _))).run hp
    have hpre2 : copyEntries (CopyDir n) (Clean src) (Clean dest) fsp pre2 = some (fsk, none) := by
      have : pre1 ++ p :: pre2 = (pre1 ++ [p]) ++ pre2 := by simp
      rw [this, copyEntries_append, hp] at hpre
      exact hpre
    have hrun2 := (@LoopCtx.mono _ _ _ _ _ _ pre2 (hctx.carry hrun1.stable) (fun x hx =>
      List.mem_append_left _ (List.mem_append_right _ (List.mem_cons_of_mem _ hx)))).run hpre2
    simp only [List.map_append, List.map_cons, List.append_assoc, List.cons_append] at hnodup
    have hnd := (List.nodup_append.1 hnodup).2.1
    have hnd2 := List.nodup_cons.1 hnd
    have hp2 : p.name ∉ pre2.map DirEntry.name := fun hx =>
      hnd2.1 (List.mem_append_left _ hx)
    have hpe : p.name ∉ [e].map DirEntry.name := by
      intro hx
      simp only [List.map_cons, List.map_nil, List.mem_singleton] at hx
      exact hnd2.1 (List.mem_append_right _ (by rw [hx]; exact List.mem_cons_self _ _))
    rw [hrune.untouched hpe hl, hrun2.untouched hp2 hl]
  · intro p hp rel ht
    have hmem : p.name ∈ pre.map DirEntry.name := List.mem_map.2 ⟨p, hp, rfl⟩
    have hl : (D ++ [p.name]) <+: (D ++ p.name :: rel) := by
      have : D ++ p.name :: rel = (D ++ [p.name]) ++ rel := by simp
      rw [this]; exact List.prefix_append _ _
    have hsame := hrune.untouched (hnotE p hp) hl
    constructor
    · intro m hd
      obtain ⟨m2, h2, _⟩ := hrunpre.dirs rfl hndpre p.name rel m hmem ht hd
      exact ⟨m2, by rw [hsame]; exact h2⟩
    · intro hA m d hfile
      rw [hsame]
      exact hrunpre.files rfl hA hndpre p.name rel m d hmem ht hfile
  · intro q hq loc hl
    have hnd := List.nodup_append.1 hnodup
    have hqmem : q.name ∈ (e.name :: post.map DirEntry.name) :=
      List.mem_cons_of_mem _ (List.mem_map.2 ⟨q, hq, rfl⟩)
    have hq1 : q.name ∉ pre.map DirEntry.name := fun hx => hnd.2.2 hx hqmem
    have hq2 : q.name ∉ [e].map DirEntry.name := by
      intro hx
      simp only [List.map_cons, List.map_nil, List.mem_singleton] at hx
      have := (List.nodup_cons.1 hnd.2.1).1
      rw [← hx] at this
      exact this (List.mem_map.2 ⟨q, hq, rfl⟩)
    have h1 : fse.get loc = fs1.get loc := by
      rw [hrune.untouched hq2 hl, hrunpre.untouched hq1 hl]
    refine ⟨h1, ?_, ?_⟩
    · rw [h1]
      by_cases hne : fs1.get loc = fs.get loc
      · exact Or.inl hne
      · exact Or.inr ((MkdirAllAux_frame _ _ _ _ _ _ hM).2 loc hne)
    · rintro (⟨D0, hD0⟩ | hp)
      swap
      · rw [h1]
        by_contra hne
        have hlen1 := (MkdirAll_plain hp hM hD loc hne).length_le
        have hlen2 := hl.length_le
        simp only [List.length_append, List.length_singleton] at hlen2
        omega
      rw [h1]
      rcases LocalDest_of_resolve hD0 with ⟨er, _, he⟩ | ⟨hres, hmk⟩
      · rw [hD0] at he; cases he
      · rcases hmk fi.mode with ⟨_, _, _, hM2⟩ | ⟨err, hM2⟩ | ⟨_, m2, hM2⟩
        · rw [hM] at hM2
          simp only [Prod.mk.injEq, and_true] at hM2
          rw [hM2]
        · rw [hM] at hM2
          simp at hM2
        · rw [hM] at hM2
          simp only [Prod.mk.injEq, and_true] at hM2
          have hDD : D = D0 := by
            have := resolve_stable (MkdirAll_stable hM) hres
            rw [hD] at this
            exact Except.ok.inj this
          subst hDD
          rw [hM2, get_put, if_neg]
          intro heq
          have hlen := hl.length_le
          rw [← heq] at hlen
          simp at hlen



/-- C7 (amended) at a concrete input: `/a` lists `b`, `f.txt`, `z.txt`; `b` is
copied, the copy of `f.txt` fails because `/dest/f.txt` is a directory, `z.txt`
is not reached. -/
theorem CopyDir_fail_fast_witness :
    CopyDir (1 + 1) scenarioClash ["", "a"] ["", "dest"]
      = some (clashAfterB, some (.wrap
          (.wrap (.pathError "open" ["", "dest", "f.txt"] .EISDIR) "creating the output file")
          ("copying " ++ (DirEntry.mk "f.txt" false).name))) ∧
    (Error.wrap
        (.wrap (.pathError "open" ["", "dest", "f.txt"] .EISDIR) "creating the output file")
        ("copying " ++ (DirEntry.mk "f.txt" false).name)).text
      = "copying " ++ (DirEntry.mk "f.txt" false).name ++ ": "
        ++ (Error.wrap (.pathError "open" ["", "dest", "f.txt"] .EISDIR)
            "creating the output file").text ∧
    (([DirEntry.mk "b" true] ++ DirEntry.mk "f.txt" false :: [DirEntry.mk "z.txt" false]).map
      DirEntry.name).Sorted nameLE ∧
    ∃ S D, resolve scenarioClash (Clean ["", "a"]) = .ok S ∧
      resolve scenarioClash (Clean ["", "dest"]) = .ok D ∧
      (∀ pre1 p pre2 fsp, [DirEntry.mk "b" true] = pre1 ++ p :: pre2 →
        copyEntries (CopyDir 1) (Clean ["", "a"]) (Clean ["", "dest"]) scenarioClash
          (pre1 ++ [p]) = some (fsp, none) →
        ∀ loc, (D ++ [p.name]) <+: loc → clashAfterB.get loc = fsp.get loc) ∧
      (∀ p ∈ [DirEntry.mk "b" true], ∀ rel, inTree scenarioClash S (p.name :: rel) →
        (∀ m, scenarioClash.get (S ++ p.name :: rel) = some (.dir m) →
          ∃ m2, clashAfterB.get (D ++ p.name :: rel) = some (.dir m2)) ∧
        (Apart S D → ∀ m d, scenarioClash.get (S ++ p.name :: rel) = some (.file m d) →
          clashAfterB.get (D ++ p.name :: rel) = some (.file m d))) ∧
      (∀ q ∈ [DirEntry.mk "z.txt" false], ∀ loc, (D ++ [q.name]) <+: loc →
        clashAfterB.get loc = scenarioClash.get loc ∧
        (clashAfterB.get loc = scenarioClash.get loc ∨
          (scenarioClash.get loc = none ∧ ∃ m, clashAfterB.get loc = some (.dir m))) ∧
        ((∃ D0, resolve scenarioClash ["", "dest"] = .ok D0) ∨
            plainPath ["", "dest"] = true →
          clashAfterB.get loc = scenarioClash.get loc)) :=
  CopyDir_fail_fast 1 scenarioClash scenarioClash clashAfterB clashAfterB ["", "a"] ["", "dest"]
    ⟨true, 0o755⟩ [DirEntry.mk "b" true] [DirEntry.mk "z.txt" false] (DirEntry.mk "f.txt" false)
    (.wrap (.pathError "open" ["", "dest", "f.txt"] .EISDIR) "creating the output file")
    (by decide) (by decide)
    (by
      intro err h
      have hs : Stat scenarioClash ["", "dest"] = .ok ⟨true, 0o755⟩ := by decide
      rw [hs] at h
      cases h)
    (by decide) (by decide) (by decide) (by decide)

/-! ## The remaining stages of CopyDir and FileExists -/

/-- When the cleaned source path cannot be stat-ed, CopyDir returns the stat
error wrapped and leaves the state as it is. -/
theorem CopyDir_source_missing {fs : FS} {src : Path} {err : Error} (n : Nat) (dest : Path)
    (h : Stat fs (Clean src) = .error err) :
    CopyDir (n + 1) fs src dest
      = some (fs, some (.wrap err "getting the file info for the input")) := by
  unfold CopyDir
  simp only [h]

/-- When the cleaned source path is not a directory, CopyDir returns "source is
not a directory" and leaves the state as it is. -/
theorem CopyDir_source_not_dir {fs : FS} {src : Path} {fi : FileInfo} (n : Nat) (dest : Path)
    (h : Stat fs (Clean src) = .ok fi) (hd : fi.isDir = false) :
    CopyDir (n + 1) fs src dest = some (fs, some (.new "source is not a directory")) := by
  unfold CopyDir
  simp only [h, hd, Bool.not_false, if_true]

/-- FileExists is true for every path that can be stat-ed. -/
theorem FileExists_of_stat {fs : FS} {p : Path} {fi : FileInfo} (h : Stat fs p = .ok fi) :
    FileExists fs p = true := by
  simp [FileExists, h, IsNotExist]

/-- FileExists is false for a path whose walk goes through existing,
searchable directories to a name that is not there. -/
theorem FileExists_of_absent {fs : FS} {p : Path} {l : Loc} (hr : resolve fs p = .ok l)
    (hg : fs.get l = none) : FileExists fs p = false := by
  simp [FileExists, Stat_of_none hr hg, IsNotExist]

/-- FileExists is true for a name of more than 255 bytes in a searchable
working directory, whether or not anything is there: the stat fails with
ENAMETOOLONG, which is not the not-found condition. -/
theorem FileExists_of_long_name {fs : FS} {s : String} (hlen : 255 < s.utf8ByteSize)
    (hcwd : searchable fs fs.cwd = .ok ()) : FileExists fs [s] = true := by
  have hs : s ≠ "" := by
    rintro rfl
    exact absurd hlen (by decide)
  have hr : resolve fs [s] = .error .ENAMETOOLONG := by
    unfold resolve
    rw [isEmptyPath_cons_ne hs, isRooted_cons_ne hs]
    simp only [Bool.false_eq_true, if_false]
    split
    · rfl
    · simp [walkFrom, hcwd, hlen]
  simp [FileExists, Stat_error_of_resolve hr, IsNotExist]

/-- FileExists is false for the empty path. -/
theorem FileExists_empty (fs : FS) : FileExists fs [""] = false := by
  simp [FileExists, Stat, resolve, isEmptyPath, IsNotExist]
